import Mathlib

/-!
# Unscented Kalman filter (`src/src/ukf.cpp`): model and checked properties

The C++ class `UKF` is embedded as a record of its member variables with one
Lean function per member function, each taking the filter state and returning
the new one.

Conventions of the embedding

* `double` values are elements of an ordered field `α` with a floor function
  (`ℚ` and `ℝ` are instances); arithmetic is exact, rounding is not modelled.
  The one exception is the angle-normalization loops, whose termination
  depends on rounding: section `Binary64` models them on binary64 numbers
  (rationals rounded to nearest, ties to even, after each operation).
* The routines the source calls but does not define (`cos`, `sin`, `sqrt`,
  `atan2`, the constant `M_PI` from `<cmath>`, and Eigen's
  `llt().matrixL()`) are the fields of `Env`. Nothing is assumed about them
  except `0 < M_PI`; a theorem that needs more says so in a hypothesis.
* Eigen's `inverse()` is the exact inverse `det⁻¹ • adjugate`.
* A quotient with denominator 0 (`inf` or `NaN` in the source) has no
  counterpart in the model, where `x / 0 = 0`; every theorem whose proof
  uses the value of a quotient or of an inverse shows that the denominator or
  determinant is not zero.
* `n_x_ = 5` and `n_aug_ = 7` never change after construction and fix every
  matrix size (5, 7 and `2 * n_aug_ + 1 = 15`), so they are the constants
  `n_x` and `n_aug` and the sizes are written as numerals.
* Storage that the source allocates and reads before writing is an explicit
  argument (`x0` of the constructor, `R0` of `PredictRadarMeasurement`).
* `AugmentedSigmaPoints` parks its 7×15 result in `Xsig_pred_` for the
  immediately following `SigmaPointPrediction`; here that temporary is the
  return value and `Xsig_pred_` always holds the 5×15 predicted points.
* Timestamps (`long long`, microseconds) are integers; the `std::cout` traces
  are dropped.
-/

open Matrix

/-- State dimension `n_x_` (ukf.cpp line 67). -/
abbrev n_x : Nat := 5

/-- Augmented state dimension `n_aug_` (ukf.cpp line 70). -/
abbrev n_aug : Nat := 7

/-- Sensor kinds of `MeasurementPackage::SensorType`. -/
inductive SensorType where
  | LASER
  | RADAR
deriving DecidableEq, Repr

/-- Length of `raw_measurements_` for each sensor kind: `[px, py]` for the
laser, `[range, bearing, range_rate]` for the radar. -/
def SensorType.dim : SensorType → Nat
  | .LASER => 2
  | .RADAR => 3

/-- Measurement package handed to `ProcessMeasurement`. -/
structure MeasurementPackage (α : Type) where
  timestamp_ : Int
  sensor_type_ : SensorType
  raw_measurements_ : Fin sensor_type_.dim → α

/-- External numeric routines used by the filter. -/
structure Env (α : Type) [LinearOrderedField α] where
  cos : α → α
  sin : α → α
  sqrt : α → α
  atan2 : α → α → α
  M_PI : α
  llt : Matrix (Fin 7) (Fin 7) α → Matrix (Fin 7) (Fin 7) α
  M_PI_pos : 0 < M_PI

/-- Member variables of the class `UKF`. -/
structure UKF (α : Type) where
  use_laser_ : Bool
  use_radar_ : Bool
  x_ : Fin 5 → α
  P_ : Matrix (Fin 5) (Fin 5) α
  std_a_ : α
  std_yawdd_ : α
  std_laspx_ : α
  std_laspy_ : α
  std_radr_ : α
  std_radphi_ : α
  std_radrd_ : α
  is_initialized_ : Bool
  time_us_ : Int
  lambda_ : α
  Xsig_pred_ : Matrix (Fin 5) (Fin 15) α
  weights_ : Fin 15 → α

section Loops

variable {α : Type} [LinearOrderedField α]

/-- Loop `while (d > M_PI) d -= 2.*M_PI;` (lines 274, 372, 422, 433). -/
def whileGtPi [FloorRing α] (pi : α) (hpi : 0 < pi) (d : α) : α :=
  if d > pi then whileGtPi pi hpi (d - 2 * pi) else d
termination_by (⌈(d - pi) / (2 * pi)⌉).toNat
decreasing_by
  rename_i h
  have h2 : (0 : α) < 2 * pi := by positivity
  have e : (d - 2 * pi - pi) / (2 * pi) = (d - pi) / (2 * pi) - 1 := by
    field_simp
    ring
  rw [e, Int.ceil_sub_one]
  have hpos : 0 < ⌈(d - pi) / (2 * pi)⌉ :=
    Int.ceil_pos.mpr (div_pos (sub_pos.mpr h) h2)
  omega

/-- Loop `while (d >= M_PI) d -= 2.*M_PI;` (line 446). -/
def whileGePi [FloorRing α] (pi : α) (hpi : 0 < pi) (d : α) : α :=
  if d ≥ pi then whileGePi pi hpi (d - 2 * pi) else d
termination_by (⌊(d - pi) / (2 * pi)⌋ + 1).toNat
decreasing_by
  rename_i h
  have h2 : (0 : α) < 2 * pi := by positivity
  have e : (d - 2 * pi - pi) / (2 * pi) = (d - pi) / (2 * pi) - 1 := by
    field_simp
    ring
  rw [e, Int.floor_sub_one]
  have hpos : 0 ≤ ⌊(d - pi) / (2 * pi)⌋ :=
    Int.floor_nonneg.mpr (div_nonneg (sub_nonneg.mpr h) h2.le)
  omega

/-- Loop `while (d < -M_PI) d += 2.*M_PI;` (lines 275, 373, 426, 434, 450). -/
def whileLtNegPi [FloorRing α] (pi : α) (hpi : 0 < pi) (d : α) : α :=
  if d < -pi then whileLtNegPi pi hpi (d + 2 * pi) else d
termination_by (⌈(-pi - d) / (2 * pi)⌉).toNat
decreasing_by
  rename_i h
  have h2 : (0 : α) < 2 * pi := by positivity
  have e : (-pi - (d + 2 * pi)) / (2 * pi) = (-pi - d) / (2 * pi) - 1 := by
    field_simp
    ring
  rw [e, Int.ceil_sub_one]
  have hpos : 0 < ⌈(-pi - d) / (2 * pi)⌉ :=
    Int.ceil_pos.mpr (div_pos (sub_pos.mpr h) h2)
  omega

/-- The two loops under each `// angle normalization` comment that use the
strict comparisons `>` and `<`. -/
def normalizeAngle [FloorRing α] (pi : α) (hpi : 0 < pi) (d : α) : α :=
  whileLtNegPi pi hpi (whileGtPi pi hpi d)

/-- The two loops normalizing the final radar residual (lines 446-452); the
first one compares with `>=`. -/
def normalizeAngleGe [FloorRing α] (pi : α) (hpi : 0 < pi) (d : α) : α :=
  whileLtNegPi pi hpi (whileGePi pi hpi d)

end Loops

section Model

variable {α : Type} [LinearOrderedField α]

/-- Coefficient assignment `M(i, j) = v` on an Eigen matrix. -/
def setCoeff {m n : Nat} (M : Matrix (Fin m) (Fin n) α) (i : Fin m) (j : Fin n) (v : α) :
    Matrix (Fin m) (Fin n) α :=
  Matrix.of fun r c => if r = i ∧ c = j then v else M r c

/-- Eigen's `M.inverse()` in exact arithmetic. -/
def inverse {n : Nat} (M : Matrix (Fin n) (Fin n) α) : Matrix (Fin n) (Fin n) α :=
  (M.det)⁻¹ • M.adjugate

/-- Spreading parameter `lambda_ = 3 - n_aug_` (line 73), for an augmented
dimension `n`; the subtraction is done on `int`s. -/
def lambdaInit (n : Nat) : α :=
  ((3 - (n : Int) : Int) : α)

/-- Weights of the sigma points as the constructor builds them (lines 80-88),
for an augmented dimension `n`. -/
def weightsInit (n : Nat) : Fin (2 * n + 1) → α :=
  let weight_0 : α := lambdaInit n / (lambdaInit n + (n : α))
  let weight : α := 0.5 / (lambdaInit n + (n : α))
  fun i => if i.val = 0 then weight_0 else weight

/-- Constructor `UKF::UKF()`; `x0` is the content of the vector `x_`, which
the constructor allocates without filling. -/
def UKF.new (x0 : Fin 5 → α) : UKF α where
  use_laser_ := true
  use_radar_ := false
  x_ := x0
  P_ := 1
  std_a_ := 2.5
  std_yawdd_ := 1
  std_laspx_ := 0.15
  std_laspy_ := 0.15
  std_radr_ := 0.3
  std_radphi_ := 0.03
  std_radrd_ := 0.3
  is_initialized_ := false
  time_us_ := 0
  lambda_ := lambdaInit n_aug
  Xsig_pred_ := 0
  weights_ := weightsInit n_aug

/-- Augmented mean `x_aug` of `AugmentedSigmaPoints` (lines 184-186). -/
def UKF.x_aug (s : UKF α) : Fin 7 → α :=
  ![s.x_ 0, s.x_ 1, s.x_ 2, s.x_ 3, s.x_ 4, 0.0, 0.0]

/-- Augmented covariance `P_aug` of `AugmentedSigmaPoints` (lines 189-192). -/
def UKF.P_aug (s : UKF α) : Matrix (Fin 7) (Fin 7) α :=
  Matrix.of fun i j =>
    if h : i.val < 5 ∧ j.val < 5 then s.P_ ⟨i.val, h.1⟩ ⟨j.val, h.2⟩
    else if i.val = 5 ∧ j.val = 5 then s.std_a_ * s.std_a_
    else if i.val = 6 ∧ j.val = 6 then s.std_yawdd_ * s.std_yawdd_
    else 0.0

/-- Sigma-point matrix built by the loop of lines 198-203 from the mean
`x_aug`, the square root `A` and the factor `c = sqrt(n_aug_ + lambda_)`:
column 0 is `x_aug`, column `i+1` is `x_aug + c*A.col(i)` and column
`i+1+n_aug_` is `x_aug - c*A.col(i)`. -/
def sigmaColumns (c : α) (x_aug : Fin 7 → α) (A : Matrix (Fin 7) (Fin 7) α) :
    Matrix (Fin 7) (Fin 15) α :=
  Matrix.of fun r j =>
    if j.val = 0 then x_aug r
    else if h : j.val < 7 + 1 then
      x_aug r + c * A r ⟨j.val - 1, by omega⟩
    else
      x_aug r - c * A r ⟨j.val - 1 - 7, by omega⟩

/-- Member function `UKF::AugmentedSigmaPoints`; returns `Xsig_aug`. -/
def UKF.AugmentedSigmaPoints (E : Env α) (s : UKF α) :
    Matrix (Fin 7) (Fin 15) α :=
  let A := E.llt s.P_aug
  sigmaColumns (E.sqrt ((n_aug : α) + s.lambda_)) s.x_aug A

/-- Body of the loop of `SigmaPointPrediction` (lines 216-248): the CTRV
motion model applied to one augmented sigma point `c`. -/
def ctrvStep (E : Env α) (delta_t : α) (c : Fin 7 → α) : Fin 5 → α :=
  let p_x := c 0
  let p_y := c 1
  let v := c 2
  let yaw := c 3
  let yawd := c 4
  let nu_a := c 5
  let nu_yawdd := c 6
  let px_p :=
    if |yawd| > 0.001 then p_x + v / yawd * (E.sin (yaw + yawd * delta_t) - E.sin yaw)
    else p_x + v * E.cos yaw * delta_t
  let py_p :=
    if |yawd| > 0.001 then p_y + v / yawd * (-E.cos (yaw + yawd * delta_t) + E.cos yaw)
    else p_y + v * E.sin yaw * delta_t
  let v_p := v
  let yaw_p := yaw + yawd * delta_t
  let yawd_p := yawd
  ![px_p + 0.5 * delta_t * delta_t * E.cos yaw * nu_a,
    py_p + 0.5 * delta_t * delta_t * E.sin yaw * nu_a,
    v_p + delta_t * nu_a,
    yaw_p + 0.5 * delta_t * delta_t * nu_yawdd,
    yawd_p + delta_t * nu_yawdd]

/-- Member function `UKF::SigmaPointPrediction`, reading the augmented sigma
points `Xsig_aug` left by `AugmentedSigmaPoints`. -/
def UKF.SigmaPointPrediction (E : Env α) (s : UKF α)
    (Xsig_aug : Matrix (Fin 7) (Fin 15) α) (delta_t : α) : UKF α :=
  { s with Xsig_pred_ := Matrix.of fun r i => ctrvStep E delta_t (fun k => Xsig_aug k i) r }

/-- Difference `Xsig_pred_.col(i) - x` with its yaw component normalized
(lines 271-275, 431-434). -/
def xDiff [FloorRing α] (E : Env α) (Xsig_pred : Matrix (Fin 5) (Fin 15) α)
    (x : Fin 5 → α) (i : Fin 15) : Fin 5 → α :=
  let x_diff : Fin 5 → α := fun r => Xsig_pred r i - x r
  Function.update x_diff 3 (normalizeAngle E.M_PI E.M_PI_pos (x_diff 3))

/-- Member function `UKF::PredictMeanAndCovariance`. -/
def UKF.PredictMeanAndCovariance [FloorRing α] (E : Env α) (s : UKF α) : UKF α :=
  let x : Fin 5 → α := s.Xsig_pred_ *ᵥ s.weights_
  let P : Matrix (Fin 5) (Fin 5) α :=
    ∑ i, s.weights_ i • vecMulVec (xDiff E s.Xsig_pred_ x i) (xDiff E s.Xsig_pred_ x i)
  { s with x_ := x, P_ := P }

/-- Member function `UKF::Prediction`. -/
def UKF.Prediction [FloorRing α] (E : Env α) (s : UKF α) (delta_t : α) : UKF α :=
  let Xsig_aug := s.AugmentedSigmaPoints E
  let s1 := s.SigmaPointPrediction E Xsig_aug delta_t
  s1.PredictMeanAndCovariance E

/-- Measurement matrix `H` of `UpdateLidar` (lines 307-309). -/
def lidarH : Matrix (Fin 2) (Fin 5) α :=
  !![1, 0, 0, 0, 0;
     0, 1, 0, 0, 0]

/-- Member function `UKF::UpdateLidar`; `z` is `meas_package.raw_measurements_`. -/
def UKF.UpdateLidar (s : UKF α) (z : Fin 2 → α) : UKF α :=
  let H : Matrix (Fin 2) (Fin 5) α := lidarH
  let R : Matrix (Fin 2) (Fin 2) α :=
    !![s.std_laspx_ * s.std_laspx_, 0;
       0, s.std_laspy_ * s.std_laspy_]
  let z_pred := H *ᵥ s.x_
  let y := z - z_pred
  let Ht := Hᵀ
  let S := H * s.P_ * Ht + R
  let Si := inverse S
  let PHt := s.P_ * Ht
  let K := PHt * Si
  { s with x_ := s.x_ + K *ᵥ y, P_ := (1 - K * H) * s.P_ }

/-- Member function `UKF::PredictRadarMeasurement`; returns `Zsig`, `z_pred`
and `S`. `R0` is the content of the matrix `R` as allocated on line 377, of
which only the diagonal is assigned afterwards. -/
def UKF.PredictRadarMeasurement [FloorRing α] (E : Env α) (R0 : Matrix (Fin 3) (Fin 3) α)
    (s : UKF α) :
    Matrix (Fin 3) (Fin 15) α × (Fin 3 → α) × Matrix (Fin 3) (Fin 3) α :=
  let Zsig : Matrix (Fin 3) (Fin 15) α := Matrix.of fun r i =>
    let p_x := s.Xsig_pred_ 0 i
    let p_y := s.Xsig_pred_ 1 i
    let v := s.Xsig_pred_ 2 i
    let yaw := s.Xsig_pred_ 3 i
    let Zsig0 := E.sqrt (p_x * p_x + p_y * p_y)
    ![Zsig0, E.atan2 p_y p_x, (p_x * E.cos yaw * v + p_y * E.sin yaw * v) / Zsig0] r
  let z_pred : Fin 3 → α := Zsig *ᵥ s.weights_
  let z_diff : Fin 15 → Fin 3 → α := fun i =>
    let d : Fin 3 → α := fun r => Zsig r i - z_pred r
    Function.update d 1 (normalizeAngle E.M_PI E.M_PI_pos (d 1))
  let S : Matrix (Fin 3) (Fin 3) α := ∑ i, s.weights_ i • vecMulVec (z_diff i) (z_diff i)
  let R := setCoeff (setCoeff (setCoeff R0 0 0 (s.std_radr_ * s.std_radr_))
    1 1 (s.std_radphi_ * s.std_radphi_)) 2 2 (s.std_radrd_ * s.std_radrd_)
  (Zsig, z_pred, S + R)

/-- Member function `UKF::UpdateRadar`; `z` is `meas_package.raw_measurements_`. -/
def UKF.UpdateRadar [FloorRing α] (E : Env α) (R0 : Matrix (Fin 3) (Fin 3) α) (s : UKF α)
    (z : Fin 3 → α) : UKF α :=
  let (Zsig, z_pred, S) := s.PredictRadarMeasurement E R0
  let Tc : Matrix (Fin 5) (Fin 3) α := ∑ i,
    let d : Fin 3 → α := fun r => Zsig r i - z_pred r
    let z_diff := Function.update d 1 (normalizeAngle E.M_PI E.M_PI_pos (d 1))
    let x_diff := xDiff E s.Xsig_pred_ s.x_ i
    s.weights_ i • vecMulVec x_diff z_diff
  let K := Tc * inverse S
  let d : Fin 3 → α := z - z_pred
  let z_diff := Function.update d 1 (normalizeAngleGe E.M_PI E.M_PI_pos (d 1))
  { s with x_ := s.x_ + K *ᵥ z_diff, P_ := s.P_ - K * S * Kᵀ }

/-- Member function `UKF::ProcessMeasurement`. -/
def UKF.ProcessMeasurement [FloorRing α] (E : Env α) (R0 : Matrix (Fin 3) (Fin 3) α)
    (s : UKF α) (meas_package : MeasurementPackage α) : UKF α :=
  if !s.is_initialized_ then
    let s1 : UKF α :=
      match meas_package with
      | ⟨_, .RADAR, raw_measurements_⟩ =>
        let z : Fin 3 → α := raw_measurements_
        let range := z 0
        let az := z 1
        { s with
          x_ := ![range * E.cos az, range * E.sin az, 0, 0, 0]
          P_ := setCoeff (setCoeff (setCoeff (setCoeff (setCoeff s.P_
            0 0 (s.std_radr_ * s.std_radr_ * E.cos az * E.cos az
              + range * range * E.sin az * E.sin az * s.std_radphi_ * s.std_radphi_))
            1 1 (s.std_radr_ * s.std_radr_ * E.sin az * E.sin az
              + range * range * E.cos az * E.cos az * s.std_radphi_ * s.std_radphi_))
            2 2 10.0)
            3 3 ((2 * E.M_PI) * (2 * E.M_PI)))
            4 4 (0.5 * 0.5) }
      | ⟨_, .LASER, raw_measurements_⟩ =>
        let z : Fin 2 → α := raw_measurements_
        { s with
          x_ := ![z 0, z 1, 0, 0, 0]
          P_ := setCoeff (setCoeff (setCoeff (setCoeff (setCoeff s.P_
            0 0 (s.std_laspx_ * s.std_laspx_))
            1 1 (s.std_laspy_ * s.std_laspy_))
            2 2 1.0)
            3 3 ((2.0 * E.M_PI) * (2.0 * E.M_PI)))
            4 4 1 }
    { s1 with time_us_ := meas_package.timestamp_, is_initialized_ := true }
  else
    let delta_t : α := ((meas_package.timestamp_ - s.time_us_ : Int) : α) / 1000000.0
    let s1 : UKF α := { s with time_us_ := meas_package.timestamp_ }
    let s2 := s1.Prediction E delta_t
    match meas_package with
    | ⟨_, .RADAR, raw_measurements_⟩ =>
      if s2.use_radar_ then s2.UpdateRadar E R0 raw_measurements_ else s2
    | ⟨_, .LASER, raw_measurements_⟩ =>
      if s2.use_laser_ then s2.UpdateLidar raw_measurements_ else s2

end Model

section TestEnv

/-- A rational environment on which the model can be run. The sine and
cosine are their Taylor polynomials of degree 1 and 2 (exact at 0), `sqrt`
is exact on squares of rationals, `llt` is the Cholesky factor of a diagonal
matrix, `M_PI` is 22/7 and `atan2` is a rational placeholder. -/
def testEnv : Env ℚ where
  cos := fun x => 1 - x * x / 2
  sin := fun x => x
  sqrt := Rat.sqrt
  atan2 := fun y x => y / (1 + |x|)
  M_PI := 22 / 7
  llt := fun M => Matrix.diagonal fun i => Rat.sqrt (M i i)
  M_PI_pos := by norm_num

end TestEnv

section Predicates

variable {α : Type} [LinearOrderedField α]

/-- Symmetric positive semi-definite matrices: `M` equals its transpose and
`v^T M v >= 0` for every vector `v`. -/
def IsPSD {n : Nat} (M : Matrix (Fin n) (Fin n) α) : Prop :=
  Mᵀ = M ∧ ∀ v : Fin n → α, 0 ≤ v ⬝ᵥ (M *ᵥ v)

/-- What `llt().matrixL()` returns on `M`: a lower-triangular `A` with
`A * A^T = M`. -/
def IsLowerCholesky {n : Nat} (A M : Matrix (Fin n) (Fin n) α) : Prop :=
  (∀ i j, i < j → A i j = 0) ∧ A * Aᵀ = M

end Predicates

section Instrumented

variable {α : Type} [LinearOrderedField α]

/-- Symmetric positive definite matrices: `M` equals its transpose and
`v^T M v > 0` for every non-zero vector `v`. -/
def IsPD {n : Nat} (M : Matrix (Fin n) (Fin n) α) : Prop :=
  Mᵀ = M ∧ ∀ v : Fin n → α, v ≠ 0 → 0 < v ⬝ᵥ (M *ᵥ v)

/-- A loop `while (cond(d)) d = body(d);` run for at most `n` executions of
its body: `some r` when the loop exits within `n` iterations, `r` being the
value on exit, and `none` when the condition still holds after `n`
iterations. -/
def whileFuel (cond : α → Bool) (body : α → α) : Nat → α → Option α
  | 0, d => if cond d then none else some d
  | n + 1, d => if cond d then whileFuel cond body n (body d) else some d

/-- Position update of the branch `fabs(yawd) > 0.001` of
`SigmaPointPrediction` (lines 227-228), before the noise is added; `sin` and
`cos` are the library functions. -/
def ctrvCurved (sin cos : α → α) (p_x p_y v yaw yawd delta_t : α) : α × α :=
  (p_x + v / yawd * (sin (yaw + yawd * delta_t) - sin yaw),
   p_y + v / yawd * (-cos (yaw + yawd * delta_t) + cos yaw))

/-- Position update of the `else` branch of `SigmaPointPrediction`
(lines 230-231), before the noise is added. -/
def ctrvStraight (sin cos : α → α) (p_x p_y v yaw delta_t : α) : α × α :=
  (p_x + v * cos yaw * delta_t, p_y + v * sin yaw * delta_t)

/-- Weighted covariance of the measurement-space sigma points `Zsig` about
`z_pred`, with the bearing difference normalized before each outer product:
the sum that `PredictRadarMeasurement` accumulates in `S` on lines 366-376,
before the noise matrix is added. -/
def radarCov [FloorRing α] (E : Env α) (w : Fin 15 → α) (Zsig : Matrix (Fin 3) (Fin 15) α)
    (z_pred : Fin 3 → α) : Matrix (Fin 3) (Fin 3) α :=
  ∑ i, w i • vecMulVec
    (Function.update (fun r => Zsig r i - z_pred r) 1
      (normalizeAngle E.M_PI E.M_PI_pos (Zsig 1 i - z_pred 1)))
    (Function.update (fun r => Zsig r i - z_pred r) 1
      (normalizeAngle E.M_PI E.M_PI_pos (Zsig 1 i - z_pred 1)))

end Instrumented

section Binary64

/-- Nearest integer to `q`, a tie going to the even neighbour: the default
rounding direction of IEEE 754 arithmetic. -/
def roundTiesEven (q : ℚ) : ℤ :=
  if q - ⌊q⌋ < 1 / 2 then ⌊q⌋
  else if 1 / 2 < q - ⌊q⌋ then ⌊q⌋ + 1
  else if ⌊q⌋ % 2 = 0 then ⌊q⌋ else ⌊q⌋ + 1

/-- Exponent of the spacing of the binary64 numbers around `x`: 53 significant
bits, so the spacing is `2^(e - 52)` for `2^e <= |x| < 2^(e+1)`, and `2^-1074`
in the subnormal range. -/
def ulpExp (x : ℚ) : ℤ := max (Int.log 2 |x| - 52) (-1074)

/-- Rounding of the exact result `x` of an arithmetic operation to binary64
(the `double` of the source), round to nearest, ties to even. Overflow to
infinity is not modelled: no theorem below rounds a value above the largest
finite binary64 number. -/
def fl64 (x : ℚ) : ℚ := roundTiesEven (x / 2 ^ ulpExp x) * 2 ^ ulpExp x

/-- Finite binary64 numbers: `m * 2^e` with `|m| < 2^53` and
`-1074 <= e <= 971`. -/
def IsBinary64 (x : ℚ) : Prop :=
  ∃ m e : ℤ, |m| < 2 ^ 53 ∧ -1074 ≤ e ∧ e ≤ 971 ∧ x = (m : ℚ) * 2 ^ e

/-- Value of the constant `M_PI` of `<cmath>` (3.14159265358979323846) as a
binary64 number, `884279719003555 * 2^-48`. -/
def M_PI_binary64 : ℚ := 884279719003555 / 281474976710656

/-- Loop `while (d > M_PI) d -= 2.*M_PI;` (lines 274, 372, 422, 433) on
binary64 numbers, run for at most `n` executions of its body: the product
`2.*M_PI` and the difference are each rounded to binary64. -/
def whileGtPi64 (n : ℕ) (d : ℚ) : Option ℚ :=
  whileFuel (fun x => decide (x > M_PI_binary64))
    (fun x => fl64 (x - fl64 (2 * M_PI_binary64))) n d

/-- Loop `while (d >= M_PI) d -= 2.*M_PI;` (line 446) on binary64 numbers, run
for at most `n` executions of its body. -/
def whileGePi64 (n : ℕ) (d : ℚ) : Option ℚ :=
  whileFuel (fun x => decide (x ≥ M_PI_binary64))
    (fun x => fl64 (x - fl64 (2 * M_PI_binary64))) n d

/-- Loop `while (d < -M_PI) d += 2.*M_PI;` (lines 275, 373, 426, 434, 450) on
binary64 numbers, run for at most `n` executions of its body. -/
def whileLtNegPi64 (n : ℕ) (d : ℚ) : Option ℚ :=
  whileFuel (fun x => decide (x < -M_PI_binary64))
    (fun x => fl64 (x + fl64 (2 * M_PI_binary64))) n d

/-- The two loops under each `// angle normalization` comment on binary64
numbers, each run for at most `n` executions of its body; `none` when one of
them has not exited by then. -/
def normalizeAngle64 (n : ℕ) (d : ℚ) : Option ℚ :=
  (whileGtPi64 n d).bind (whileLtNegPi64 n)

/-- The two loops normalizing the final radar residual (lines 446-452) on
binary64 numbers, each run for at most `n` executions of its body. -/
def normalizeAngleGe64 (n : ℕ) (d : ℚ) : Option ℚ :=
  (whileGePi64 n d).bind (whileLtNegPi64 n)

/-- Each of the three binary64 loops, and each of the two-loop sequences,
started on `d` exits within `n` executions of its body, leaving a value on
the side of `M_PI` (or `-M_PI`) that its condition tests. -/
def LoopsExitWithin (n : ℕ) (d : ℚ) : Prop :=
  (∃ r, whileGtPi64 n d = some r ∧ r ≤ M_PI_binary64) ∧
  (∃ r, whileGePi64 n d = some r ∧ r < M_PI_binary64) ∧
  (∃ r, whileLtNegPi64 n d = some r ∧ -M_PI_binary64 ≤ r) ∧
  (∃ r, normalizeAngle64 n d = some r ∧ -M_PI_binary64 ≤ r) ∧
  (∃ r, normalizeAngleGe64 n d = some r ∧ -M_PI_binary64 ≤ r)

/-- Yaw component of `x_diff = Xsig_pred_.col(i) - x` as `Prediction(delta_t)`
computes it on line 271 of `PredictMeanAndCovariance`, before the loops of
lines 274-275 normalize it. -/
def UKF.yawDifference {α : Type} [LinearOrderedField α] (E : Env α) (s : UKF α) (delta_t : α)
    (i : Fin 15) : α :=
  let s1 := s.SigmaPointPrediction E (s.AugmentedSigmaPoints E) delta_t
  s1.Xsig_pred_ 3 i - (s1.Xsig_pred_ *ᵥ s1.weights_) 3

end Binary64

section FinValues

@[simp]
theorem fin5_val_three : ((3 : Fin 5) : ℕ) = 3 := rfl

@[simp]
theorem fin5_val_four : ((4 : Fin 5) : ℕ) = 4 := rfl

@[simp]
theorem fin7_val_three : ((3 : Fin 7) : ℕ) = 3 := rfl

@[simp]
theorem fin7_val_four : ((4 : Fin 7) : ℕ) = 4 := rfl

@[simp]
theorem fin7_val_five : ((5 : Fin 7) : ℕ) = 5 := rfl

@[simp]
theorem fin7_val_six : ((6 : Fin 7) : ℕ) = 6 := rfl

@[simp]
theorem fin15_val_three : ((3 : Fin 15) : ℕ) = 3 := rfl

@[simp]
theorem fin15_val_four : ((4 : Fin 15) : ℕ) = 4 := rfl

@[simp]
theorem fin15_val_five : ((5 : Fin 15) : ℕ) = 5 := rfl

@[simp]
theorem fin15_val_six : ((6 : Fin 15) : ℕ) = 6 := rfl

@[simp]
theorem fin15_val_seven : ((7 : Fin 15) : ℕ) = 7 := rfl

@[simp]
theorem fin15_val_eight : ((8 : Fin 15) : ℕ) = 8 := rfl

@[simp]
theorem fin15_val_nine : ((9 : Fin 15) : ℕ) = 9 := rfl

@[simp]
theorem fin15_val_ten : ((10 : Fin 15) : ℕ) = 10 := rfl

@[simp]
theorem fin15_val_eleven : ((11 : Fin 15) : ℕ) = 11 := rfl

@[simp]
theorem fin15_val_twelve : ((12 : Fin 15) : ℕ) = 12 := rfl

@[simp]
theorem fin15_val_thirteen : ((13 : Fin 15) : ℕ) = 13 := rfl

@[simp]
theorem fin15_val_fourteen : ((14 : Fin 15) : ℕ) = 14 := rfl

@[simp]
theorem vec7_val_five {β : Type} (a0 a1 a2 a3 a4 a5 a6 : β) :
    (![a0, a1, a2, a3, a4, a5, a6] : Fin 7 → β) 5 = a5 := rfl

@[simp]
theorem vec7_val_six {β : Type} (a0 a1 a2 a3 a4 a5 a6 : β) :
    (![a0, a1, a2, a3, a4, a5, a6] : Fin 7 → β) 6 = a6 := rfl

end FinValues

section Basic

variable {α : Type} [LinearOrderedField α]

/-- The function `Prediction` does not read or write the clock. -/
theorem Prediction_time_us [FloorRing α] (E : Env α) (s : UKF α) (dt : α) (t : Int) :
    UKF.Prediction E { s with time_us_ := t } dt = { UKF.Prediction E s dt with time_us_ := t } :=
  rfl

/-- The function `Prediction` keeps `is_initialized_`. -/
theorem Prediction_is_initialized [FloorRing α] (E : Env α) (s : UKF α) (dt : α) :
    (UKF.Prediction E s dt).is_initialized_ = s.is_initialized_ :=
  rfl

/-- The function `UpdateLidar` keeps `is_initialized_`. -/
theorem UpdateLidar_is_initialized (s : UKF α) (z : Fin 2 → α) :
    (UKF.UpdateLidar s z).is_initialized_ = s.is_initialized_ :=
  rfl

/-- The function `UpdateRadar` keeps `is_initialized_`. -/
theorem UpdateRadar_is_initialized [FloorRing α] (E : Env α) (R0 : Matrix (Fin 3) (Fin 3) α) (s : UKF α)
    (z : Fin 3 → α) : (UKF.UpdateRadar E R0 s z).is_initialized_ = s.is_initialized_ :=
  rfl

/-- Unfolding of `ProcessMeasurement` on an initialized filter, laser package. -/
theorem ProcessMeasurement_tracking_laser [FloorRing α] (E : Env α) (R0 : Matrix (Fin 3) (Fin 3) α)
    (s : UKF α) (t : Int) (z : Fin 2 → α) (h : s.is_initialized_ = true) :
    UKF.ProcessMeasurement E R0 s ⟨t, SensorType.LASER, z⟩ =
      if (UKF.Prediction E s (((t - s.time_us_ : Int) : α) / 1000000.0)).use_laser_ then
        UKF.UpdateLidar
          { UKF.Prediction E s (((t - s.time_us_ : Int) : α) / 1000000.0) with time_us_ := t } z
      else { UKF.Prediction E s (((t - s.time_us_ : Int) : α) / 1000000.0) with time_us_ := t } := by
  unfold UKF.ProcessMeasurement
  rw [if_neg (by rw [h]; decide)]
  rfl

/-- Unfolding of `ProcessMeasurement` on an initialized filter, radar package. -/
theorem ProcessMeasurement_tracking_radar [FloorRing α] (E : Env α) (R0 : Matrix (Fin 3) (Fin 3) α)
    (s : UKF α) (t : Int) (z : Fin 3 → α) (h : s.is_initialized_ = true) :
    UKF.ProcessMeasurement E R0 s ⟨t, SensorType.RADAR, z⟩ =
      if (UKF.Prediction E s (((t - s.time_us_ : Int) : α) / 1000000.0)).use_radar_ then
        UKF.UpdateRadar E R0
          { UKF.Prediction E s (((t - s.time_us_ : Int) : α) / 1000000.0) with time_us_ := t } z
      else { UKF.Prediction E s (((t - s.time_us_ : Int) : α) / 1000000.0) with time_us_ := t } := by
  unfold UKF.ProcessMeasurement
  rw [if_neg (by rw [h]; decide)]
  rfl

/-- After any `ProcessMeasurement` call the filter is initialized. -/
theorem ProcessMeasurement_is_initialized [FloorRing α] (E : Env α) (R0 : Matrix (Fin 3) (Fin 3) α)
    (s : UKF α) (m : MeasurementPackage α) :
    (UKF.ProcessMeasurement E R0 s m).is_initialized_ = true := by
  obtain ⟨t, k, raw⟩ := m
  cases hs : s.is_initialized_
  · unfold UKF.ProcessMeasurement
    rw [if_pos (by rw [hs]; decide)]
  · cases k
    · rw [ProcessMeasurement_tracking_laser E R0 s t raw hs]
      split <;> exact hs
    · rw [ProcessMeasurement_tracking_radar E R0 s t raw hs]
      split <;> exact hs

/-- C1: on an initialized filter, a measurement whose sensor is disabled
(RADAR with `use_radar_ = false`, or LASER with `use_laser_ = false`) makes
`ProcessMeasurement` return exactly the state of `Prediction(dt)` with
`dt = (timestamp - time_us_) / 1e6` and the clock set to the timestamp, for
every timestamp (earlier than the clock included): no correction is applied
and nothing is rejected. `use_radar_ = false` is the constructor's default. -/
theorem C1_disabled_sensor_predicts_only [FloorRing α] (E : Env α) (R0 : Matrix (Fin 3) (Fin 3) α)
    (s : UKF α) (m : MeasurementPackage α) (hinit : s.is_initialized_ = true)
    (hoff : (m.sensor_type_ = SensorType.RADAR ∧ s.use_radar_ = false) ∨
      (m.sensor_type_ = SensorType.LASER ∧ s.use_laser_ = false)) :
    UKF.ProcessMeasurement E R0 s m =
      { UKF.Prediction E s (((m.timestamp_ - s.time_us_ : Int) : α) / 1000000) with
        time_us_ := m.timestamp_ } ∧
    ∀ x0 : Fin 5 → α, (UKF.new x0).use_radar_ = false := by
  refine ⟨?_, fun _ => rfl⟩
  obtain ⟨t, k, raw⟩ := m
  have e : (1000000.0 : α) = 1000000 := by norm_num
  cases k
  · have hl : s.use_laser_ = false := by simpa using hoff
    have hl2 : (UKF.Prediction E s (((t - s.time_us_ : Int) : α) / 1000000.0)).use_laser_
        = false := hl
    rw [ProcessMeasurement_tracking_laser E R0 s t raw hinit, hl2, e]
    rfl
  · have hr : s.use_radar_ = false := by simpa using hoff
    have hr2 : (UKF.Prediction E s (((t - s.time_us_ : Int) : α) / 1000000.0)).use_radar_
        = false := hr
    rw [ProcessMeasurement_tracking_radar E R0 s t raw hinit, hr2, e]
    rfl

/-- Unfolding of `ProcessMeasurement` on an uninitialized filter, laser package. -/
theorem ProcessMeasurement_first_laser [FloorRing α] (E : Env α)
    (R0 : Matrix (Fin 3) (Fin 3) α) (s : UKF α) (t : Int) (z : Fin 2 → α)
    (h : s.is_initialized_ = false) :
    UKF.ProcessMeasurement E R0 s ⟨t, SensorType.LASER, z⟩ =
      { s with
        x_ := ![z 0, z 1, 0, 0, 0]
        P_ := setCoeff (setCoeff (setCoeff (setCoeff (setCoeff s.P_
          0 0 (s.std_laspx_ * s.std_laspx_))
          1 1 (s.std_laspy_ * s.std_laspy_))
          2 2 1.0)
          3 3 ((2.0 * E.M_PI) * (2.0 * E.M_PI)))
          4 4 1
        time_us_ := t
        is_initialized_ := true } := by
  unfold UKF.ProcessMeasurement
  rw [if_pos (by rw [h]; decide)]

/-- Unfolding of `ProcessMeasurement` on an uninitialized filter, radar package. -/
theorem ProcessMeasurement_first_radar [FloorRing α] (E : Env α)
    (R0 : Matrix (Fin 3) (Fin 3) α) (s : UKF α) (t : Int) (z : Fin 3 → α)
    (h : s.is_initialized_ = false) :
    UKF.ProcessMeasurement E R0 s ⟨t, SensorType.RADAR, z⟩ =
      { s with
        x_ := ![z 0 * E.cos (z 1), z 0 * E.sin (z 1), 0, 0, 0]
        P_ := setCoeff (setCoeff (setCoeff (setCoeff (setCoeff s.P_
          0 0 (s.std_radr_ * s.std_radr_ * E.cos (z 1) * E.cos (z 1)
            + z 0 * z 0 * E.sin (z 1) * E.sin (z 1) * s.std_radphi_ * s.std_radphi_))
          1 1 (s.std_radr_ * s.std_radr_ * E.sin (z 1) * E.sin (z 1)
            + z 0 * z 0 * E.cos (z 1) * E.cos (z 1) * s.std_radphi_ * s.std_radphi_))
          2 2 10.0)
          3 3 ((2 * E.M_PI) * (2 * E.M_PI)))
          4 4 (0.5 * 0.5)
        time_us_ := t
        is_initialized_ := true } := by
  unfold UKF.ProcessMeasurement
  rw [if_pos (by rw [h]; decide)]

/-- Assigning the five diagonal coefficients of the identity matrix gives a
diagonal matrix. -/
theorem setCoeff_diag_one (d0 d1 d2 d3 d4 : α) :
    setCoeff (setCoeff (setCoeff (setCoeff (setCoeff (1 : Matrix (Fin 5) (Fin 5) α)
      0 0 d0) 1 1 d1) 2 2 d2) 3 3 d3) 4 4 d4 = Matrix.diagonal ![d0, d1, d2, d3, d4] := by
  ext i j
  fin_cases i <;> fin_cases j <;>
    simp [setCoeff, Matrix.one_apply, Matrix.diagonal_apply]

/-- C1, concrete run: the filter initialized by a laser fix, then given a radar
package (radar disabled by default) with an earlier timestamp. -/
theorem C1_witness :
    UKF.ProcessMeasurement testEnv 0
        (UKF.ProcessMeasurement testEnv 0 (UKF.new 0) ⟨7, SensorType.LASER, ![5, 3]⟩)
        ⟨2, SensorType.RADAR, ![1, 0, 0]⟩ =
      { UKF.Prediction testEnv
          (UKF.ProcessMeasurement testEnv 0 (UKF.new 0) ⟨7, SensorType.LASER, ![5, 3]⟩)
          ((((2 : Int) - (UKF.ProcessMeasurement testEnv 0 (UKF.new 0)
            ⟨7, SensorType.LASER, ![5, 3]⟩).time_us_ : Int) : ℚ) / 1000000) with
        time_us_ := 2 } :=
  (C1_disabled_sensor_predicts_only testEnv 0
    (UKF.ProcessMeasurement testEnv 0 (UKF.new 0) ⟨7, SensorType.LASER, ![5, 3]⟩)
    ⟨2, SensorType.RADAR, ![1, 0, 0]⟩ rfl (Or.inl ⟨rfl, rfl⟩)).1

/-- C2: `is_initialized_` is false after construction; it is true after any
`ProcessMeasurement` call, whatever the state before it (flags and
initialization included) and whatever the package; hence it is true after
every non-empty sequence of calls on a constructed filter. -/
theorem C2_initialized_is_terminal [FloorRing α] (E : Env α) :
    (∀ x0 : Fin 5 → α, (UKF.new x0).is_initialized_ = false) ∧
    (∀ (R0 : Matrix (Fin 3) (Fin 3) α) (s : UKF α) (m : MeasurementPackage α),
      (UKF.ProcessMeasurement E R0 s m).is_initialized_ = true) ∧
    (∀ (x0 : Fin 5 → α) (first : Matrix (Fin 3) (Fin 3) α × MeasurementPackage α)
      (rest : List (Matrix (Fin 3) (Fin 3) α × MeasurementPackage α)),
      (List.foldl (fun s c => UKF.ProcessMeasurement E c.1 s c.2) (UKF.new x0)
        (first :: rest)).is_initialized_ = true) := by
  refine ⟨fun _ => rfl, fun R0 s m => ProcessMeasurement_is_initialized E R0 s m, ?_⟩
  intro x0 first rest
  rw [List.foldl_cons]
  generalize hs : UKF.ProcessMeasurement E first.1 (UKF.new x0) first.2 = s1
  have h1 : s1.is_initialized_ = true := hs ▸ ProcessMeasurement_is_initialized E _ _ _
  clear hs
  induction rest generalizing s1 with
  | nil => exact h1
  | cons c cs ih =>
    rw [List.foldl_cons]
    exact ih _ (ProcessMeasurement_is_initialized E _ _ _)

/-- State of a constructed filter after a first LASER package. -/
theorem first_laser_state [FloorRing α] (E : Env α) (R0 : Matrix (Fin 3) (Fin 3) α)
    (x0 : Fin 5 → α) (t : Int) (a b : α) :
    UKF.ProcessMeasurement E R0 (UKF.new x0) ⟨t, SensorType.LASER, ![a, b]⟩ =
      { UKF.new x0 with
        x_ := ![a, b, 0, 0, 0]
        P_ := Matrix.diagonal ![(UKF.new x0).std_laspx_ ^ 2, (UKF.new x0).std_laspy_ ^ 2,
          1.0, (2 * E.M_PI) ^ 2, 1.0]
        time_us_ := t
        is_initialized_ := true } := by
  rw [ProcessMeasurement_first_laser E R0 (UKF.new x0) t ![a, b] rfl]
  have hP : (UKF.new x0).P_ = 1 := rfl
  rw [hP, setCoeff_diag_one]
  have e : (2.0 : α) = 2 := by norm_num
  simp only [e, pow_two, Matrix.cons_val_zero, Matrix.cons_val_one, Matrix.head_cons]
  norm_num

/-- C3: on a freshly constructed filter, a first LASER measurement `[a, b]` at
time `t` only initializes: the result is the constructed filter with
`x_ = [a, b, 0, 0, 0]`, `P_ = diag(std_laspx_^2, std_laspy_^2, 1, (2 pi)^2, 1)`
(`std_laspx_ = std_laspy_ = 0.15`, off-diagonal entries 0), `time_us_ = t` and
`is_initialized_ = true`; every other member, `Xsig_pred_` included, is as
constructed, so no prediction or update ran. For `[5.0, 3.0]` at `t = 0` this
gives `x_ = [5.0, 3.0, 0, 0, 0]` and `P_(2,2) = 1.0`. -/
theorem C3_first_laser_initializes [FloorRing α] (E : Env α)
    (R0 : Matrix (Fin 3) (Fin 3) α) (x0 : Fin 5 → α) :
    (∀ (t : Int) (a b : α),
      UKF.ProcessMeasurement E R0 (UKF.new x0) ⟨t, SensorType.LASER, ![a, b]⟩ =
        { UKF.new x0 with
          x_ := ![a, b, 0, 0, 0]
          P_ := Matrix.diagonal ![(UKF.new x0).std_laspx_ ^ 2, (UKF.new x0).std_laspy_ ^ 2,
            1.0, (2 * E.M_PI) ^ 2, 1.0]
          time_us_ := t
          is_initialized_ := true }) ∧
    (UKF.new x0).std_laspx_ = 0.15 ∧ (UKF.new x0).std_laspy_ = 0.15 ∧
    (UKF.ProcessMeasurement E R0 (UKF.new x0) ⟨0, SensorType.LASER, ![5.0, 3.0]⟩).x_ =
      ![5.0, 3.0, 0, 0, 0] ∧
    (UKF.ProcessMeasurement E R0 (UKF.new x0) ⟨0, SensorType.LASER, ![5.0, 3.0]⟩).P_ 2 2 =
      1.0 := by
  refine ⟨first_laser_state E R0 x0, rfl, rfl, ?_, ?_⟩
  · rw [first_laser_state]
  · rw [first_laser_state]
    simp

end Basic

section Init

variable {α : Type} [LinearOrderedField α]

/-- C4: on a freshly constructed filter (whose `use_radar_` is false), a first
RADAR measurement `[range, bearing, range_rate]` at time `t` initializes
`x_ = [range cos(bearing), range sin(bearing), 0, 0, 0]` and
`P_ = diag(std_radr_^2 cos^2 + range^2 sin^2 std_radphi_^2,
std_radr_^2 sin^2 + range^2 cos^2 std_radphi_^2, 10, (2 pi)^2, 0.25)` with
off-diagonal entries 0, sets `time_us_ = t` and `is_initialized_ = true`, and
leaves every other member as constructed. With `cos 0 = 1` and `sin 0 = 0`,
`range = 5`, `bearing = 0` gives `x_ = [5, 0, 0, 0, 0]`. -/
theorem C4_first_radar_initializes [FloorRing α] (E : Env α)
    (R0 : Matrix (Fin 3) (Fin 3) α) (x0 : Fin 5 → α) :
    (∀ (t : Int) (range bearing range_rate : α),
      UKF.ProcessMeasurement E R0 (UKF.new x0)
          ⟨t, SensorType.RADAR, ![range, bearing, range_rate]⟩ =
        { UKF.new x0 with
          x_ := ![range * E.cos bearing, range * E.sin bearing, 0, 0, 0]
          P_ := Matrix.diagonal
            ![(UKF.new x0).std_radr_ ^ 2 * E.cos bearing ^ 2
                + range ^ 2 * E.sin bearing ^ 2 * (UKF.new x0).std_radphi_ ^ 2,
              (UKF.new x0).std_radr_ ^ 2 * E.sin bearing ^ 2
                + range ^ 2 * E.cos bearing ^ 2 * (UKF.new x0).std_radphi_ ^ 2,
              10.0, (2 * E.M_PI) ^ 2, 0.25]
          time_us_ := t
          is_initialized_ := true }) ∧
    (UKF.new x0).use_radar_ = false ∧
    (UKF.new x0).std_radr_ = 0.3 ∧ (UKF.new x0).std_radphi_ = 0.03 ∧
    (E.cos 0 = 1 → E.sin 0 = 0 → ∀ (t : Int) (range_rate : α),
      (UKF.ProcessMeasurement E R0 (UKF.new x0)
        ⟨t, SensorType.RADAR, ![5, 0, range_rate]⟩).x_ = ![5, 0, 0, 0, 0]) := by
  have key : ∀ (t : Int) (range bearing range_rate : α),
      UKF.ProcessMeasurement E R0 (UKF.new x0)
          ⟨t, SensorType.RADAR, ![range, bearing, range_rate]⟩ =
        { UKF.new x0 with
          x_ := ![range * E.cos bearing, range * E.sin bearing, 0, 0, 0]
          P_ := Matrix.diagonal
            ![(UKF.new x0).std_radr_ ^ 2 * E.cos bearing ^ 2
                + range ^ 2 * E.sin bearing ^ 2 * (UKF.new x0).std_radphi_ ^ 2,
              (UKF.new x0).std_radr_ ^ 2 * E.sin bearing ^ 2
                + range ^ 2 * E.cos bearing ^ 2 * (UKF.new x0).std_radphi_ ^ 2,
              10.0, (2 * E.M_PI) ^ 2, 0.25]
          time_us_ := t
          is_initialized_ := true } := by
    intro t range bearing range_rate
    rw [ProcessMeasurement_first_radar E R0 (UKF.new x0) t ![range, bearing, range_rate] rfl]
    have hP : (UKF.new x0).P_ = 1 := rfl
    rw [hP, setCoeff_diag_one]
    have e : (0.5 * 0.5 : α) = 0.25 := by norm_num
    have e1 : ∀ u v w : α, u * u * v * v + range * range * w * w * (UKF.new x0).std_radphi_
        * (UKF.new x0).std_radphi_ = u ^ 2 * v ^ 2 + range ^ 2 * w ^ 2
        * (UKF.new x0).std_radphi_ ^ 2 := fun u v w => by ring
    simp only [e, e1, pow_two, Matrix.cons_val_zero, Matrix.cons_val_one, Matrix.head_cons]
  refine ⟨key, rfl, rfl, rfl, ?_⟩
  intro hc hs t range_rate
  rw [key, hc, hs]
  simp

/-- C4, concrete run on the rational test environment. -/
theorem C4_witness :
    (UKF.ProcessMeasurement testEnv 0 (UKF.new 0) ⟨0, SensorType.RADAR, ![5, 0, 0]⟩).x_ =
      ![5, 0, 0, 0, 0] :=
  (C4_first_radar_initializes testEnv 0 0).2.2.2.2 (by simp [testEnv]) (by simp [testEnv]) 0 0

/-- The constructor's `lambda_ + n_aug_` is 3 for every augmented dimension. -/
theorem lambdaInit_add (n : Nat) : (lambdaInit n : α) + (n : α) = 3 := by
  unfold lambdaInit
  push_cast
  ring

/-- C5: the weights built by the constructor sum to 1 for every augmented
dimension `n_aug` (first weight `lambda/(lambda + n_aug)`, the other
`2 n_aug` weights `0.5/(lambda + n_aug)`, `lambda = 3 - n_aug`); for the
code's `n_aug = 7` the weights are `-4/3` and fourteen times `1/6`. -/
theorem C5_weights_sum_to_one :
    (∀ n : Nat, ∑ i, (weightsInit n i : α) = 1) ∧
    (∀ x0 : Fin 5 → α,
      (UKF.new x0).weights_ = weightsInit n_aug ∧
      (UKF.new x0).weights_ 0 = -4 / 3 ∧
      (∀ i : Fin 15, i ≠ 0 → (UKF.new x0).weights_ i = 1 / 6) ∧
      ∑ i, (UKF.new x0).weights_ i = 1) := by
  have hsum : ∀ n : Nat, ∑ i, (weightsInit n i : α) = 1 := by
    intro n
    rw [Fin.sum_univ_succ]
    simp only [weightsInit, Fin.val_zero, if_true, Fin.val_succ, Nat.succ_ne_zero, if_false,
      Finset.sum_const, Finset.card_univ, Fintype.card_fin, nsmul_eq_mul, lambdaInit_add]
    have h : (lambdaInit n : α) = 3 - (n : α) := by
      rw [← lambdaInit_add n]
      ring
    rw [h]
    push_cast
    norm_num
    ring
  refine ⟨hsum, fun x0 => ⟨rfl, ?_, ?_, hsum n_aug⟩⟩
  · show (weightsInit n_aug (0 : Fin 15) : α) = -4 / 3
    simp only [weightsInit, Fin.val_zero, if_true, lambdaInit_add]
    simp [lambdaInit]
  · intro i hi
    show (weightsInit n_aug i : α) = 1 / 6
    have hi2 : i.val ≠ 0 := fun h => hi (Fin.ext h)
    simp only [weightsInit, hi2, if_false, lambdaInit_add]
    norm_num

end Init

section SigmaPoints

variable {α : Type} [LinearOrderedField α]

/-- The constructor's weights: `-4/3` for column 0 and `1/6` for the others. -/
theorem weightsInit_seven (i : Fin 15) :
    (weightsInit n_aug i : α) = if i.val = 0 then -4 / 3 else 1 / 6 := by
  simp only [weightsInit, lambdaInit_add]
  split
  · simp [lambdaInit]
  · norm_num

/-- The weighted sum of the columns built by the sigma-point loop is the mean
they were built from, whatever the square root `A` and the factor `c`. -/
theorem sigmaColumns_mulVec_weights (c : α) (x_aug : Fin 7 → α)
    (A : Matrix (Fin 7) (Fin 7) α) :
    sigmaColumns c x_aug A *ᵥ weightsInit n_aug = x_aug := by
  ext r
  simp only [Matrix.mulVec, Matrix.dotProduct, weightsInit_seven, Fin.sum_univ_succ,
    sigmaColumns, Matrix.of_apply]
  simp
  ring

/-- C6: with the constructor's weights, the weighted sum of the 15 columns
generated by `AugmentedSigmaPoints` is the augmented mean
`[x_(0), ..., x_(4), 0, 0]`, for every state and every square-root matrix `A`
(every `llt` and `sqrt`): column 0 is the augmented mean, and columns `i+1`
and `i+8` add up to twice the augmented mean. -/
theorem C6_sigma_points_reproduce_mean (E : Env α) (s : UKF α) :
    UKF.AugmentedSigmaPoints E s *ᵥ weightsInit n_aug =
      ![s.x_ 0, s.x_ 1, s.x_ 2, s.x_ 3, s.x_ 4, 0, 0] ∧
    (∀ (c : α) (x_aug : Fin 7 → α) (A : Matrix (Fin 7) (Fin 7) α),
      sigmaColumns c x_aug A *ᵥ weightsInit n_aug = x_aug) ∧
    (∀ r : Fin 7, UKF.AugmentedSigmaPoints E s r 0 = s.x_aug r) ∧
    (∀ (r : Fin 7) (i : Fin 7),
      UKF.AugmentedSigmaPoints E s r ⟨i.val + 1, by omega⟩
        + UKF.AugmentedSigmaPoints E s r ⟨i.val + 1 + 7, by omega⟩ = 2 * s.x_aug r) := by
  refine ⟨?_, sigmaColumns_mulVec_weights, ?_, ?_⟩
  · unfold UKF.AugmentedSigmaPoints
    rw [sigmaColumns_mulVec_weights]
    unfold UKF.x_aug
    norm_num
  · intro r
    simp [UKF.AugmentedSigmaPoints, sigmaColumns]
  · intro r i
    have h0 : i.val + 1 < 7 + 1 := by omega
    have h1 : ¬ (i.val + 1 + 7 < 7 + 1) := by omega
    have h2 : i.val + 1 + 7 - 1 - 7 = i.val := by omega
    simp only [UKF.AugmentedSigmaPoints, sigmaColumns, Matrix.of_apply, Nat.succ_ne_zero,
      if_false, h0, h1, dif_pos, dif_neg, not_false_eq_true, Nat.add_sub_cancel, h2, Fin.eta]
    ring

end SigmaPoints

section Lidar

variable {α : Type} [LinearOrderedField α]

/-- Entries of the lidar measurement matrix. -/
theorem lidarH_apply (i : Fin 2) (j : Fin 5) :
    (lidarH : Matrix (Fin 2) (Fin 5) α) i j = if (i = 0 ∧ j = 0) ∨ (i = 1 ∧ j = 1) then 1 else 0 := by
  fin_cases i <;> fin_cases j <;> simp [lidarH]

/-- The product `H P H^T` is the top-left 2×2 block of `P`. -/
theorem lidarH_mul_mul (P : Matrix (Fin 5) (Fin 5) α) :
    lidarH * P * lidarHᵀ = !![P 0 0, P 0 1; P 1 0, P 1 1] := by
  ext i j
  simp only [Matrix.mul_apply, Matrix.transpose_apply, Fin.sum_univ_five, lidarH_apply]
  fin_cases i <;> fin_cases j <;> simp

/-- The product `P H^T` keeps the first two columns of `P`. -/
theorem mul_lidarH_transpose (P : Matrix (Fin 5) (Fin 5) α) (r : Fin 5) (j : Fin 2) :
    (P * (lidarH : Matrix (Fin 2) (Fin 5) α)ᵀ) r j = ![P r 0, P r 1] j := by
  simp only [Matrix.mul_apply, Matrix.transpose_apply, Fin.sum_univ_five, lidarH_apply]
  fin_cases j <;> simp

/-- The product `K H` pads `K` with three zero columns. -/
theorem mul_lidarH (K : Matrix (Fin 5) (Fin 2) α) (r : Fin 5) (c : Fin 5) :
    (K * (lidarH : Matrix (Fin 2) (Fin 5) α)) r c = ![K r 0, K r 1, 0, 0, 0] c := by
  simp only [Matrix.mul_apply, Fin.sum_univ_two, lidarH_apply]
  fin_cases c <;> simp

/-- The product `H x` is `[x(0), x(1)]`. -/
theorem lidarH_mulVec (x : Fin 5 → α) : lidarH *ᵥ x = ![x 0, x 1] := by
  ext i
  simp only [Matrix.mulVec, Matrix.dotProduct, Fin.sum_univ_five, lidarH_apply]
  fin_cases i <;> simp

/-- Congruence `B P B^T` of a positive semi-definite `P` is positive semi-definite. -/
theorem IsPSD.conj {m n : Nat} {P : Matrix (Fin n) (Fin n) α} (hP : IsPSD P)
    (B : Matrix (Fin m) (Fin n) α) : IsPSD (B * P * Bᵀ) := by
  constructor
  · rw [Matrix.transpose_mul, Matrix.transpose_mul, Matrix.transpose_transpose, hP.1,
      Matrix.mul_assoc]
  · intro v
    have h := hP.2 (Bᵀ *ᵥ v)
    rw [Matrix.mulVec_transpose] at h
    rw [← Matrix.mulVec_mulVec, ← Matrix.mulVec_mulVec, Matrix.dotProduct_mulVec,
      Matrix.mulVec_transpose]
    exact h

/-- Sums of positive semi-definite matrices are positive semi-definite. -/
theorem IsPSD.add {n : Nat} {A B : Matrix (Fin n) (Fin n) α} (hA : IsPSD A) (hB : IsPSD B) :
    IsPSD (A + B) := by
  constructor
  · rw [Matrix.transpose_add, hA.1, hB.1]
  · intro v
    rw [Matrix.add_mulVec, Matrix.dotProduct_add]
    exact add_nonneg (hA.2 v) (hB.2 v)

/-- A 2×2 diagonal matrix with non-negative entries is positive semi-definite. -/
theorem isPSD_diag_two (p q : α) (hp : 0 ≤ p) (hq : 0 ≤ q) : IsPSD !![p, 0; 0, q] := by
  constructor
  · ext i j
    fin_cases i <;> fin_cases j <;> simp
  · intro v
    simp only [Matrix.dotProduct, Matrix.mulVec, Fin.sum_univ_two]
    simp
    nlinarith [mul_nonneg hp (mul_self_nonneg (v 0)), mul_nonneg hq (mul_self_nonneg (v 1))]

/-- Joseph form of the covariance update: with `K = P H^T S^-1` and
`S = H P H^T + R`, `(I - K H) P = (I - K H) P (I - K H)^T + K R K^T`. -/
theorem kalman_joseph {m n : Nat} (P : Matrix (Fin n) (Fin n) α) (H : Matrix (Fin m) (Fin n) α)
    (R S Si : Matrix (Fin m) (Fin m) α) (hS : S = H * P * Hᵀ + R) (hSi : Si * S = 1) :
    (1 - P * Hᵀ * Si * H) * P =
      (1 - P * Hᵀ * Si * H) * P * (1 - P * Hᵀ * Si * H)ᵀ
        + (P * Hᵀ * Si) * R * (P * Hᵀ * Si)ᵀ := by
  set K := P * Hᵀ * Si with hK
  have hKS : K * S = P * Hᵀ := by
    rw [hK, Matrix.mul_assoc, hSi, Matrix.mul_one]
  have h1 : P * Hᵀ = K * (H * P * Hᵀ) + K * R := by
    rw [← Matrix.mul_add, ← hS, hKS]
  have h2 : (1 - K * H) * P * Hᵀ = K * R := by
    rw [Matrix.sub_mul, Matrix.sub_mul, Matrix.one_mul]
    have e : K * H * P * Hᵀ = K * (H * P * Hᵀ) := by simp only [Matrix.mul_assoc]
    rw [e]
    nth_rewrite 1 [h1]
    abel
  have h3 : (1 - K * H)ᵀ = 1 - Hᵀ * Kᵀ := by
    rw [Matrix.transpose_sub, Matrix.transpose_one, Matrix.transpose_mul]
  rw [h3, Matrix.mul_sub, Matrix.mul_one, ← Matrix.mul_assoc, h2]
  abel

/-- Entries of a symmetric matrix. -/
theorem IsPSD.apply_symm {n : Nat} {P : Matrix (Fin n) (Fin n) α} (hP : IsPSD P) (i j : Fin n) :
    P i j = P j i := by
  have h := congrFun (congrFun hP.1 i) j
  rw [Matrix.transpose_apply] at h
  exact h.symm

/-- For positive semi-definite `P` and positive noise variances the lidar
innovation covariance has positive determinant. -/
theorem lidar_det_pos (P : Matrix (Fin 5) (Fin 5) α) (hP : IsPSD P) (rx ry : α)
    (hx : 0 < rx) (hy : 0 < ry) :
    0 ≤ P 0 0 ∧ 0 ≤ P 1 1 ∧ 0 < (P 0 0 + rx) * (P 1 1 + ry) - P 0 1 * P 1 0 := by
  have h0 := hP.2 ![1, 0, 0, 0, 0]
  have h1 := hP.2 ![0, 1, 0, 0, 0]
  have q := hP.2 ![P 1 1 + ry, -P 0 1, 0, 0, 0]
  have hs := hP.apply_symm 1 0
  simp only [Matrix.dotProduct, Matrix.mulVec, Fin.sum_univ_five] at h0 h1 q
  simp at h0 h1 q
  refine ⟨h0, h1, ?_⟩
  have hu : 0 < P 1 1 + ry := by linarith
  have t1 : 0 < rx * (P 1 1 + ry) ^ 2 := by positivity
  have t2 : 0 ≤ ry * P 0 1 ^ 2 := by positivity
  rw [hs] at q ⊢
  have key : 0 < (P 1 1 + ry) * ((P 0 0 + rx) * (P 1 1 + ry) - P 0 1 * P 0 1) := by
    nlinarith [q, t1, t2]
  exact (mul_pos_iff_of_pos_left hu).mp key

/-- The matrix `inverse M` is a left inverse when the determinant is not zero. -/
theorem inverse_mul_self {n : Nat} (M : Matrix (Fin n) (Fin n) α) (h : M.det ≠ 0) :
    inverse M * M = 1 := by
  unfold inverse
  rw [Matrix.smul_mul, Matrix.adjugate_mul, smul_smul, inv_mul_cancel₀ h, one_smul]

/-- The innovation covariance `S` of `UpdateLidar`. -/
theorem lidar_S_eq (s : UKF α) :
    lidarH * s.P_ * lidarHᵀ + !![s.std_laspx_ * s.std_laspx_, 0; 0, s.std_laspy_ * s.std_laspy_]
      = !![s.P_ 0 0 + s.std_laspx_ * s.std_laspx_, s.P_ 0 1;
           s.P_ 1 0, s.P_ 1 1 + s.std_laspy_ * s.std_laspy_] := by
  rw [lidarH_mul_mul]
  ext i j
  fin_cases i <;> fin_cases j <;> simp

/-- Determinant of the innovation covariance `S` of `UpdateLidar`. -/
theorem lidar_S_det (s : UKF α) :
    (lidarH * s.P_ * lidarHᵀ
      + !![s.std_laspx_ * s.std_laspx_, 0; 0, s.std_laspy_ * s.std_laspy_]).det
      = (s.P_ 0 0 + s.std_laspx_ * s.std_laspx_) * (s.P_ 1 1 + s.std_laspy_ * s.std_laspy_)
        - s.P_ 0 1 * s.P_ 1 0 := by
  rw [lidar_S_eq, Matrix.det_fin_two_of]

/-- The function `UpdateLidar` keeps `P_` symmetric positive semi-definite. -/
theorem UpdateLidar_P_isPSD (s : UKF α) (z : Fin 2 → α) (hP : IsPSD s.P_)
    (hx : s.std_laspx_ ≠ 0) (hy : s.std_laspy_ ≠ 0) : IsPSD (UKF.UpdateLidar s z).P_ := by
  have hrx : 0 < s.std_laspx_ * s.std_laspx_ := mul_self_pos.mpr hx
  have hry : 0 < s.std_laspy_ * s.std_laspy_ := mul_self_pos.mpr hy
  have hdet := (lidar_det_pos s.P_ hP _ _ hrx hry).2.2
  rw [← lidar_S_det] at hdet
  have hSi := inverse_mul_self _ (ne_of_gt hdet)
  show IsPSD ((1 - s.P_ * lidarHᵀ * inverse (lidarH * s.P_ * lidarHᵀ
    + !![s.std_laspx_ * s.std_laspx_, 0; 0, s.std_laspy_ * s.std_laspy_]) * lidarH) * s.P_)
  rw [kalman_joseph s.P_ lidarH _ _ _ rfl hSi]
  exact (hP.conj _).add ((isPSD_diag_two _ _ hrx.le hry.le).conj _)

/-- Entries of the covariance written by `UpdateLidar`. -/
theorem UpdateLidar_P_apply (s : UKF α) (z : Fin 2 → α) (i j : Fin 5) :
    (UKF.UpdateLidar s z).P_ i j = s.P_ i j -
      ((s.P_ 0 0 + s.std_laspx_ * s.std_laspx_) * (s.P_ 1 1 + s.std_laspy_ * s.std_laspy_)
        - s.P_ 0 1 * s.P_ 1 0)⁻¹ *
      ((s.P_ i 0 * (s.P_ 1 1 + s.std_laspy_ * s.std_laspy_) - s.P_ i 1 * s.P_ 1 0) * s.P_ 0 j
        + (s.P_ i 1 * (s.P_ 0 0 + s.std_laspx_ * s.std_laspx_) - s.P_ i 0 * s.P_ 0 1)
          * s.P_ 1 j) := by
  show ((1 - s.P_ * lidarHᵀ * inverse (lidarH * s.P_ * lidarHᵀ
    + !![s.std_laspx_ * s.std_laspx_, 0; 0, s.std_laspy_ * s.std_laspy_]) * lidarH) * s.P_
    : Matrix (Fin 5) (Fin 5) α) i j = _
  rw [lidar_S_eq]
  unfold inverse
  rw [Matrix.det_fin_two_of, Matrix.adjugate_fin_two_of, Matrix.sub_mul, Matrix.one_mul,
    Matrix.sub_apply, Matrix.mul_apply]
  simp only [mul_lidarH, Fin.sum_univ_five]
  simp only [Matrix.mul_apply, Fin.sum_univ_two, Fin.sum_univ_five, Matrix.transpose_apply,
    lidarH_apply]
  simp
  ring

/-- Entries of the mean written by `UpdateLidar`. -/
theorem UpdateLidar_x_apply (s : UKF α) (z : Fin 2 → α) (i : Fin 5) :
    (UKF.UpdateLidar s z).x_ i = s.x_ i +
      ((s.P_ 0 0 + s.std_laspx_ * s.std_laspx_) * (s.P_ 1 1 + s.std_laspy_ * s.std_laspy_)
        - s.P_ 0 1 * s.P_ 1 0)⁻¹ *
      ((s.P_ i 0 * (s.P_ 1 1 + s.std_laspy_ * s.std_laspy_) - s.P_ i 1 * s.P_ 1 0)
          * (z 0 - s.x_ 0)
        + (s.P_ i 1 * (s.P_ 0 0 + s.std_laspx_ * s.std_laspx_) - s.P_ i 0 * s.P_ 0 1)
          * (z 1 - s.x_ 1)) := by
  show (s.x_ + (s.P_ * lidarHᵀ * inverse (lidarH * s.P_ * lidarHᵀ
    + !![s.std_laspx_ * s.std_laspx_, 0; 0, s.std_laspy_ * s.std_laspy_])) *ᵥ (z - lidarH *ᵥ s.x_)
    : Fin 5 → α) i = _
  rw [lidar_S_eq, lidarH_mulVec]
  unfold inverse
  rw [Matrix.det_fin_two_of, Matrix.adjugate_fin_two_of, Pi.add_apply]
  simp only [Matrix.mulVec, Matrix.dotProduct, Matrix.mul_apply, Fin.sum_univ_two,
    Fin.sum_univ_five, Matrix.transpose_apply, lidarH_apply]
  simp
  ring

/-- After `UpdateLidar` the position variances are below the noise variances. -/
theorem UpdateLidar_P_diag_lt (s : UKF α) (z : Fin 2 → α) (hP : IsPSD s.P_)
    (hx : s.std_laspx_ ≠ 0) (hy : s.std_laspy_ ≠ 0) :
    (UKF.UpdateLidar s z).P_ 0 0 < s.std_laspx_ ^ 2 ∧
    (UKF.UpdateLidar s z).P_ 1 1 < s.std_laspy_ ^ 2 := by
  have hrx : 0 < s.std_laspx_ * s.std_laspx_ := mul_self_pos.mpr hx
  have hry : 0 < s.std_laspy_ * s.std_laspy_ := mul_self_pos.mpr hy
  obtain ⟨h0, h1, hdet⟩ := lidar_det_pos s.P_ hP _ _ hrx hry
  have hs := hP.apply_symm 1 0
  rw [UpdateLidar_P_apply, UpdateLidar_P_apply]
  set D := (s.P_ 0 0 + s.std_laspx_ * s.std_laspx_) * (s.P_ 1 1 + s.std_laspy_ * s.std_laspy_)
        - s.P_ 0 1 * s.P_ 1 0 with hD
  have hDne : D ≠ 0 := ne_of_gt hdet
  constructor
  · have e : s.std_laspx_ ^ 2 - (s.P_ 0 0 - D⁻¹ *
        ((s.P_ 0 0 * (s.P_ 1 1 + s.std_laspy_ * s.std_laspy_) - s.P_ 0 1 * s.P_ 1 0) * s.P_ 0 0
        + (s.P_ 0 1 * (s.P_ 0 0 + s.std_laspx_ * s.std_laspx_) - s.P_ 0 0 * s.P_ 0 1)
          * s.P_ 1 0))
        = D⁻¹ * ((s.std_laspx_ * s.std_laspx_) ^ 2 * (s.P_ 1 1 + s.std_laspy_ * s.std_laspy_)) := by
      field_simp
      rw [hD]
      ring
    have pos : 0 < D⁻¹ * ((s.std_laspx_ * s.std_laspx_) ^ 2
        * (s.P_ 1 1 + s.std_laspy_ * s.std_laspy_)) := by
      have : 0 < s.P_ 1 1 + s.std_laspy_ * s.std_laspy_ := by linarith
      positivity
    linarith
  · have e : s.std_laspy_ ^ 2 - (s.P_ 1 1 - D⁻¹ *
        ((s.P_ 1 0 * (s.P_ 1 1 + s.std_laspy_ * s.std_laspy_) - s.P_ 1 1 * s.P_ 1 0) * s.P_ 0 1
        + (s.P_ 1 1 * (s.P_ 0 0 + s.std_laspx_ * s.std_laspx_) - s.P_ 1 0 * s.P_ 0 1)
          * s.P_ 1 1))
        = D⁻¹ * ((s.std_laspy_ * s.std_laspy_) ^ 2 * (s.P_ 0 0 + s.std_laspx_ * s.std_laspx_)) := by
      field_simp
      rw [hD]
      ring
    have pos : 0 < D⁻¹ * ((s.std_laspy_ * s.std_laspy_) ^ 2
        * (s.P_ 0 0 + s.std_laspx_ * s.std_laspx_)) := by
      have : 0 < s.P_ 0 0 + s.std_laspx_ * s.std_laspx_ := by linarith
      positivity
    linarith

end Lidar

section AtRest

variable {α : Type} [LinearOrderedField α]

/-- A lower-triangular square root of a diagonal matrix with non-zero diagonal
is diagonal. -/
theorem IsLowerCholesky.eq_diagonal {n : Nat} {A : Matrix (Fin n) (Fin n) α} {D : Fin n → α}
    (h : IsLowerCholesky A (Matrix.diagonal D)) (hD : ∀ i, D i ≠ 0) :
    A = Matrix.diagonal fun i => A i i := by
  have low : ∀ m : ℕ, ∀ j : Fin n, j.val = m → ∀ i, j < i → A i j = 0 := by
    intro m
    induction m using Nat.strong_induction_on with
    | _ m ih =>
      intro j hj i hij
      have hrow : ∀ k, k ≠ j → A j k = 0 := by
        intro k hk
        rcases lt_or_gt_of_ne hk with hlt | hgt
        · exact ih k.val (by rw [← hj]; exact hlt) k rfl j hlt
        · exact h.1 j k hgt
      have hjj : A j j * A j j = D j := by
        have e := congrFun (congrFun h.2 j) j
        rw [Matrix.mul_apply, Matrix.diagonal_apply_eq] at e
        rw [← e]
        symm
        apply Finset.sum_eq_single j
        · intro k _ hk
          rw [hrow k hk, zero_mul]
        · simp
      have hij2 : A i j * A j j = 0 := by
        have e := congrFun (congrFun h.2 i) j
        rw [Matrix.mul_apply, Matrix.diagonal_apply_ne _ (ne_of_gt hij)] at e
        rw [← e]
        symm
        apply Finset.sum_eq_single j
        · intro k _ hk
          rw [Matrix.transpose_apply, hrow k hk, mul_zero]
        · simp
      have hne : A j j ≠ 0 := fun h0 => hD j (by rw [← hjj, h0, mul_zero])
      exact (mul_eq_zero.mp hij2).resolve_right hne
  ext i j
  by_cases hij : i = j
  · subst hij
    simp
  · rw [Matrix.diagonal_apply_ne _ hij]
    rcases lt_or_gt_of_ne hij with h1 | h1
    · exact h.1 i j h1
    · exact low j.val j rfl i h1


/-- CTRV step of a sigma point with zero speed and zero acceleration noise:
the position does not move. -/
theorem ctrvStep_at_rest (E : Env α) (dt : α) (c : Fin 7 → α) (hv : c 2 = 0) (hnu : c 5 = 0) :
    ctrvStep E dt c 0 = c 0 ∧ ctrvStep E dt c 1 = c 1 := by
  simp [ctrvStep, hv, hnu]

/-- CTRV step of a sigma point with zero yaw and zero yaw rate, when `sin 0 = 0`. -/
theorem ctrvStep_straight (E : Env α) (dt : α) (c : Fin 7 → α) (hyaw : c 3 = 0)
    (hyawd : c 4 = 0) (hsin : E.sin 0 = 0) :
    ctrvStep E dt c 0 = c 0 + c 2 * E.cos 0 * dt + 0.5 * dt * dt * E.cos 0 * c 5 ∧
    ctrvStep E dt c 1 = c 1 := by
  have h0 : ¬ ((0 : α) > 0.001) := by norm_num
  simp only [ctrvStep, hyaw, hyawd, hsin, abs_zero, h0, if_false, Matrix.cons_val_zero,
    Matrix.cons_val_one, Matrix.head_cons]
  simp

/-- Sigma-point columns for a diagonal square root. -/
theorem sigmaColumns_diagonal (cc : α) (x : Fin 7 → α) (dA : Fin 7 → α) (k : Fin 7)
    (j : Fin 15) :
    sigmaColumns cc x (Matrix.diagonal dA) k j =
      if j.val = 0 then x k
      else if j.val = k.val + 1 then x k + cc * dA k
      else if j.val = k.val + 8 then x k - cc * dA k
      else x k := by
  unfold sigmaColumns
  simp only [Matrix.of_apply]
  by_cases h0 : j.val = 0
  · simp [h0]
  · rw [if_neg h0, if_neg h0]
    by_cases h1 : j.val < 7 + 1
    · rw [dif_pos h1]
      by_cases h2 : j.val = k.val + 1
      · rw [if_pos h2]
        have e : (⟨j.val - 1, by omega⟩ : Fin 7) = k := Fin.ext (by simp [h2])
        rw [e, Matrix.diagonal_apply_eq]
      · rw [if_neg h2]
        have e : k ≠ (⟨j.val - 1, by omega⟩ : Fin 7) := fun h => h2 (by rw [h]; simp; omega)
        rw [Matrix.diagonal_apply_ne _ e, if_neg (by omega)]
        simp
    · rw [dif_neg h1]
      by_cases h2 : j.val = k.val + 8
      · rw [if_neg (by omega), if_pos h2]
        have e : (⟨j.val - 1 - 7, by omega⟩ : Fin 7) = k := Fin.ext (by simp [h2])
        rw [e, Matrix.diagonal_apply_eq]
      · rw [if_neg (by omega), if_neg h2]
        have e : k ≠ (⟨j.val - 1 - 7, by omega⟩ : Fin 7) := fun h => h2 (by rw [h]; simp; omega)
        rw [Matrix.diagonal_apply_ne _ e]
        simp

/-- Entries of the predicted covariance. -/
theorem Prediction_P_apply [FloorRing α] (E : Env α) (s : UKF α) (dt : α) (r c : Fin 5) :
    (UKF.Prediction E s dt).P_ r c = ∑ i, s.weights_ i *
      (xDiff E (UKF.SigmaPointPrediction E s (UKF.AugmentedSigmaPoints E s) dt).Xsig_pred_
          (UKF.Prediction E s dt).x_ i r *
        xDiff E (UKF.SigmaPointPrediction E s (UKF.AugmentedSigmaPoints E s) dt).Xsig_pred_
          (UKF.Prediction E s dt).x_ i c) := by
  show (∑ i, s.weights_ i • vecMulVec _ _ : Matrix (Fin 5) (Fin 5) α) r c = _
  rw [Matrix.sum_apply]
  rfl

/-- Entries of the predicted mean. -/
theorem Prediction_x_apply [FloorRing α] (E : Env α) (s : UKF α) (dt : α) (r : Fin 5) :
    (UKF.Prediction E s dt).x_ r = ∑ i,
      (UKF.SigmaPointPrediction E s (UKF.AugmentedSigmaPoints E s) dt).Xsig_pred_ r i
        * s.weights_ i := rfl

/-- Only the yaw component of `x_diff` is normalized. -/
theorem xDiff_apply_ne [FloorRing α] (E : Env α) (X : Matrix (Fin 5) (Fin 15) α)
    (x : Fin 5 → α) (i : Fin 15) (r : Fin 5) (hr : r ≠ 3) :
    xDiff E X x i r = X r i - x r := by
  unfold xDiff
  simp only
  rw [Function.update_noteq hr]

/-- Augmented sigma points of a state at rest whose square root is diagonal. -/
theorem AugmentedSigmaPoints_at_rest (E : Env α) (s : UKF α) (a b : α) (dA : Fin 7 → α)
    (hx : s.x_ = ![a, b, 0, 0, 0]) (hA : E.llt s.P_aug = Matrix.diagonal dA) (k : Fin 7)
    (j : Fin 15) :
    UKF.AugmentedSigmaPoints E s k j =
      if j.val = 0 then (![a, b, 0, 0, 0, 0, 0] : Fin 7 → α) k
      else if j.val = k.val + 1 then
        (![a, b, 0, 0, 0, 0, 0] : Fin 7 → α) k + E.sqrt ((n_aug : α) + s.lambda_) * dA k
      else if j.val = k.val + 8 then
        (![a, b, 0, 0, 0, 0, 0] : Fin 7 → α) k - E.sqrt ((n_aug : α) + s.lambda_) * dA k
      else (![a, b, 0, 0, 0, 0, 0] : Fin 7 → α) k := by
  have z : (0.0 : α) = 0 := by norm_num
  rw [← sigmaColumns_diagonal]
  unfold UKF.AugmentedSigmaPoints UKF.x_aug
  simp only [hA, hx, z]
  simp

/-- Predicted position of each sigma point when the state has zero speed, yaw
and yaw rate and the square root `A` is diagonal. -/
theorem predicted_position [FloorRing α] (E : Env α) (s : UKF α) (dt a b : α) (dA : Fin 7 → α)
    (hx : s.x_ = ![a, b, 0, 0, 0]) (hA : E.llt s.P_aug = Matrix.diagonal dA)
    (hsin : E.sin 0 = 0) (j : Fin 15) :
    (UKF.SigmaPointPrediction E s (UKF.AugmentedSigmaPoints E s) dt).Xsig_pred_ 0 j =
      UKF.AugmentedSigmaPoints E s 0 j + UKF.AugmentedSigmaPoints E s 2 j * E.cos 0 * dt
        + 0.5 * dt * dt * E.cos 0 * UKF.AugmentedSigmaPoints E s 5 j ∧
    (UKF.SigmaPointPrediction E s (UKF.AugmentedSigmaPoints E s) dt).Xsig_pred_ 1 j =
      UKF.AugmentedSigmaPoints E s 1 j := by
  have hcol := fun k => AugmentedSigmaPoints_at_rest E s a b dA hx hA k j
  have v2 : ((2 : Fin 7) : ℕ) = 2 := rfl
  have v3 : ((3 : Fin 7) : ℕ) = 3 := rfl
  have v4 : ((4 : Fin 7) : ℕ) = 4 := rfl
  have v5 : ((5 : Fin 7) : ℕ) = 5 := rfl
  have x5 : (![a, b, 0, 0, 0, 0, 0] : Fin 7 → α) 5 = 0 := rfl
  show ctrvStep E dt (fun k => UKF.AugmentedSigmaPoints E s k j) 0 = _ ∧
    ctrvStep E dt (fun k => UKF.AugmentedSigmaPoints E s k j) 1 = _
  by_cases h : j.val = 3 ∨ j.val = 10 ∨ j.val = 6 ∨ j.val = 13
  · have h3 : UKF.AugmentedSigmaPoints E s 3 j = 0 := by
      rw [hcol]
      rcases h with h | h | h | h <;> simp [h, v3]
    have h4 : UKF.AugmentedSigmaPoints E s 4 j = 0 := by
      rw [hcol]
      rcases h with h | h | h | h <;> simp [h, v4]
    exact ctrvStep_straight E dt _ h3 h4 hsin
  · have h2 : UKF.AugmentedSigmaPoints E s 2 j = 0 := by
      rw [hcol]
      have e1 : ¬ j.val = 2 + 1 := fun e => h (Or.inl e)
      have e2 : ¬ j.val = 2 + 8 := fun e => h (Or.inr (Or.inl e))
      simp [e1, e2, v2]
    have h5 : UKF.AugmentedSigmaPoints E s 5 j = 0 := by
      rw [hcol]
      have e1 : ¬ j.val = 5 + 1 := fun e => h (Or.inr (Or.inr (Or.inl e)))
      have e2 : ¬ j.val = 5 + 8 := fun e => h (Or.inr (Or.inr (Or.inr e)))
      simp [e1, e2, v5, x5]
    have := ctrvStep_at_rest E dt (fun k => UKF.AugmentedSigmaPoints E s k j) h2 h5
    rw [this.1, this.2, h2, h5]
    simp

/-- Every weight but the first is non-negative. -/
theorem weightsInit_nonneg_of_ne (i : Fin 15) (hi : i.val ≠ 0) :
    (0 : α) ≤ weightsInit n_aug i := by
  rw [weightsInit_seven, if_neg hi]
  norm_num

/-- Facts about the prediction from a state at rest with a diagonal square root. -/
theorem Prediction_at_rest [FloorRing α] (E : Env α) (s : UKF α) (dt a b : α) (dA : Fin 7 → α)
    (hx : s.x_ = ![a, b, 0, 0, 0]) (hw : s.weights_ = weightsInit n_aug)
    (hA : E.llt s.P_aug = Matrix.diagonal dA) (hsin : E.sin 0 = 0) :
    (UKF.Prediction E s dt).x_ 0 = a ∧ (UKF.Prediction E s dt).x_ 1 = b ∧
    (UKF.Prediction E s dt).P_ 0 1 = 0 ∧ (UKF.Prediction E s dt).P_ 1 0 = 0 ∧
    0 ≤ (UKF.Prediction E s dt).P_ 0 0 ∧ 0 ≤ (UKF.Prediction E s dt).P_ 1 1 := by
  have hpos := predicted_position E s dt a b dA hx hA hsin
  have hmean : ∀ k, ∑ j, UKF.AugmentedSigmaPoints E s k j * s.weights_ j = s.x_aug k := by
    intro k
    rw [hw]
    exact congrFun (sigmaColumns_mulVec_weights _ s.x_aug (E.llt s.P_aug)) k
  have z : (0.0 : α) = 0 := by norm_num
  have xa0 : s.x_aug 0 = a := by simp [UKF.x_aug, hx]
  have xa1 : s.x_aug 1 = b := by simp [UKF.x_aug, hx]
  have xa2 : s.x_aug 2 = 0 := by simp [UKF.x_aug, hx]
  have xa5 : s.x_aug 5 = 0 := by
    show (![s.x_ 0, s.x_ 1, s.x_ 2, s.x_ 3, s.x_ 4, (0.0 : α), 0.0] : Fin 7 → α) 5 = 0
    rw [z]
    rfl
  have hx0 : (UKF.Prediction E s dt).x_ 0 = a := by
    rw [Prediction_x_apply]
    simp only [(hpos _).1, add_mul]
    rw [Finset.sum_add_distrib, Finset.sum_add_distrib]
    have e1 : ∀ j, UKF.AugmentedSigmaPoints E s 2 j * E.cos 0 * dt * s.weights_ j
        = E.cos 0 * dt * (UKF.AugmentedSigmaPoints E s 2 j * s.weights_ j) := fun j => by ring
    have e2 : ∀ j, 0.5 * dt * dt * E.cos 0 * UKF.AugmentedSigmaPoints E s 5 j * s.weights_ j
        = 0.5 * dt * dt * E.cos 0 * (UKF.AugmentedSigmaPoints E s 5 j * s.weights_ j) :=
      fun j => by ring
    simp only [e1, e2, ← Finset.mul_sum, hmean, xa0, xa2, xa5]
    ring
  have hx1 : (UKF.Prediction E s dt).x_ 1 = b := by
    rw [Prediction_x_apply]
    simp only [(hpos _).2, hmean, xa1]
  have hcol := AugmentedSigmaPoints_at_rest E s a b dA hx hA
  have v0 : ((0 : Fin 7) : ℕ) = 0 := rfl
  have v1 : ((1 : Fin 7) : ℕ) = 1 := rfl
  have v2 : ((2 : Fin 7) : ℕ) = 2 := rfl
  have v5 : ((5 : Fin 7) : ℕ) = 5 := rfl
  have x5 : (![a, b, 0, 0, 0, 0, 0] : Fin 7 → α) 5 = 0 := rfl
  have hcross : ∀ j, (UKF.AugmentedSigmaPoints E s 0 j
      + UKF.AugmentedSigmaPoints E s 2 j * E.cos 0 * dt
      + 0.5 * dt * dt * E.cos 0 * UKF.AugmentedSigmaPoints E s 5 j - a)
      * (UKF.AugmentedSigmaPoints E s 1 j - b) = 0 := by
    intro j
    by_cases h : j.val = 2 ∨ j.val = 9
    · have h0 : UKF.AugmentedSigmaPoints E s 0 j = a := by
        rw [hcol]
        rcases h with h | h <;> simp [h, v0]
      have h2 : UKF.AugmentedSigmaPoints E s 2 j = 0 := by
        rw [hcol]
        rcases h with h | h <;> simp [h, v2]
      have h5 : UKF.AugmentedSigmaPoints E s 5 j = 0 := by
        rw [hcol]
        rcases h with h | h <;> simp [h, v5, x5]
      rw [h0, h2, h5]
      ring
    · have h1 : UKF.AugmentedSigmaPoints E s 1 j = b := by
        rw [hcol]
        have e1 : ¬ j.val = 1 + 1 := fun e => h (Or.inl e)
        have e2 : ¬ j.val = 1 + 8 := fun e => h (Or.inr e)
        simp [e1, e2, v1]
      rw [h1]
      ring
  have hzero : ∀ k, UKF.AugmentedSigmaPoints E s k 0 = s.x_aug k := by
    intro k
    simp [UKF.AugmentedSigmaPoints, sigmaColumns]
  have hterm : ∀ (j : Fin 15) (u : α), (j.val = 0 → u = 0) → 0 ≤ s.weights_ j * (u * u) := by
    intro j u hu
    by_cases hj : j.val = 0
    · rw [hu hj]
      simp
    · rw [hw]
      exact mul_nonneg (weightsInit_nonneg_of_ne j hj) (mul_self_nonneg u)
  refine ⟨hx0, hx1, ?_, ?_, ?_, ?_⟩
  · rw [Prediction_P_apply]
    apply Finset.sum_eq_zero
    intro j _
    rw [xDiff_apply_ne E _ _ j 0 (by decide), xDiff_apply_ne E _ _ j 1 (by decide), hx0, hx1,
      (hpos j).1, (hpos j).2, hcross, mul_zero]
  · rw [Prediction_P_apply]
    apply Finset.sum_eq_zero
    intro j _
    rw [xDiff_apply_ne E _ _ j 0 (by decide), xDiff_apply_ne E _ _ j 1 (by decide), hx0, hx1,
      (hpos j).1, (hpos j).2, mul_comm (_ - b), hcross, mul_zero]
  · rw [Prediction_P_apply]
    apply Finset.sum_nonneg
    intro j _
    rw [xDiff_apply_ne E _ _ j 0 (by decide), hx0, (hpos j).1]
    apply hterm
    intro hj
    have e : j = 0 := Fin.ext hj
    rw [e, hzero, hzero, hzero, xa0, xa2, xa5]
    ring
  · rw [Prediction_P_apply]
    apply Finset.sum_nonneg
    intro j _
    rw [xDiff_apply_ne E _ _ j 1 (by decide), hx1, (hpos j).2]
    apply hterm
    intro hj
    have e : j = 0 := Fin.ext hj
    rw [e, hzero, xa1]
    ring

end AtRest

section Scenario

variable {α : Type} [LinearOrderedField α]

/-- Augmented covariance of a state whose covariance is diagonal. -/
theorem P_aug_of_diagonal (s : UKF α) (d0 d1 d2 d3 d4 : α)
    (h : s.P_ = Matrix.diagonal ![d0, d1, d2, d3, d4]) :
    s.P_aug = Matrix.diagonal
      ![d0, d1, d2, d3, d4, s.std_a_ * s.std_a_, s.std_yawdd_ * s.std_yawdd_] := by
  have z : (0.0 : α) = 0 := by norm_num
  ext i j
  fin_cases i <;> fin_cases j <;>
    simp [UKF.P_aug, h, Matrix.diagonal_apply, z]

/-- Lidar update of a belief whose two position components are uncorrelated. -/
theorem UpdateLidar_uncorrelated (s : UKF α) (z : Fin 2 → α) (h01 : s.P_ 0 1 = 0)
    (h10 : s.P_ 1 0 = 0) (h00 : 0 ≤ s.P_ 0 0) (h11 : 0 ≤ s.P_ 1 1)
    (hx : s.std_laspx_ ≠ 0) (hy : s.std_laspy_ ≠ 0) :
    (UKF.UpdateLidar s z).x_ 0 = s.x_ 0
      + s.P_ 0 0 / (s.P_ 0 0 + s.std_laspx_ * s.std_laspx_) * (z 0 - s.x_ 0) ∧
    (UKF.UpdateLidar s z).P_ 0 0 = s.std_laspx_ * s.std_laspx_
      * (s.P_ 0 0 / (s.P_ 0 0 + s.std_laspx_ * s.std_laspx_)) ∧
    (UKF.UpdateLidar s z).P_ 1 1 = s.std_laspy_ * s.std_laspy_
      * (s.P_ 1 1 / (s.P_ 1 1 + s.std_laspy_ * s.std_laspy_)) := by
  have hrx : 0 < s.std_laspx_ * s.std_laspx_ := mul_self_pos.mpr hx
  have hry : 0 < s.std_laspy_ * s.std_laspy_ := mul_self_pos.mpr hy
  have hX : s.P_ 0 0 + s.std_laspx_ * s.std_laspx_ ≠ 0 := by positivity
  have hY : s.P_ 1 1 + s.std_laspy_ * s.std_laspy_ ≠ 0 := by positivity
  rw [UpdateLidar_x_apply, UpdateLidar_P_apply, UpdateLidar_P_apply, h01, h10]
  refine ⟨?_, ?_, ?_⟩
  · field_simp
    ring
  · field_simp
    ring
  · field_simp
    ring

/-- The gain `p / (p + r)` lies in `[0, 1)`. -/
theorem ratio_mem (p r : α) (hp : 0 ≤ p) (hr : 0 < r) : 0 ≤ p / (p + r) ∧ p / (p + r) < 1 := by
  have h : 0 < p + r := by linarith
  exact ⟨div_nonneg hp h.le, (div_lt_one h).mpr (by linarith)⟩

/-- A blend `a + k (a2 - a)` with `k` in `[0, 1)` lies between `a` and `a2`. -/
theorem blend_between (a a2 k : α) (h0 : 0 ≤ k) (h1 : k < 1) :
    min a a2 ≤ a + k * (a2 - a) ∧ a + k * (a2 - a) ≤ max a a2 := by
  rcases le_total a a2 with h | h
  · rw [min_eq_left h, max_eq_right h]
    constructor <;> nlinarith
  · rw [min_eq_right h, max_eq_left h]
    constructor <;> nlinarith

/-- Scenario A: a constructed filter receives a LASER fix `[a, b]` and then a
second LASER fix `[a2, b2]`. If `sin 0 = 0` and `llt` returns a
lower-triangular square root of the augmented covariance of the initialized
state, the second call blends each position with a gain in `[0, 1)`. -/
theorem second_laser_scenario [FloorRing α] (E : Env α) (R0 R1 : Matrix (Fin 3) (Fin 3) α)
    (x0 : Fin 5 → α) (t0 t1 : Int) (a b a2 b2 : α) (hsin : E.sin 0 = 0)
    (hllt : IsLowerCholesky
      (E.llt (UKF.ProcessMeasurement E R0 (UKF.new x0) ⟨t0, SensorType.LASER, ![a, b]⟩).P_aug)
      (UKF.ProcessMeasurement E R0 (UKF.new x0) ⟨t0, SensorType.LASER, ![a, b]⟩).P_aug) :
    ∃ k l : α, 0 ≤ k ∧ k < 1 ∧ 0 ≤ l ∧ l < 1 ∧
      (UKF.ProcessMeasurement E R1
        (UKF.ProcessMeasurement E R0 (UKF.new x0) ⟨t0, SensorType.LASER, ![a, b]⟩)
        ⟨t1, SensorType.LASER, ![a2, b2]⟩).x_ 0 = a + k * (a2 - a) ∧
      (UKF.ProcessMeasurement E R1
        (UKF.ProcessMeasurement E R0 (UKF.new x0) ⟨t0, SensorType.LASER, ![a, b]⟩)
        ⟨t1, SensorType.LASER, ![a2, b2]⟩).P_ 0 0 = 0.15 ^ 2 * k ∧
      (UKF.ProcessMeasurement E R1
        (UKF.ProcessMeasurement E R0 (UKF.new x0) ⟨t0, SensorType.LASER, ![a, b]⟩)
        ⟨t1, SensorType.LASER, ![a2, b2]⟩).P_ 1 1 = 0.15 ^ 2 * l := by
  rw [first_laser_state] at hllt ⊢
  set s1 : UKF α := { UKF.new x0 with
        x_ := ![a, b, 0, 0, 0]
        P_ := Matrix.diagonal ![(UKF.new x0).std_laspx_ ^ 2, (UKF.new x0).std_laspy_ ^ 2,
          1.0, (2 * E.M_PI) ^ 2, 1.0]
        time_us_ := t0
        is_initialized_ := true } with hs1
  have hpi := E.M_PI_pos
  rw [P_aug_of_diagonal s1 _ _ _ _ _ rfl] at hllt
  have hD : ∀ i : Fin 7, (![(UKF.new x0).std_laspx_ ^ 2, (UKF.new x0).std_laspy_ ^ 2,
      1.0, (2 * E.M_PI) ^ 2, 1.0, s1.std_a_ * s1.std_a_, s1.std_yawdd_ * s1.std_yawdd_]
      : Fin 7 → α) i ≠ 0 := by
    intro i
    fin_cases i <;> (simp [hs1, UKF.new, hpi.ne'] <;> norm_num)
  have hA := hllt.eq_diagonal hD
  rw [← P_aug_of_diagonal s1 _ _ _ _ _ rfl] at hA
  obtain ⟨f0, f1, f01, f10, f00, f11⟩ := Prediction_at_rest E s1
    (((t1 - s1.time_us_ : Int) : α) / 1000000.0) a b _ rfl rfl hA hsin
  rw [ProcessMeasurement_tracking_laser E R1 s1 t1 ![a2, b2] rfl]
  have hl : (UKF.Prediction E s1 (((t1 - s1.time_us_ : Int) : α) / 1000000.0)).use_laser_
      = true := rfl
  rw [hl, if_pos rfl]
  have hsx : (0.15 : α) ≠ 0 := by norm_num
  obtain ⟨u0, u1, u2⟩ := UpdateLidar_uncorrelated
    { UKF.Prediction E s1 (((t1 - s1.time_us_ : Int) : α) / 1000000.0) with time_us_ := t1 }
    ![a2, b2] f01 f10 f00 f11 hsx hsx
  have hr : (0 : α) < 0.15 * 0.15 := by norm_num
  refine ⟨_, _, (ratio_mem _ _ f00 hr).1, (ratio_mem _ _ f00 hr).2,
    (ratio_mem _ _ f11 hr).1, (ratio_mem _ _ f11 hr).2, ?_, ?_, ?_⟩
  · rw [u0]
    show (UKF.Prediction E s1 _).x_ 0 + _ * (a2 - (UKF.Prediction E s1 _).x_ 0) = _
    rw [f0]
    rfl
  · rw [u1, pow_two]
    rfl
  · rw [u2, pow_two]
    rfl

/-- Diagonal matrices with non-negative entries are positive semi-definite. -/
theorem isPSD_diagonal {n : Nat} (d : Fin n → α) (h : ∀ i, 0 ≤ d i) :
    IsPSD (Matrix.diagonal d) := by
  constructor
  · exact Matrix.diagonal_transpose d
  · intro v
    simp only [Matrix.dotProduct, Matrix.mulVec_diagonal]
    apply Finset.sum_nonneg
    intro i _
    have e : v i * (d i * v i) = d i * (v i * v i) := by ring
    rw [e]
    exact mul_nonneg (h i) (mul_self_nonneg (v i))

/-- On the rational test environment `llt` returns a lower-triangular square
root of the augmented covariance reached after the laser fix `[5, 3]`. -/
theorem testEnv_llt_scenario :
    IsLowerCholesky
      (testEnv.llt (UKF.ProcessMeasurement testEnv 0 (UKF.new 0)
        ⟨0, SensorType.LASER, ![5, 3]⟩).P_aug)
      (UKF.ProcessMeasurement testEnv 0 (UKF.new 0) ⟨0, SensorType.LASER, ![5, 3]⟩).P_aug := by
  rw [first_laser_state, P_aug_of_diagonal _ _ _ _ _ _ rfl]
  constructor
  · intro i j hij
    exact Matrix.diagonal_apply_ne _ (ne_of_lt hij)
  · show Matrix.diagonal _ * (Matrix.diagonal _)ᵀ = _
    rw [Matrix.diagonal_transpose, Matrix.diagonal_mul_diagonal]
    refine congrArg Matrix.diagonal (funext fun i => ?_)
    simp only [Matrix.diagonal_apply_eq]
    apply (Rat.exists_mul_self _).mp
    fin_cases i
    · exact ⟨3 / 20, by norm_num [UKF.new]⟩
    · exact ⟨3 / 20, by norm_num [UKF.new]⟩
    · exact ⟨1, by norm_num⟩
    · exact ⟨44 / 7, by norm_num [testEnv]⟩
    · exact ⟨1, by norm_num⟩
    · exact ⟨5 / 2, by norm_num [UKF.new]⟩
    · exact ⟨1, by norm_num [UKF.new]⟩

/-- C7: `UpdateLidar` preserves the covariance invariant. For every state
whose `P_` is symmetric positive semi-definite (and whose lidar noise
standard deviations are not zero, as the constructor's 0.15 is) and every
lidar measurement `z`, the covariance written by `UpdateLidar`, which is
`(I - K H) P_` with `K = P_ H^T (H P_ H^T + R)^-1`, is symmetric positive
semi-definite. -/
theorem C7_UpdateLidar_preserves_psd (s : UKF α) (z : Fin 2 → α) (hP : IsPSD s.P_)
    (hx : s.std_laspx_ ≠ 0) (hy : s.std_laspy_ ≠ 0) :
    IsPSD (UKF.UpdateLidar s z).P_ ∧
    (UKF.UpdateLidar s z).P_ =
      (1 - s.P_ * (@lidarH α _)ᵀ * inverse (@lidarH α _ * s.P_ * (@lidarH α _)ᵀ
        + !![s.std_laspx_ * s.std_laspx_, 0; 0, s.std_laspy_ * s.std_laspy_]) * @lidarH α _)
      * s.P_ :=
  ⟨UpdateLidar_P_isPSD s z hP hx hy, rfl⟩

/-- C7, concrete run: lidar update of the state initialized by the laser fix
`[5, 3]`, whose covariance is diagonal. -/
theorem C7_witness :
    IsPSD (UKF.UpdateLidar
      (UKF.ProcessMeasurement testEnv 0 (UKF.new 0) ⟨0, SensorType.LASER, ![5, 3]⟩)
      ![51 / 10, 61 / 20]).P_ :=
  (C7_UpdateLidar_preserves_psd
    (UKF.ProcessMeasurement testEnv 0 (UKF.new 0) ⟨0, SensorType.LASER, ![5, 3]⟩)
    ![51 / 10, 61 / 20]
    (by
      rw [first_laser_state]
      apply isPSD_diagonal
      intro i
      fin_cases i <;> simp <;> positivity)
    (by rw [first_laser_state]; norm_num [UKF.new])
    (by rw [first_laser_state]; norm_num [UKF.new])).1

/-- C8: a freshly constructed filter (`use_laser_ = true`) receives a first
LASER measurement `[a, b]` at `t0` and a second LASER measurement `[a2, b2]`
at `t1`. If `sin 0 = 0` and `llt` returns a lower-triangular square root of
the augmented covariance of the initialized state, then after the second
`ProcessMeasurement` call `min(a, a2) <= x_(0) <= max(a, a2)`. This holds for
every `t1`, in particular for `t1 >= t0`. -/
theorem C8_second_laser_between [FloorRing α] (E : Env α) (R0 R1 : Matrix (Fin 3) (Fin 3) α)
    (x0 : Fin 5 → α) (t0 t1 : Int) (a b a2 b2 : α) (hsin : E.sin 0 = 0)
    (hllt : IsLowerCholesky
      (E.llt (UKF.ProcessMeasurement E R0 (UKF.new x0) ⟨t0, SensorType.LASER, ![a, b]⟩).P_aug)
      (UKF.ProcessMeasurement E R0 (UKF.new x0) ⟨t0, SensorType.LASER, ![a, b]⟩).P_aug) :
    (UKF.new x0).use_laser_ = true ∧
    min a a2 ≤ (UKF.ProcessMeasurement E R1
        (UKF.ProcessMeasurement E R0 (UKF.new x0) ⟨t0, SensorType.LASER, ![a, b]⟩)
        ⟨t1, SensorType.LASER, ![a2, b2]⟩).x_ 0 ∧
    (UKF.ProcessMeasurement E R1
        (UKF.ProcessMeasurement E R0 (UKF.new x0) ⟨t0, SensorType.LASER, ![a, b]⟩)
        ⟨t1, SensorType.LASER, ![a2, b2]⟩).x_ 0 ≤ max a a2 := by
  obtain ⟨k, l, hk0, hk1, _, _, hx, _, _⟩ :=
    second_laser_scenario E R0 R1 x0 t0 t1 a b a2 b2 hsin hllt
  rw [hx]
  exact ⟨rfl, blend_between a a2 k hk0 hk1⟩

/-- C8, concrete run on the rational test environment: LASER `[5.0, 3.0]` at
`t = 0`, then LASER `[5.1, 3.05]` at `t = 100000`. -/
theorem C8_witness :
    min (5.0 : ℚ) 5.1 ≤ (UKF.ProcessMeasurement testEnv 0
        (UKF.ProcessMeasurement testEnv 0 (UKF.new 0) ⟨0, SensorType.LASER, ![5.0, 3.0]⟩)
        ⟨100000, SensorType.LASER, ![5.1, 3.05]⟩).x_ 0 ∧
    (UKF.ProcessMeasurement testEnv 0
        (UKF.ProcessMeasurement testEnv 0 (UKF.new 0) ⟨0, SensorType.LASER, ![5.0, 3.0]⟩)
        ⟨100000, SensorType.LASER, ![5.1, 3.05]⟩).x_ 0 ≤ max (5.0 : ℚ) 5.1 :=
  (C8_second_laser_between testEnv 0 0 0 0 100000 5.0 3.0 5.1 3.05 rfl
    (by
      have e : (![5.0, 3.0] : Fin 2 → ℚ) = ![5, 3] := by norm_num
      rw [e]
      exact testEnv_llt_scenario)).2

/-- C9: after a lidar correction the position variances are strictly below
the lidar noise variances. For every state whose `P_` is symmetric positive
semi-definite (and whose lidar noise standard deviations are not zero) and
every lidar measurement, the `P_` written by `UpdateLidar` has
`P_(0,0) < std_laspx_^2` and `P_(1,1) < std_laspy_^2`. In scenario A (first
LASER `[a, b]`, second LASER `[a2, b2]` on a constructed filter, with
`sin 0 = 0` and `llt` a lower-triangular square root of the augmented
covariance of the initialized state) both variances are below `0.15^2`
after the second call. -/
theorem C9_lidar_variance_below_noise [FloorRing α] :
    (∀ (s : UKF α) (z : Fin 2 → α), IsPSD s.P_ → s.std_laspx_ ≠ 0 → s.std_laspy_ ≠ 0 →
      (UKF.UpdateLidar s z).P_ 0 0 < s.std_laspx_ ^ 2 ∧
      (UKF.UpdateLidar s z).P_ 1 1 < s.std_laspy_ ^ 2) ∧
    (∀ (E : Env α) (R0 R1 : Matrix (Fin 3) (Fin 3) α) (x0 : Fin 5 → α) (t0 t1 : Int)
      (a b a2 b2 : α), E.sin 0 = 0 →
      IsLowerCholesky
        (E.llt (UKF.ProcessMeasurement E R0 (UKF.new x0)
          ⟨t0, SensorType.LASER, ![a, b]⟩).P_aug)
        (UKF.ProcessMeasurement E R0 (UKF.new x0) ⟨t0, SensorType.LASER, ![a, b]⟩).P_aug →
      (UKF.ProcessMeasurement E R1
        (UKF.ProcessMeasurement E R0 (UKF.new x0) ⟨t0, SensorType.LASER, ![a, b]⟩)
        ⟨t1, SensorType.LASER, ![a2, b2]⟩).P_ 0 0 < 0.15 ^ 2 ∧
      (UKF.ProcessMeasurement E R1
        (UKF.ProcessMeasurement E R0 (UKF.new x0) ⟨t0, SensorType.LASER, ![a, b]⟩)
        ⟨t1, SensorType.LASER, ![a2, b2]⟩).P_ 1 1 < 0.15 ^ 2) := by
  refine ⟨fun s z hP hx hy => UpdateLidar_P_diag_lt s z hP hx hy, ?_⟩
  intro E R0 R1 x0 t0 t1 a b a2 b2 hsin hllt
  obtain ⟨k, l, _, hk1, _, hl1, _, hp0, hp1⟩ :=
    second_laser_scenario E R0 R1 x0 t0 t1 a b a2 b2 hsin hllt
  rw [hp0, hp1]
  have h : (0 : α) < 0.15 ^ 2 := by norm_num
  constructor <;> nlinarith

/-- C9, concrete runs on the rational test environment: the lidar update of
the state initialized by the laser fix `[5, 3]`, and scenario A with LASER
`[5, 3]` at `t = 0` then LASER `[5.1, 3.05]` at `t = 100000`. -/
theorem C9_witness :
    ((UKF.UpdateLidar
        (UKF.ProcessMeasurement testEnv 0 (UKF.new 0) ⟨0, SensorType.LASER, ![5, 3]⟩)
        ![51 / 10, 61 / 20]).P_ 0 0 <
      (UKF.ProcessMeasurement testEnv 0 (UKF.new 0)
        ⟨0, SensorType.LASER, ![5, 3]⟩).std_laspx_ ^ 2 ∧
     (UKF.UpdateLidar
        (UKF.ProcessMeasurement testEnv 0 (UKF.new 0) ⟨0, SensorType.LASER, ![5, 3]⟩)
        ![51 / 10, 61 / 20]).P_ 1 1 <
      (UKF.ProcessMeasurement testEnv 0 (UKF.new 0)
        ⟨0, SensorType.LASER, ![5, 3]⟩).std_laspy_ ^ 2) ∧
    ((UKF.ProcessMeasurement testEnv 0
        (UKF.ProcessMeasurement testEnv 0 (UKF.new 0) ⟨0, SensorType.LASER, ![5, 3]⟩)
        ⟨100000, SensorType.LASER, ![51 / 10, 61 / 20]⟩).P_ 0 0 < (0.15 : ℚ) ^ 2 ∧
     (UKF.ProcessMeasurement testEnv 0
        (UKF.ProcessMeasurement testEnv 0 (UKF.new 0) ⟨0, SensorType.LASER, ![5, 3]⟩)
        ⟨100000, SensorType.LASER, ![51 / 10, 61 / 20]⟩).P_ 1 1 < (0.15 : ℚ) ^ 2) :=
  ⟨C9_lidar_variance_below_noise.1
    (UKF.ProcessMeasurement testEnv 0 (UKF.new 0) ⟨0, SensorType.LASER, ![5, 3]⟩)
    ![51 / 10, 61 / 20]
    (by
      rw [first_laser_state]
      apply isPSD_diagonal
      intro i
      fin_cases i <;> simp <;> positivity)
    (by rw [first_laser_state]; norm_num [UKF.new])
    (by rw [first_laser_state]; norm_num [UKF.new]),
   C9_lidar_variance_below_noise.2 testEnv 0 0 0 0 100000 5 3 (51 / 10) (61 / 20) rfl
    testEnv_llt_scenario⟩

end Scenario

section AngleNormalization

variable {α : Type} [LinearOrderedField α] [FloorRing α]

/-- Result of the loop `while (d > M_PI) d -= 2.*M_PI;`: at most `pi`, equal
to `d` when `d <= pi`, above `-pi` when the loop ran, and `d` minus a natural
multiple of `2 pi`. -/
theorem whileGtPi_spec (pi : α) (hpi : 0 < pi) (d : α) :
    whileGtPi pi hpi d ≤ pi ∧ (d ≤ pi → whileGtPi pi hpi d = d) ∧
    (pi < d → -pi < whileGtPi pi hpi d) ∧
    ∃ n : ℕ, whileGtPi pi hpi d = d - n * (2 * pi) := by
  induction d using whileGtPi.induct pi hpi with
  | case1 x hx ih =>
    rw [whileGtPi, if_pos hx]
    obtain ⟨h1, h2, h3, n, h4⟩ := ih
    refine ⟨h1, fun h => absurd hx (not_lt.mpr h), fun _ => ?_, n + 1, ?_⟩
    · rcases le_or_lt (x - 2 * pi) pi with h | h
      · rw [h2 h]
        linarith
      · exact h3 h
    · rw [h4]
      push_cast
      ring
  | case2 x hx =>
    rw [whileGtPi, if_neg hx]
    exact ⟨not_lt.mp hx, fun _ => rfl, fun h => absurd h hx, 0, by simp⟩

/-- Result of the loop `while (d < -M_PI) d += 2.*M_PI;`: at least `-pi`,
equal to `d` when `-pi <= d`, below `pi` when the loop ran, and `d` plus a
natural multiple of `2 pi`. -/
theorem whileLtNegPi_spec (pi : α) (hpi : 0 < pi) (d : α) :
    -pi ≤ whileLtNegPi pi hpi d ∧ (-pi ≤ d → whileLtNegPi pi hpi d = d) ∧
    (d < -pi → whileLtNegPi pi hpi d < pi) ∧
    ∃ n : ℕ, whileLtNegPi pi hpi d = d + n * (2 * pi) := by
  induction d using whileLtNegPi.induct pi hpi with
  | case1 x hx ih =>
    rw [whileLtNegPi, if_pos hx]
    obtain ⟨h1, h2, h3, n, h4⟩ := ih
    refine ⟨h1, fun h => absurd hx (not_lt.mpr h), fun _ => ?_, n + 1, ?_⟩
    · rcases le_or_lt (-pi) (x + 2 * pi) with h | h
      · rw [h2 h]
        linarith
      · exact h3 h
    · rw [h4]
      push_cast
      ring
  | case2 x hx =>
    rw [whileLtNegPi, if_neg hx]
    exact ⟨not_lt.mp hx, fun _ => rfl, fun h => absurd h hx, 0, by simp⟩

/-- Range and congruence of the two strict normalization loops. -/
theorem normalizeAngle_spec (pi : α) (hpi : 0 < pi) (d : α) :
    -pi ≤ normalizeAngle pi hpi d ∧ normalizeAngle pi hpi d ≤ pi ∧
    (∃ k : ℤ, normalizeAngle pi hpi d = d + k * (2 * pi)) ∧
    (normalizeAngle pi hpi d = -pi → ∃ n : ℕ, d = -(2 * n + 1) * pi) := by
  unfold normalizeAngle
  obtain ⟨g1, g2, g3, n, g4⟩ := whileGtPi_spec pi hpi d
  obtain ⟨l1, l2, l3, m, l4⟩ := whileLtNegPi_spec pi hpi (whileGtPi pi hpi d)
  refine ⟨l1, ?_, ⟨(m : ℤ) - n, ?_⟩, ?_⟩
  · rcases le_or_lt (-pi) (whileGtPi pi hpi d) with h | h
    · rw [l2 h]
      exact g1
    · exact (l3 h).le
  · rw [l4, g4]
    push_cast
    ring
  · intro hr
    rcases le_or_lt (-pi) (whileGtPi pi hpi d) with h | h
    · rw [l2 h] at hr
      rcases le_or_lt d pi with hd | hd
      · rw [g2 hd] at hr
        exact ⟨0, by rw [hr]; simp⟩
      · exact absurd hr (ne_of_gt (g3 hd))
    · have hd : d ≤ pi := by
        by_contra hc
        exact absurd (g3 (not_le.mp hc)) (not_lt.mpr h.le)
      rw [g2 hd] at l4 hr
      rw [l4] at hr
      refine ⟨m, ?_⟩
      linear_combination hr

/-- An angle already in `[-pi, pi]` is left unchanged by the two loops. -/
theorem normalizeAngle_of_mem (pi : α) (hpi : 0 < pi) (d : α) (h1 : -pi ≤ d) (h2 : d ≤ pi) :
    normalizeAngle pi hpi d = d := by
  unfold normalizeAngle
  rw [(whileGtPi_spec pi hpi d).2.1 h2, (whileLtNegPi_spec pi hpi d).2.1 h1]

/-- An odd negative multiple of `pi` is brought to `-pi` by the two loops. -/
theorem normalizeAngle_odd_neg (pi : α) (hpi : 0 < pi) (n : ℕ) :
    normalizeAngle pi hpi (-(2 * (n : α) + 1) * pi) = -pi := by
  unfold normalizeAngle
  have hn : (0 : α) ≤ n := Nat.cast_nonneg n
  have hle : -(2 * (n : α) + 1) * pi ≤ pi := by nlinarith
  rw [(whileGtPi_spec pi hpi _).2.1 hle]
  induction n with
  | zero =>
    rw [whileLtNegPi, if_neg (by simp)]
    simp
  | succ m ih =>
    have hm : (0 : α) ≤ m := Nat.cast_nonneg m
    have hlt : -(2 * ((m + 1 : ℕ) : α) + 1) * pi < -pi := by
      push_cast
      nlinarith
    have e : -(2 * ((m + 1 : ℕ) : α) + 1) * pi + 2 * pi = -(2 * (m : α) + 1) * pi := by
      push_cast
      ring
    rw [whileLtNegPi, if_pos hlt, e]
    exact ih hm (by nlinarith)

end AngleNormalization

section C10

variable {α : Type} [LinearOrderedField α] [FloorRing α]

/-- C10 as stated fails: for the yaw difference `d = -pi` (real numbers,
`M_PI = pi`) both loops leave `d` unchanged, and `-pi` is not in `(-pi, pi]`. -/
theorem C10_counterexample :
    normalizeAngle Real.pi Real.pi_pos (-Real.pi) = -Real.pi ∧
    ¬ (-Real.pi < normalizeAngle Real.pi Real.pi_pos (-Real.pi) ∧
      normalizeAngle Real.pi Real.pi_pos (-Real.pi) ≤ Real.pi) := by
  have h : normalizeAngle Real.pi Real.pi_pos (-Real.pi) = -Real.pi :=
    normalizeAngle_of_mem Real.pi Real.pi_pos (-Real.pi) le_rfl
      (by linarith [Real.pi_pos])
  refine ⟨h, ?_⟩
  rw [h]
  exact fun hc => lt_irrefl _ hc.1

/-- C10, amended: the yaw normalization of `PredictMeanAndCovariance`
(`while (d > M_PI) d -= 2.*M_PI; while (d < -M_PI) d += 2.*M_PI;`) returns,
for every yaw difference `d`, a value in the closed interval `[-pi, pi]` that
differs from `d` by an integer multiple of `2 pi`; the value is `-pi` exactly
for `d = -(2 n + 1) pi` with `n` a natural number, so it lies in `(-pi, pi]`
for every other `d`. A `d` already in `[-pi, pi]` is returned unchanged, `3 pi`
gives `pi` and `-5 pi / 2` gives `-pi / 2`. The value is what the covariance
loop uses as yaw component of `x_diff`. -/
theorem C10_normalization_range (E : Env α) (d : α) :
    -E.M_PI ≤ normalizeAngle E.M_PI E.M_PI_pos d ∧
    normalizeAngle E.M_PI E.M_PI_pos d ≤ E.M_PI ∧
    (∃ k : ℤ, normalizeAngle E.M_PI E.M_PI_pos d = d + k * (2 * E.M_PI)) ∧
    (normalizeAngle E.M_PI E.M_PI_pos d = -E.M_PI ↔ ∃ n : ℕ, d = -(2 * n + 1) * E.M_PI) ∧
    (-E.M_PI ≤ d → d ≤ E.M_PI → normalizeAngle E.M_PI E.M_PI_pos d = d) ∧
    normalizeAngle E.M_PI E.M_PI_pos (3 * E.M_PI) = E.M_PI ∧
    normalizeAngle E.M_PI E.M_PI_pos (-5 * E.M_PI / 2) = -E.M_PI / 2 ∧
    (∀ (X : Matrix (Fin 5) (Fin 15) α) (x : Fin 5 → α) (i : Fin 15),
      xDiff E X x i 3 = normalizeAngle E.M_PI E.M_PI_pos (X 3 i - x 3)) := by
  have hpi := E.M_PI_pos
  obtain ⟨h1, h2, h3, h4⟩ := normalizeAngle_spec E.M_PI E.M_PI_pos d
  refine ⟨h1, h2, h3, ⟨h4, ?_⟩, normalizeAngle_of_mem E.M_PI E.M_PI_pos d, ?_, ?_, ?_⟩
  · rintro ⟨n, rfl⟩
    exact normalizeAngle_odd_neg E.M_PI E.M_PI_pos n
  · unfold normalizeAngle
    rw [whileGtPi, if_pos (by linarith), whileGtPi, if_neg (by linarith), whileLtNegPi,
      if_neg (by linarith)]
    ring
  · unfold normalizeAngle
    rw [whileGtPi, if_neg (by linarith), whileLtNegPi, if_pos (by linarith), whileLtNegPi,
      if_neg (by linarith)]
    ring
  · intro X x i
    simp [xDiff]

/-- C10, concrete run on the rational test environment (`M_PI = 22/7`): the
yaw difference `1/10` is returned unchanged. -/
theorem C10_witness :
    normalizeAngle testEnv.M_PI testEnv.M_PI_pos (1 / 10) = 1 / 10 :=
  (C10_normalization_range testEnv (1 / 10)).2.2.2.2.1
    (by norm_num [testEnv]) (by norm_num [testEnv])

end C10

section RadarResidualAndTermination

variable {α : Type} [LinearOrderedField α] [FloorRing α]

/-- Result of the loop `while (d >= M_PI) d -= 2.*M_PI;`: below `pi`, equal to
`d` when `d < pi`, at least `-pi` when the loop ran, and `d` minus a natural
multiple of `2 pi`. -/
theorem whileGePi_spec (pi : α) (hpi : 0 < pi) (d : α) :
    whileGePi pi hpi d < pi ∧ (d < pi → whileGePi pi hpi d = d) ∧
    (pi ≤ d → -pi ≤ whileGePi pi hpi d) ∧
    ∃ n : ℕ, whileGePi pi hpi d = d - n * (2 * pi) := by
  induction d using whileGePi.induct pi hpi with
  | case1 x hx ih =>
    rw [whileGePi, if_pos hx]
    obtain ⟨h1, h2, h3, n, h4⟩ := ih
    refine ⟨h1, fun h => absurd hx (not_le.mpr h), fun _ => ?_, n + 1, ?_⟩
    · rcases lt_or_le (x - 2 * pi) pi with h | h
      · rw [h2 h]
        have hx2 : pi ≤ x := hx
        linarith
      · exact h3 h
    · rw [h4]
      push_cast
      ring
  | case2 x hx =>
    rw [whileGePi, if_neg hx]
    exact ⟨not_le.mp hx, fun _ => rfl, fun h => absurd h hx, 0, by simp⟩

/-- Range and congruence of the two loops normalizing the final radar
residual. -/
theorem normalizeAngleGe_spec (pi : α) (hpi : 0 < pi) (d : α) :
    -pi ≤ normalizeAngleGe pi hpi d ∧ normalizeAngleGe pi hpi d < pi ∧
    ∃ k : ℤ, normalizeAngleGe pi hpi d = d + k * (2 * pi) := by
  unfold normalizeAngleGe
  obtain ⟨g1, g2, g3, n, g4⟩ := whileGePi_spec pi hpi d
  obtain ⟨l1, l2, l3, m, l4⟩ := whileLtNegPi_spec pi hpi (whileGePi pi hpi d)
  refine ⟨l1, ?_, (m : ℤ) - n, ?_⟩
  · rcases le_or_lt (-pi) (whileGePi pi hpi d) with h | h
    · rw [l2 h]
      exact g1
    · exact l3 h
  · rw [l4, g4]
    push_cast
    ring

/-- The loop `while (d > M_PI) d -= 2.*M_PI;` exits within `n` iterations when
`(d - pi) / (2 pi) <= n`. -/
theorem whileFuel_gt (pi : α) (hpi : 0 < pi) (n : ℕ) (d : α)
    (h : (d - pi) / (2 * pi) ≤ n) :
    whileFuel (fun x => decide (x > pi)) (fun x => x - 2 * pi) n d
      = some (whileGtPi pi hpi d) := by
  have h2 : (0 : α) < 2 * pi := by positivity
  induction n generalizing d with
  | zero =>
    have hd : ¬ d > pi := by
      intro hc
      have : 0 < (d - pi) / (2 * pi) := div_pos (sub_pos.mpr hc) h2
      simp at h
      linarith
    rw [whileGtPi, if_neg hd]
    simp [whileFuel, hd]
  | succ m ih =>
    by_cases hd : d > pi
    · rw [whileGtPi, if_pos hd]
      have e : (d - 2 * pi - pi) / (2 * pi) = (d - pi) / (2 * pi) - 1 := by
        field_simp
        ring
      have h3 : (d - 2 * pi - pi) / (2 * pi) ≤ m := by
        rw [e]
        push_cast at h
        linarith
      simp only [whileFuel, hd, decide_True, if_true]
      exact ih _ h3
    · rw [whileGtPi, if_neg hd]
      simp [whileFuel, hd]

/-- The loop `while (d >= M_PI) d -= 2.*M_PI;` exits within `n` iterations
when `(d - pi) / (2 pi) < n`. -/
theorem whileFuel_ge (pi : α) (hpi : 0 < pi) (n : ℕ) (d : α)
    (h : (d - pi) / (2 * pi) < n) :
    whileFuel (fun x => decide (x ≥ pi)) (fun x => x - 2 * pi) n d
      = some (whileGePi pi hpi d) := by
  have h2 : (0 : α) < 2 * pi := by positivity
  induction n generalizing d with
  | zero =>
    have hd : ¬ d ≥ pi := by
      intro hc
      have : 0 ≤ (d - pi) / (2 * pi) := div_nonneg (sub_nonneg.mpr hc) h2.le
      simp at h
      linarith
    rw [whileGePi, if_neg hd]
    simp [whileFuel, hd]
  | succ m ih =>
    by_cases hd : d ≥ pi
    · rw [whileGePi, if_pos hd]
      have e : (d - 2 * pi - pi) / (2 * pi) = (d - pi) / (2 * pi) - 1 := by
        field_simp
        ring
      have h3 : (d - 2 * pi - pi) / (2 * pi) < m := by
        rw [e]
        push_cast at h
        linarith
      simp only [whileFuel, hd, decide_True, if_true]
      exact ih _ h3
    · rw [whileGePi, if_neg hd]
      simp [whileFuel, hd]

/-- The loop `while (d < -M_PI) d += 2.*M_PI;` exits within `n` iterations
when `(-pi - d) / (2 pi) <= n`. -/
theorem whileFuel_lt (pi : α) (hpi : 0 < pi) (n : ℕ) (d : α)
    (h : (-pi - d) / (2 * pi) ≤ n) :
    whileFuel (fun x => decide (x < -pi)) (fun x => x + 2 * pi) n d
      = some (whileLtNegPi pi hpi d) := by
  have h2 : (0 : α) < 2 * pi := by positivity
  induction n generalizing d with
  | zero =>
    have hd : ¬ d < -pi := by
      intro hc
      have : 0 < (-pi - d) / (2 * pi) := div_pos (sub_pos.mpr hc) h2
      simp at h
      linarith
    rw [whileLtNegPi, if_neg hd]
    simp [whileFuel, hd]
  | succ m ih =>
    by_cases hd : d < -pi
    · rw [whileLtNegPi, if_pos hd]
      have e : (-pi - (d + 2 * pi)) / (2 * pi) = (-pi - d) / (2 * pi) - 1 := by
        field_simp
        ring
      have h3 : (-pi - (d + 2 * pi)) / (2 * pi) ≤ m := by
        rw [e]
        push_cast at h
        linarith
      simp only [whileFuel, hd, decide_True, if_true]
      exact ih _ h3
    · rw [whileLtNegPi, if_neg hd]
      simp [whileFuel, hd]

/-- Half a turn less than `|d| / (2 pi)` turns is below the iteration budget
`ceil(|d| / (2 pi))`. -/
theorem budget_bounds (pi : α) (hpi : 0 < pi) (d : α) :
    (d - pi) / (2 * pi) < (⌈|d| / (2 * pi)⌉₊ : α) ∧
    (-pi - d) / (2 * pi) < (⌈|d| / (2 * pi)⌉₊ : α) := by
  have h2 : (0 : α) < 2 * pi := by positivity
  have hc : |d| / (2 * pi) ≤ (⌈|d| / (2 * pi)⌉₊ : α) := Nat.le_ceil _
  have e1 : (d - pi) / (2 * pi) = d / (2 * pi) - 1 / 2 := by
    field_simp
    ring
  have e2 : (-pi - d) / (2 * pi) = -d / (2 * pi) - 1 / 2 := by
    field_simp
    ring
  have a1 : d / (2 * pi) ≤ |d| / (2 * pi) := div_le_div_of_nonneg_right (le_abs_self d) h2.le
  have a2 : -d / (2 * pi) ≤ |d| / (2 * pi) :=
    div_le_div_of_nonneg_right (neg_le_abs d) h2.le
  constructor
  · rw [e1]
    linarith
  · rw [e2]
    linarith


/-- C11: angle normalization is idempotent. For every input `d`, running the
two loops `while (d > M_PI) d -= 2.*M_PI; while (d < -M_PI) d += 2.*M_PI;`
(lines 273-275 and 371-373) on their own result returns that result
unchanged. -/
theorem C11_normalization_idempotent (E : Env α) (d : α) :
    normalizeAngle E.M_PI E.M_PI_pos (normalizeAngle E.M_PI E.M_PI_pos d)
      = normalizeAngle E.M_PI E.M_PI_pos d := by
  obtain ⟨h1, h2, _, _⟩ := normalizeAngle_spec E.M_PI E.M_PI_pos d
  exact normalizeAngle_of_mem E.M_PI E.M_PI_pos _ h1 h2

/-- C13 as stated fails: in `UpdateRadar` the raw bearing differences `pi` and
`-pi` (real numbers, `M_PI = pi`) are both normalized to `-pi`, which is not
in `(-pi, pi]`. -/
theorem C13_counterexample :
    normalizeAngleGe Real.pi Real.pi_pos Real.pi = -Real.pi ∧
    normalizeAngleGe Real.pi Real.pi_pos (-Real.pi) = -Real.pi ∧
    ¬ (-Real.pi < normalizeAngleGe Real.pi Real.pi_pos (-Real.pi) ∧
      normalizeAngleGe Real.pi Real.pi_pos (-Real.pi) ≤ Real.pi) := by
  have hpi := Real.pi_pos
  have h1 : normalizeAngleGe Real.pi Real.pi_pos Real.pi = -Real.pi := by
    unfold normalizeAngleGe
    rw [whileGePi, if_pos le_rfl, whileGePi, if_neg (by linarith), whileLtNegPi,
      if_neg (by linarith)]
    ring
  have h2 : normalizeAngleGe Real.pi Real.pi_pos (-Real.pi) = -Real.pi := by
    unfold normalizeAngleGe
    rw [whileGePi, if_neg (by linarith), whileLtNegPi, if_neg (lt_irrefl _)]
  refine ⟨h1, h2, ?_⟩
  rw [h2]
  exact fun hc => lt_irrefl _ hc.1

/-- C13, amended: in `UpdateRadar` the bearing component of the final residual
`z - z_pred` is normalized by `while (d >= M_PI) d -= 2.*M_PI;
while (d < -M_PI) d += 2.*M_PI;` into the closed interval `[-pi, pi]`: for
every raw bearing difference the value used in `x_ + K * z_diff` lies in
`[-pi, pi]` and differs from the raw difference by an integer multiple of
`2 pi`. -/
theorem C13_radar_residual_range (E : Env α) (R0 : Matrix (Fin 3) (Fin 3) α) (s : UKF α)
    (z : Fin 3 → α) :
    (∀ d : α, -E.M_PI ≤ normalizeAngleGe E.M_PI E.M_PI_pos d ∧
      normalizeAngleGe E.M_PI E.M_PI_pos d ≤ E.M_PI ∧
      ∃ k : ℤ, normalizeAngleGe E.M_PI E.M_PI_pos d = d + k * (2 * E.M_PI)) ∧
    ∃ K : Matrix (Fin 5) (Fin 3) α,
      (UKF.UpdateRadar E R0 s z).x_ = s.x_ + K *ᵥ
        Function.update (z - (UKF.PredictRadarMeasurement E R0 s).2.1) 1
          (normalizeAngleGe E.M_PI E.M_PI_pos
            (z 1 - (UKF.PredictRadarMeasurement E R0 s).2.1 1)) := by
  refine ⟨fun d => ?_, _, rfl⟩
  obtain ⟨h1, h2, h3⟩ := normalizeAngleGe_spec E.M_PI E.M_PI_pos d
  exact ⟨h1, h2.le, h3⟩

/-- In exact arithmetic the angle-normalization loops exit within
`ceil(|d| / (2 pi))` iterations. Run with that iteration budget on any input
`d`, each of the three loops (`d > M_PI`, `d >= M_PI`, `d < -M_PI`) exits and
returns the value of the corresponding total function of the exact model; so
do the two-loop sequences, the second loop running on the result of the
first with the same budget. Rounding is not part of this statement. -/
theorem normalization_loops_bounded_exact (E : Env α) (d : α) :
    whileFuel (fun x => decide (x > E.M_PI)) (fun x => x - 2 * E.M_PI)
      ⌈|d| / (2 * E.M_PI)⌉₊ d = some (whileGtPi E.M_PI E.M_PI_pos d) ∧
    whileFuel (fun x => decide (x ≥ E.M_PI)) (fun x => x - 2 * E.M_PI)
      ⌈|d| / (2 * E.M_PI)⌉₊ d = some (whileGePi E.M_PI E.M_PI_pos d) ∧
    whileFuel (fun x => decide (x < -E.M_PI)) (fun x => x + 2 * E.M_PI)
      ⌈|d| / (2 * E.M_PI)⌉₊ d = some (whileLtNegPi E.M_PI E.M_PI_pos d) ∧
    (whileFuel (fun x => decide (x > E.M_PI)) (fun x => x - 2 * E.M_PI)
      ⌈|d| / (2 * E.M_PI)⌉₊ d).bind
      (whileFuel (fun x => decide (x < -E.M_PI)) (fun x => x + 2 * E.M_PI)
        ⌈|d| / (2 * E.M_PI)⌉₊) = some (normalizeAngle E.M_PI E.M_PI_pos d) ∧
    (whileFuel (fun x => decide (x ≥ E.M_PI)) (fun x => x - 2 * E.M_PI)
      ⌈|d| / (2 * E.M_PI)⌉₊ d).bind
      (whileFuel (fun x => decide (x < -E.M_PI)) (fun x => x + 2 * E.M_PI)
        ⌈|d| / (2 * E.M_PI)⌉₊) = some (normalizeAngleGe E.M_PI E.M_PI_pos d) := by
  have hpi := E.M_PI_pos
  have h2 : (0 : α) < 2 * E.M_PI := by positivity
  obtain ⟨b1, b2⟩ := budget_bounds E.M_PI hpi d
  have hN : (0 : α) ≤ (⌈|d| / (2 * E.M_PI)⌉₊ : α) := Nat.cast_nonneg _
  have g := whileFuel_gt E.M_PI hpi ⌈|d| / (2 * E.M_PI)⌉₊ d b1.le
  have ge := whileFuel_ge E.M_PI hpi ⌈|d| / (2 * E.M_PI)⌉₊ d b1
  have l := whileFuel_lt E.M_PI hpi ⌈|d| / (2 * E.M_PI)⌉₊ d b2.le
  refine ⟨g, ge, l, ?_, ?_⟩
  · rw [g, Option.some_bind]
    unfold normalizeAngle
    apply whileFuel_lt
    obtain ⟨_, s2, s3, _⟩ := whileGtPi_spec E.M_PI hpi d
    rcases le_or_lt d E.M_PI with hd | hd
    · rw [s2 hd]
      exact b2.le
    · have : (-E.M_PI - whileGtPi E.M_PI hpi d) / (2 * E.M_PI) ≤ 0 :=
        div_nonpos_of_nonpos_of_nonneg (by linarith [s3 hd]) h2.le
      linarith
  · rw [ge, Option.some_bind]
    unfold normalizeAngleGe
    apply whileFuel_lt
    obtain ⟨_, s2, s3, _⟩ := whileGePi_spec E.M_PI hpi d
    rcases lt_or_le d E.M_PI with hd | hd
    · rw [s2 hd]
      exact b2.le
    · have : (-E.M_PI - whileGePi E.M_PI hpi d) / (2 * E.M_PI) ≤ 0 :=
        div_nonpos_of_nonpos_of_nonneg (by linarith [s3 hd]) h2.le
      linarith

end RadarResidualAndTermination

section Taylor

/-- Cosine is 1-Lipschitz: `cos (x + t) - cos x <= t` for `t >= 0`. -/
theorem cos_add_sub_cos_le (x t : ℝ) (ht : 0 ≤ t) : Real.cos (x + t) - Real.cos x ≤ t := by
  rw [Real.cos_sub_cos]
  have h1 : |Real.sin ((x + t + x) / 2)| ≤ 1 := Real.abs_sin_le_one _
  have h2 : |Real.sin ((x + t - x) / 2)| ≤ |(x + t - x) / 2| := Real.abs_sin_le_abs
  have e : (x + t - x) / 2 = t / 2 := by ring
  rw [e, abs_of_nonneg (by positivity : (0 : ℝ) ≤ t / 2)] at h2
  have h3 : |(-2 * Real.sin ((x + t + x) / 2)) * Real.sin (t / 2)| ≤ t := by
    rw [abs_mul, abs_mul]
    have : |(-2 : ℝ)| = 2 := by norm_num
    rw [this]
    nlinarith [abs_nonneg (Real.sin ((x + t + x) / 2)), abs_nonneg (Real.sin (t / 2))]
  rw [e]
  exact (le_abs_self _).trans h3

/-- Second-order Taylor bound for the sine, one side, non-negative step. -/
theorem sin_taylor_le (x t : ℝ) (ht : 0 ≤ t) :
    Real.sin (x + t) - Real.sin x - t * Real.cos x ≤ t ^ 2 / 2 := by
  have hd : ∀ u : ℝ, HasDerivAt
      (fun u => u ^ 2 / 2 - (Real.sin (x + u) - Real.sin x - u * Real.cos x))
      (u - (Real.cos (x + u) - Real.cos x)) u := by
    intro u
    have h1 : HasDerivAt (fun u : ℝ => u ^ 2 / 2) u u := by
      have := (hasDerivAt_pow 2 u).div_const 2
      convert this using 1
      simp
    have h2 : HasDerivAt (fun u : ℝ => Real.sin (x + u)) (Real.cos (x + u)) u := by
      have := (Real.hasDerivAt_sin (x + u)).comp u ((hasDerivAt_id u).const_add x)
      convert this using 1
      simp
    have h3 : HasDerivAt (fun u : ℝ => u * Real.cos x) (Real.cos x) u := by
      have := (hasDerivAt_id u).mul_const (Real.cos x)
      convert this using 1
      simp
    exact h1.sub ((h2.sub_const (Real.sin x)).sub h3)
  have hmono : MonotoneOn
      (fun u => u ^ 2 / 2 - (Real.sin (x + u) - Real.sin x - u * Real.cos x)) (Set.Ici 0) := by
    apply monotoneOn_of_deriv_nonneg (convex_Ici 0)
    · exact fun u _ => (hd u).continuousAt.continuousWithinAt
    · exact fun u _ => (hd u).differentiableAt.differentiableWithinAt
    · intro u hu
      rw [interior_Ici] at hu
      rw [(hd u).deriv]
      have := cos_add_sub_cos_le x u (le_of_lt hu)
      linarith
  have h0 := hmono (Set.mem_Ici.mpr le_rfl) (Set.mem_Ici.mpr ht) ht
  simp at h0
  linarith

/-- Second-order Taylor bound for the sine:
`|sin (x + h) - sin x - h cos x| <= h^2 / 2`. -/
theorem abs_sin_taylor_le (x h : ℝ) :
    |Real.sin (x + h) - Real.sin x - h * Real.cos x| ≤ h ^ 2 / 2 := by
  have key : ∀ (y t : ℝ), 0 ≤ t →
      |Real.sin (y + t) - Real.sin y - t * Real.cos y| ≤ t ^ 2 / 2 := by
    intro y t ht
    rw [abs_le]
    constructor
    · have := sin_taylor_le (y + Real.pi) t ht
      rw [show y + Real.pi + t = y + t + Real.pi by ring, Real.sin_add_pi, Real.sin_add_pi,
        Real.cos_add_pi] at this
      linarith
    · exact sin_taylor_le y t ht
  rcases le_total 0 h with hh | hh
  · exact key x h hh
  · have := key (-x) (-h) (by linarith)
    rw [show -x + -h = -(x + h) by ring, Real.sin_neg, Real.sin_neg, Real.cos_neg] at this
    have e : -Real.sin (x + h) - -Real.sin x - -h * Real.cos x
        = -(Real.sin (x + h) - Real.sin x - h * Real.cos x) := by ring
    rw [e, abs_neg] at this
    simpa using this

/-- Second-order Taylor bound for the cosine:
`|-cos (y + h) + cos y - h sin y| <= h^2 / 2`. -/
theorem abs_cos_taylor_le (y h : ℝ) :
    |-Real.cos (y + h) + Real.cos y - h * Real.sin y| ≤ h ^ 2 / 2 := by
  have := abs_sin_taylor_le (y - Real.pi / 2) h
  rw [show y - Real.pi / 2 + h = y + h - Real.pi / 2 by ring, Real.sin_sub_pi_div_two,
    Real.sin_sub_pi_div_two, Real.cos_sub_pi_div_two] at this
  have e : -Real.cos (y + h) - -Real.cos y - h * Real.sin y
      = -Real.cos (y + h) + Real.cos y - h * Real.sin y := by ring
  rw [e] at this
  exact this

/-- Position rows of the CTRV step: the curved or the straight formula,
chosen by `fabs(yawd) > 0.001`, plus the noise term. -/
theorem ctrvStep_position {α : Type} [LinearOrderedField α] (E : Env α) (dt : α)
    (c : Fin 7 → α) :
    ctrvStep E dt c 0 =
      (if |c 4| > 0.001 then (ctrvCurved E.sin E.cos (c 0) (c 1) (c 2) (c 3) (c 4) dt).1
        else (ctrvStraight E.sin E.cos (c 0) (c 1) (c 2) (c 3) dt).1)
      + 0.5 * dt * dt * E.cos (c 3) * c 5 ∧
    ctrvStep E dt c 1 =
      (if |c 4| > 0.001 then (ctrvCurved E.sin E.cos (c 0) (c 1) (c 2) (c 3) (c 4) dt).2
        else (ctrvStraight E.sin E.cos (c 0) (c 1) (c 2) (c 3) dt).2)
      + 0.5 * dt * dt * E.sin (c 3) * c 5 :=
  ⟨rfl, rfl⟩

/-- Distance between the curved and the straight position formulas, with the
real sine and cosine. -/
theorem ctrv_branch_gap (p_x p_y v yaw dt w : ℝ) (hw : w ≠ 0) :
    |(ctrvCurved Real.sin Real.cos p_x p_y v yaw w dt).1
      - (ctrvStraight Real.sin Real.cos p_x p_y v yaw dt).1| ≤ |v| * |w| * dt ^ 2 / 2 ∧
    |(ctrvCurved Real.sin Real.cos p_x p_y v yaw w dt).2
      - (ctrvStraight Real.sin Real.cos p_x p_y v yaw dt).2| ≤ |v| * |w| * dt ^ 2 / 2 := by
  have hwa : 0 < |w| := abs_pos.mpr hw
  have bound : ∀ T : ℝ, |T| ≤ (w * dt) ^ 2 / 2 → |v / w * T| ≤ |v| * |w| * dt ^ 2 / 2 := by
    intro T hT
    rw [abs_mul, abs_div]
    have h1 : |v| / |w| * |T| ≤ |v| / |w| * ((w * dt) ^ 2 / 2) :=
      mul_le_mul_of_nonneg_left hT (div_nonneg (abs_nonneg v) hwa.le)
    have e : |v| / |w| * ((w * dt) ^ 2 / 2) = |v| * |w| * dt ^ 2 / 2 := by
      have hw2 : w ^ 2 = |w| ^ 2 := (sq_abs w).symm
      field_simp
      rw [mul_pow, hw2]
      ring
    linarith
  constructor
  · have e : (ctrvCurved Real.sin Real.cos p_x p_y v yaw w dt).1
        - (ctrvStraight Real.sin Real.cos p_x p_y v yaw dt).1
        = v / w * (Real.sin (yaw + w * dt) - Real.sin yaw - w * dt * Real.cos yaw) := by
      simp only [ctrvCurved, ctrvStraight]
      field_simp
      ring
    rw [e]
    exact bound _ (abs_sin_taylor_le yaw (w * dt))
  · have e : (ctrvCurved Real.sin Real.cos p_x p_y v yaw w dt).2
        - (ctrvStraight Real.sin Real.cos p_x p_y v yaw dt).2
        = v / w * (-Real.cos (yaw + w * dt) + Real.cos yaw - w * dt * Real.sin yaw) := by
      simp only [ctrvCurved, ctrvStraight]
      field_simp
      ring
    rw [e]
    exact bound _ (abs_cos_taylor_le yaw (w * dt))

/-- C12: the two branches of the CTRV position update agree in the limit of
zero yaw rate. With the real sine and cosine, for every `px, py, v, yaw, dt`
and every yaw rate `w != 0` the curved-branch positions differ from the
straight-line positions by at most `|v| |w| dt^2 / 2` each; so the difference
is below any `eps > 0` for `w` close enough to 0, and below `1e-3` for
`v = 1`, `dt = 1`, `w = 1e-4`. The two formulas are the ones
`SigmaPointPrediction` selects by `fabs(yawd) > 0.001`. -/
theorem C12_ctrv_branch_continuity (p_x p_y v yaw dt w : ℝ) (hw : w ≠ 0) :
    (|(ctrvCurved Real.sin Real.cos p_x p_y v yaw w dt).1
      - (ctrvStraight Real.sin Real.cos p_x p_y v yaw dt).1| ≤ |v| * |w| * dt ^ 2 / 2 ∧
     |(ctrvCurved Real.sin Real.cos p_x p_y v yaw w dt).2
      - (ctrvStraight Real.sin Real.cos p_x p_y v yaw dt).2| ≤ |v| * |w| * dt ^ 2 / 2) ∧
    (∀ eps : ℝ, 0 < eps → ∃ delta : ℝ, 0 < delta ∧ ∀ u : ℝ, u ≠ 0 → |u| < delta →
      |(ctrvCurved Real.sin Real.cos p_x p_y v yaw u dt).1
        - (ctrvStraight Real.sin Real.cos p_x p_y v yaw dt).1| < eps ∧
      |(ctrvCurved Real.sin Real.cos p_x p_y v yaw u dt).2
        - (ctrvStraight Real.sin Real.cos p_x p_y v yaw dt).2| < eps) ∧
    (|(ctrvCurved Real.sin Real.cos p_x p_y 1 yaw 0.0001 1).1
        - (ctrvStraight Real.sin Real.cos p_x p_y 1 yaw 1).1| < 0.001 ∧
     |(ctrvCurved Real.sin Real.cos p_x p_y 1 yaw 0.0001 1).2
        - (ctrvStraight Real.sin Real.cos p_x p_y 1 yaw 1).2| < 0.001) ∧
    (∀ (E : Env ℝ) (c : Fin 7 → ℝ),
      ctrvStep E dt c 0 =
        (if |c 4| > 0.001 then (ctrvCurved E.sin E.cos (c 0) (c 1) (c 2) (c 3) (c 4) dt).1
          else (ctrvStraight E.sin E.cos (c 0) (c 1) (c 2) (c 3) dt).1)
        + 0.5 * dt * dt * E.cos (c 3) * c 5 ∧
      ctrvStep E dt c 1 =
        (if |c 4| > 0.001 then (ctrvCurved E.sin E.cos (c 0) (c 1) (c 2) (c 3) (c 4) dt).2
          else (ctrvStraight E.sin E.cos (c 0) (c 1) (c 2) (c 3) dt).2)
        + 0.5 * dt * dt * E.sin (c 3) * c 5) := by
  refine ⟨ctrv_branch_gap p_x p_y v yaw dt w hw, ?_, ?_, fun E c => ctrvStep_position E dt c⟩
  · intro eps heps
    have hM : 0 < |v| * dt ^ 2 / 2 + 1 := by positivity
    refine ⟨eps / (|v| * dt ^ 2 / 2 + 1), div_pos heps hM, ?_⟩
    intro u hu hlt
    have hg := ctrv_branch_gap p_x p_y v yaw dt u hu
    have hb : |v| * |u| * dt ^ 2 / 2 < eps := by
      have h1 : |u| * (|v| * dt ^ 2 / 2 + 1) < eps := (lt_div_iff₀ hM).mp hlt
      have h2 : 0 ≤ |u| := abs_nonneg u
      nlinarith
    exact ⟨lt_of_le_of_lt hg.1 hb, lt_of_le_of_lt hg.2 hb⟩
  · have hg := ctrv_branch_gap p_x p_y 1 yaw 1 0.0001 (by norm_num)
    have hb : |(1 : ℝ)| * |(0.0001 : ℝ)| * 1 ^ 2 / 2 < 0.001 := by
      rw [abs_of_pos (by norm_num : (0 : ℝ) < 1), abs_of_pos (by norm_num : (0 : ℝ) < 0.0001)]
      norm_num
    exact ⟨lt_of_le_of_lt hg.1 hb, lt_of_le_of_lt hg.2 hb⟩

/-- C12, concrete run: `v = 1`, `dt = 1`, yaw rate `1e-4`, from the origin
with yaw 0. -/
theorem C12_witness :
    |(ctrvCurved Real.sin Real.cos 0 0 1 0 0.0001 1).1
      - (ctrvStraight Real.sin Real.cos 0 0 1 0 1).1| ≤ |(1 : ℝ)| * |(0.0001 : ℝ)| * 1 ^ 2 / 2 :=
  (C12_ctrv_branch_continuity 0 0 1 0 1 0.0001 (by norm_num)).1.1

end Taylor

section Radar

variable {α : Type} [LinearOrderedField α] [FloorRing α]

/-- Noise matrix `R` of `PredictRadarMeasurement` after the three diagonal
assignments: off the diagonal it still holds the content `R0` it was
allocated with. -/
theorem radar_R_eq {β : Type} (R0 : Matrix (Fin 3) (Fin 3) β) (a b c : β) :
    setCoeff (setCoeff (setCoeff R0 0 0 a) 1 1 b) 2 2 c
      = Matrix.of fun i j => if i = j then ![a, b, c] i else R0 i j := by
  ext i j
  fin_cases i <;> fin_cases j <;> simp [setCoeff]

/-- The innovation covariance returned by `PredictRadarMeasurement`. -/
theorem PredictRadarMeasurement_S (E : Env α) (R0 : Matrix (Fin 3) (Fin 3) α) (s : UKF α) :
    (UKF.PredictRadarMeasurement E R0 s).2.2 =
      radarCov E s.weights_ (UKF.PredictRadarMeasurement E R0 s).1
        (UKF.PredictRadarMeasurement E R0 s).2.1
      + Matrix.of fun i j =>
          if i = j then
            ![s.std_radr_ * s.std_radr_, s.std_radphi_ * s.std_radphi_,
              s.std_radrd_ * s.std_radrd_] i
          else R0 i j := by
  rw [← radar_R_eq]
  rfl

/-- C14, what the code does: the matrix that `PredictRadarMeasurement` adds to
the weighted covariance has `std_radr_^2, std_radphi_^2, std_radrd_^2` on its
diagonal, but each off-diagonal entry is the content `R0` of the freshly
allocated, never filled matrix `R`, not 0. When that storage holds 1
everywhere, `S(0,1)` is the weighted covariance entry plus 1. -/
theorem C14_noise_offdiagonal_is_unset :
    (∀ (E : Env α) (R0 : Matrix (Fin 3) (Fin 3) α) (s : UKF α),
      (UKF.PredictRadarMeasurement E R0 s).2.2 =
        radarCov E s.weights_ (UKF.PredictRadarMeasurement E R0 s).1
          (UKF.PredictRadarMeasurement E R0 s).2.1
        + Matrix.of (fun i j =>
            if i = j then
              ![s.std_radr_ * s.std_radr_, s.std_radphi_ * s.std_radphi_,
                s.std_radrd_ * s.std_radrd_] i
            else R0 i j)) ∧
    (UKF.PredictRadarMeasurement testEnv (Matrix.of fun _ _ => 1) (UKF.new 0)).2.2 0 1
      = radarCov testEnv (UKF.new 0).weights_
          (UKF.PredictRadarMeasurement testEnv (Matrix.of fun _ _ => 1) (UKF.new 0)).1
          (UKF.PredictRadarMeasurement testEnv (Matrix.of fun _ _ => 1) (UKF.new 0)).2.1 0 1
        + 1 := by
  refine ⟨PredictRadarMeasurement_S, ?_⟩
  rw [PredictRadarMeasurement_S]
  simp

/-- Predicted sigma point 0 of a state with zero speed keeps the position of
the mean. -/
theorem Prediction_col_zero (E : Env α) (s : UKF α) (dt : α) (hv : s.x_ 2 = 0) :
    (UKF.Prediction E s dt).Xsig_pred_ 0 0 = s.x_ 0 ∧
    (UKF.Prediction E s dt).Xsig_pred_ 1 0 = s.x_ 1 := by
  have z : (0.0 : α) = 0 := by norm_num
  have h := ctrvStep_at_rest E dt (fun k => UKF.AugmentedSigmaPoints E s k 0)
    (by simp [UKF.AugmentedSigmaPoints, sigmaColumns, UKF.x_aug, hv])
    (by simp [UKF.AugmentedSigmaPoints, sigmaColumns, UKF.x_aug, z])
  constructor
  · show ctrvStep E dt (fun k => UKF.AugmentedSigmaPoints E s k 0) 0 = _
    rw [h.1]
    simp [UKF.AugmentedSigmaPoints, sigmaColumns, UKF.x_aug]
  · show ctrvStep E dt (fun k => UKF.AugmentedSigmaPoints E s k 0) 1 = _
    rw [h.2]
    simp [UKF.AugmentedSigmaPoints, sigmaColumns, UKF.x_aug]

/-- Range and range rate that `PredictRadarMeasurement` computes for sigma
point `i`. -/
theorem PredictRadarMeasurement_Zsig (E : Env α) (R0 : Matrix (Fin 3) (Fin 3) α) (s : UKF α)
    (i : Fin 15) :
    (UKF.PredictRadarMeasurement E R0 s).1 0 i
      = E.sqrt (s.Xsig_pred_ 0 i * s.Xsig_pred_ 0 i + s.Xsig_pred_ 1 i * s.Xsig_pred_ 1 i) ∧
    (UKF.PredictRadarMeasurement E R0 s).1 2 i
      = (s.Xsig_pred_ 0 i * E.cos (s.Xsig_pred_ 3 i) * s.Xsig_pred_ 2 i
          + s.Xsig_pred_ 1 i * E.sin (s.Xsig_pred_ 3 i) * s.Xsig_pred_ 2 i)
        / (UKF.PredictRadarMeasurement E R0 s).1 0 i :=
  ⟨rfl, rfl⟩

/-- C15 as stated fails: a filter with `use_radar_ = true` initialized by the
laser fix `[0, 0]` and then given a radar package runs the radar corrector on
a state `sp` whose predicted sigma point 0 is at the origin; its range is 0
(not clamped to a positive value), its range rate is the quotient by that
range, and `ProcessMeasurement` returns the state written by `UpdateRadar`. -/
theorem C15_counterexample :
    ∃ sp : UKF ℚ,
      UKF.ProcessMeasurement testEnv 0
        (UKF.ProcessMeasurement testEnv 0 { UKF.new 0 with use_radar_ := true }
          ⟨0, SensorType.LASER, ![0, 0]⟩)
        ⟨100000, SensorType.RADAR, ![1, 0, 0]⟩ = UKF.UpdateRadar testEnv 0 sp ![1, 0, 0] ∧
      sp.Xsig_pred_ 0 0 = 0 ∧ sp.Xsig_pred_ 1 0 = 0 ∧
      (UKF.PredictRadarMeasurement testEnv 0 sp).1 0 0 = 0 ∧
      (UKF.PredictRadarMeasurement testEnv 0 sp).1 2 0
        = (sp.Xsig_pred_ 0 0 * testEnv.cos (sp.Xsig_pred_ 3 0) * sp.Xsig_pred_ 2 0
            + sp.Xsig_pred_ 1 0 * testEnv.sin (sp.Xsig_pred_ 3 0) * sp.Xsig_pred_ 2 0)
          / (UKF.PredictRadarMeasurement testEnv 0 sp).1 0 0 := by
  have h1 : UKF.ProcessMeasurement testEnv 0 { UKF.new 0 with use_radar_ := true }
      ⟨0, SensorType.LASER, ![0, 0]⟩ = _ :=
    ProcessMeasurement_first_laser testEnv 0 { UKF.new 0 with use_radar_ := true } 0 ![0, 0] rfl
  rw [h1, ProcessMeasurement_tracking_radar testEnv 0 _ 100000 ![1, 0, 0] rfl]
  refine ⟨_, if_pos rfl, ?_⟩
  have hc := Prediction_col_zero testEnv
    ({ ({ UKF.new 0 with use_radar_ := true } : UKF ℚ) with
        x_ := ![(![0, 0] : Fin 2 → ℚ) 0, (![0, 0] : Fin 2 → ℚ) 1, 0, 0, 0]
        P_ := setCoeff (setCoeff (setCoeff (setCoeff (setCoeff
          ({ UKF.new 0 with use_radar_ := true } : UKF ℚ).P_
          0 0 (({ UKF.new 0 with use_radar_ := true } : UKF ℚ).std_laspx_
            * ({ UKF.new 0 with use_radar_ := true } : UKF ℚ).std_laspx_))
          1 1 (({ UKF.new 0 with use_radar_ := true } : UKF ℚ).std_laspy_
            * ({ UKF.new 0 with use_radar_ := true } : UKF ℚ).std_laspy_))
          2 2 1.0)
          3 3 ((2.0 * testEnv.M_PI) * (2.0 * testEnv.M_PI)))
          4 4 1
        time_us_ := 0
        is_initialized_ := true } : UKF ℚ)
    ((((100000 : Int) - 0 : Int) : ℚ) / 1000000.0) rfl
  have hx : ∀ (sp : UKF ℚ), sp.Xsig_pred_ 0 0 = 0 → sp.Xsig_pred_ 1 0 = 0 →
      (UKF.PredictRadarMeasurement testEnv 0 sp).1 0 0 = 0 := by
    intro sp a b
    rw [(PredictRadarMeasurement_Zsig testEnv 0 sp 0).1, a, b]
    simp [testEnv]
  refine ⟨hc.1, hc.2, hx _ hc.1 hc.2, (PredictRadarMeasurement_Zsig testEnv 0 _ 0).2⟩

/-- C15, amended: degenerate radar geometry is not handled. Whenever a
predicted sigma point has `px = py = 0` (and `sqrt 0 = 0`),
`PredictRadarMeasurement` gives it the range 0, without clamping, and computes
its range rate as a quotient by that range; on an initialized filter with
`use_radar_` set, `ProcessMeasurement` returns the state written by
`UpdateRadar` and has no way to report a failure. -/
theorem C15_degenerate_range_unguarded (E : Env α) (R0 : Matrix (Fin 3) (Fin 3) α)
    (s : UKF α) (i : Fin 15) (hx : s.Xsig_pred_ 0 i = 0) (hy : s.Xsig_pred_ 1 i = 0)
    (hsqrt : E.sqrt 0 = 0) :
    (UKF.PredictRadarMeasurement E R0 s).1 0 i = 0 ∧
    (UKF.PredictRadarMeasurement E R0 s).1 2 i
      = (s.Xsig_pred_ 0 i * E.cos (s.Xsig_pred_ 3 i) * s.Xsig_pred_ 2 i
          + s.Xsig_pred_ 1 i * E.sin (s.Xsig_pred_ 3 i) * s.Xsig_pred_ 2 i)
        / (UKF.PredictRadarMeasurement E R0 s).1 0 i ∧
    (∀ (s0 : UKF α) (t : Int) (z : Fin 3 → α), s0.is_initialized_ = true →
      s0.use_radar_ = true →
      UKF.ProcessMeasurement E R0 s0 ⟨t, SensorType.RADAR, z⟩ =
        UKF.UpdateRadar E R0
          { UKF.Prediction E s0 (((t - s0.time_us_ : Int) : α) / 1000000.0) with
            time_us_ := t } z) := by
  refine ⟨?_, (PredictRadarMeasurement_Zsig E R0 s i).2, ?_⟩
  · rw [(PredictRadarMeasurement_Zsig E R0 s i).1, hx, hy]
    simpa using hsqrt
  · intro s0 t z h1 h2
    rw [ProcessMeasurement_tracking_radar E R0 s0 t z h1]
    exact if_pos h2

/-- C15, concrete run on the rational test environment: the constructed
filter, whose predicted sigma points are all at the origin. -/
theorem C15_witness :
    (UKF.PredictRadarMeasurement testEnv 0 (UKF.new 0)).1 0 0 = 0 :=
  (C15_degenerate_range_unguarded testEnv 0 (UKF.new 0) 0 rfl rfl (by simp [testEnv])).1

end Radar

section SigmaCovariance

variable {α : Type} [LinearOrderedField α]

/-- Weighted sum of the products of the deviations of the sigma-point columns
from the mean: `c^2 / 3` times `A A^T`. -/
theorem sigmaColumns_cov_apply (c : α) (x : Fin 7 → α) (A : Matrix (Fin 7) (Fin 7) α)
    (r q : Fin 7) :
    ∑ j : Fin 15, weightsInit n_aug j *
        ((sigmaColumns c x A r j - x r) * (sigmaColumns c x A q j - x q))
      = c * c / 3 * (A * Aᵀ) r q := by
  rw [Matrix.mul_apply, Fin.sum_univ_seven]
  simp only [weightsInit_seven, Fin.sum_univ_succ, sigmaColumns, Matrix.of_apply,
    Matrix.transpose_apply]
  simp
  ring

/-- Entries of the augmented covariance in its top-left block. -/
theorem P_aug_castLE (s : UKF α) (r q : Fin 5) :
    s.P_aug (Fin.castLE (by norm_num) r) (Fin.castLE (by norm_num) q) = s.P_ r q := by
  have hr : (Fin.castLE (by norm_num : 5 ≤ 7) r).val < 5 := r.isLt
  have hq : (Fin.castLE (by norm_num : 5 ≤ 7) q).val < 5 := q.isLt
  unfold UKF.P_aug
  simp only [Matrix.of_apply]
  rw [dif_pos ⟨hr, hq⟩]
  rfl

/-- Entries of the augmented mean in its first five rows. -/
theorem x_aug_castLE (s : UKF α) (r : Fin 5) :
    s.x_aug (Fin.castLE (by norm_num) r) = s.x_ r := by
  fin_cases r <;> rfl

/-- With `delta_t = 0` the CTRV step returns the first five entries of the
sigma point. -/
theorem ctrvStep_zero (E : Env α) (c : Fin 7 → α) (r : Fin 5) :
    ctrvStep E 0 c r = c (Fin.castLE (by norm_num) r) := by
  fin_cases r <;> simp [ctrvStep] <;> rfl

/-- Deviation of a sigma-point entry from the mean, bounded by the spread. -/
theorem sigmaColumns_sub_abs_le (c : α) (x : Fin 7 → α) (A : Matrix (Fin 7) (Fin 7) α)
    (r : Fin 7) (B : α) (hB : 0 ≤ B) (hc : 0 ≤ c) (h : ∀ i, c * |A r i| ≤ B) (j : Fin 15) :
    |sigmaColumns c x A r j - x r| ≤ B := by
  unfold sigmaColumns
  simp only [Matrix.of_apply]
  split_ifs
  · simpa using hB
  · rw [add_sub_cancel_left, abs_mul, abs_of_nonneg hc]
    exact h _
  · rw [sub_sub_cancel_left, abs_neg, abs_mul, abs_of_nonneg hc]
    exact h _

/-- C16: the generated sigma points reproduce the covariance of the belief.
For every mean, factor `c` and matrix `A` the weighted sum over the 15 columns
of `(column - mean)(column - mean)^T`, with the constructor's weights, is
`(c^2 / 3) A A^T`. Hence for every state with the constructor's `lambda_`,
when `sqrt 3 * sqrt 3 = 3` and the matrix `A` returned by `llt` satisfies
`A A^T = P_aug`, the weighted sum for the columns of `AugmentedSigmaPoints`
about the augmented mean equals `P_aug`. -/
theorem C16_sigma_points_reproduce_covariance :
    (∀ (c : α) (x : Fin 7 → α) (A : Matrix (Fin 7) (Fin 7) α),
      ∑ j : Fin 15, (weightsInit n_aug j : α) •
          vecMulVec (fun r => sigmaColumns c x A r j - x r)
            (fun r => sigmaColumns c x A r j - x r)
        = (c * c / 3) • (A * Aᵀ)) ∧
    (∀ (E : Env α) (s : UKF α), s.lambda_ = lambdaInit n_aug → E.sqrt 3 * E.sqrt 3 = 3 →
      E.llt s.P_aug * (E.llt s.P_aug)ᵀ = s.P_aug →
      ∑ j : Fin 15, (weightsInit n_aug j : α) •
          vecMulVec (fun r => UKF.AugmentedSigmaPoints E s r j - s.x_aug r)
            (fun r => UKF.AugmentedSigmaPoints E s r j - s.x_aug r)
        = s.P_aug) := by
  have gen : ∀ (c : α) (x : Fin 7 → α) (A : Matrix (Fin 7) (Fin 7) α),
      ∑ j : Fin 15, (weightsInit n_aug j : α) •
          vecMulVec (fun r => sigmaColumns c x A r j - x r)
            (fun r => sigmaColumns c x A r j - x r)
        = (c * c / 3) • (A * Aᵀ) := by
    intro c x A
    ext r q
    rw [Matrix.sum_apply, Matrix.smul_apply, smul_eq_mul, ← sigmaColumns_cov_apply c x A r q]
    rfl
  refine ⟨gen, ?_⟩
  intro E s hl hs hA
  have e : (n_aug : α) + s.lambda_ = 3 := by
    rw [hl, add_comm]
    exact lambdaInit_add n_aug
  unfold UKF.AugmentedSigmaPoints
  rw [gen, e, hs, hA]
  simp

/-- Augmented covariance of a constructed filter. -/
theorem new_P_aug (x0 : Fin 5 → α) :
    (UKF.new x0).P_aug = Matrix.diagonal ![1, 1, 1, 1, 1, 2.5 * 2.5, 1 * 1] := by
  have h : (UKF.new x0).P_ = Matrix.diagonal ![1, 1, 1, 1, 1] := by
    ext i j
    fin_cases i <;> fin_cases j <;> simp [UKF.new, Matrix.one_apply]
  rw [P_aug_of_diagonal _ _ _ _ _ _ h]
  rfl

/-- The diagonal matrix of the real square roots of a non-negative diagonal
is a square root of it. -/
theorem real_diagonal_sqrt (D : Fin 7 → ℝ) (hD : ∀ i, 0 ≤ D i) :
    (Matrix.diagonal fun i => Real.sqrt (Matrix.diagonal D i i))
      * (Matrix.diagonal fun i => Real.sqrt (Matrix.diagonal D i i))ᵀ = Matrix.diagonal D := by
  rw [Matrix.diagonal_transpose, Matrix.diagonal_mul_diagonal]
  refine congrArg Matrix.diagonal (funext fun i => ?_)
  simp only [Matrix.diagonal_apply_eq]
  exact Real.mul_self_sqrt (hD i)

/-- C16, concrete run over the real numbers: the constructed filter, with the
real square root and `llt` the entrywise square root of the diagonal. -/
theorem C16_witness :
    ∑ j : Fin 15, (weightsInit n_aug j : ℝ) •
        vecMulVec
          (fun r => UKF.AugmentedSigmaPoints
            ⟨Real.cos, Real.sin, Real.sqrt, fun _ _ => 0, Real.pi,
              fun M => Matrix.diagonal fun i => Real.sqrt (M i i), Real.pi_pos⟩
            (UKF.new 0) r j - (UKF.new (0 : Fin 5 → ℝ)).x_aug r)
          (fun r => UKF.AugmentedSigmaPoints
            ⟨Real.cos, Real.sin, Real.sqrt, fun _ _ => 0, Real.pi,
              fun M => Matrix.diagonal fun i => Real.sqrt (M i i), Real.pi_pos⟩
            (UKF.new 0) r j - (UKF.new (0 : Fin 5 → ℝ)).x_aug r)
      = (UKF.new (0 : Fin 5 → ℝ)).P_aug :=
  C16_sigma_points_reproduce_covariance.2
    ⟨Real.cos, Real.sin, Real.sqrt, fun _ _ => 0, Real.pi,
      fun M => Matrix.diagonal fun i => Real.sqrt (M i i), Real.pi_pos⟩
    (UKF.new 0) rfl (Real.mul_self_sqrt (by norm_num))
    (by
      show (Matrix.diagonal fun i => Real.sqrt ((UKF.new (0 : Fin 5 → ℝ)).P_aug i i))
        * (Matrix.diagonal fun i => Real.sqrt ((UKF.new (0 : Fin 5 → ℝ)).P_aug i i))ᵀ = _
      rw [new_P_aug]
      apply real_diagonal_sqrt
      intro i
      fin_cases i <;> norm_num)

/-- Prediction over a zero time step keeps the mean, with the constructor's
weights. -/
theorem Prediction_zero_x [FloorRing α] (E : Env α) (s : UKF α)
    (hw : s.weights_ = weightsInit n_aug) : (UKF.Prediction E s 0).x_ = s.x_ := by
  funext r
  rw [Prediction_x_apply]
  have hX : ∀ j, (UKF.SigmaPointPrediction E s (UKF.AugmentedSigmaPoints E s) 0).Xsig_pred_ r j
      = UKF.AugmentedSigmaPoints E s (Fin.castLE (by norm_num) r) j :=
    fun j => ctrvStep_zero E (fun k => UKF.AugmentedSigmaPoints E s k j) r
  simp only [hX]
  rw [hw]
  have := congrFun (sigmaColumns_mulVec_weights (E.sqrt ((n_aug : α) + s.lambda_)) s.x_aug
    (E.llt s.P_aug)) (Fin.castLE (by norm_num) r)
  rw [x_aug_castLE] at this
  exact this

/-- C20: prediction over a zero time step. With the constructor's weights,
`Prediction(0)` leaves `x_` unchanged for every state and every square root.
If moreover `lambda_` is the constructor's, `sqrt 3 >= 0`,
`sqrt 3 * sqrt 3 = 3`, the matrix `A` returned by `llt` satisfies
`A A^T = P_aug`, and `sqrt 3 * |A(3,i)| <= pi` for every column `i`, then
`Prediction(0)` leaves `P_` unchanged as well. -/
theorem C20_prediction_zero_identity [FloorRing α] (E : Env α) (s : UKF α)
    (hw : s.weights_ = weightsInit n_aug) :
    (UKF.Prediction E s 0).x_ = s.x_ ∧
    (s.lambda_ = lambdaInit n_aug → 0 ≤ E.sqrt 3 → E.sqrt 3 * E.sqrt 3 = 3 →
      E.llt s.P_aug * (E.llt s.P_aug)ᵀ = s.P_aug →
      (∀ i : Fin 7, E.sqrt 3 * |E.llt s.P_aug 3 i| ≤ E.M_PI) →
      (UKF.Prediction E s 0).P_ = s.P_) := by
  have hx0 := Prediction_zero_x E s hw
  refine ⟨hx0, ?_⟩
  intro hl hc0 hs hA hyaw
  have e : (n_aug : α) + s.lambda_ = 3 := by
    rw [hl, add_comm]
    exact lambdaInit_add n_aug
  have hX : ∀ (r : Fin 5) (j : Fin 15),
      (UKF.SigmaPointPrediction E s (UKF.AugmentedSigmaPoints E s) 0).Xsig_pred_ r j
        = sigmaColumns (E.sqrt 3) s.x_aug (E.llt s.P_aug) (Fin.castLE (by norm_num) r) j := by
    intro r j
    rw [← e]
    exact ctrvStep_zero E (fun k => UKF.AugmentedSigmaPoints E s k j) r
  have hd : ∀ (r : Fin 5) (j : Fin 15),
      xDiff E (UKF.SigmaPointPrediction E s (UKF.AugmentedSigmaPoints E s) 0).Xsig_pred_
        (UKF.Prediction E s 0).x_ j r
      = sigmaColumns (E.sqrt 3) s.x_aug (E.llt s.P_aug) (Fin.castLE (by norm_num) r) j
        - s.x_aug (Fin.castLE (by norm_num) r) := by
    intro r j
    by_cases hr : r = 3
    · subst hr
      unfold xDiff
      simp only [Function.update_same]
      rw [hx0, hX, ← x_aug_castLE s 3]
      have hb := sigmaColumns_sub_abs_le (E.sqrt 3) s.x_aug (E.llt s.P_aug) 3 E.M_PI
        E.M_PI_pos.le hc0 hyaw j
      rw [abs_le] at hb
      exact normalizeAngle_of_mem E.M_PI E.M_PI_pos _ hb.1 hb.2
    · rw [xDiff_apply_ne E _ _ j r hr, hx0, hX, x_aug_castLE]
  ext r q
  rw [Prediction_P_apply]
  simp only [hd, hw]
  rw [sigmaColumns_cov_apply, hs, hA, P_aug_castLE]
  simp

/-- C20, concrete run over the real numbers: the constructed filter, with the
real square root and `llt` the entrywise square root of the diagonal. -/
theorem C20_witness :
    (UKF.Prediction
      ⟨Real.cos, Real.sin, Real.sqrt, fun _ _ => 0, Real.pi,
        fun M => Matrix.diagonal fun i => Real.sqrt (M i i), Real.pi_pos⟩
      (UKF.new (0 : Fin 5 → ℝ)) 0).P_ = (UKF.new (0 : Fin 5 → ℝ)).P_ :=
  (C20_prediction_zero_identity
    ⟨Real.cos, Real.sin, Real.sqrt, fun _ _ => 0, Real.pi,
      fun M => Matrix.diagonal fun i => Real.sqrt (M i i), Real.pi_pos⟩
    (UKF.new 0) rfl).2 rfl (Real.sqrt_nonneg 3) (Real.mul_self_sqrt (by norm_num))
    (by
      show (Matrix.diagonal fun i => Real.sqrt ((UKF.new (0 : Fin 5 → ℝ)).P_aug i i))
        * (Matrix.diagonal fun i => Real.sqrt ((UKF.new (0 : Fin 5 → ℝ)).P_aug i i))ᵀ = _
      rw [new_P_aug]
      apply real_diagonal_sqrt
      intro i
      fin_cases i <;> norm_num)
    (by
      intro i
      show Real.sqrt 3 * |(Matrix.diagonal fun i =>
        Real.sqrt ((UKF.new (0 : Fin 5 → ℝ)).P_aug i i)) 3 i| ≤ Real.pi
      rw [new_P_aug]
      have h3 : Real.sqrt 3 ≤ 2 := by
        rw [Real.sqrt_le_left (by norm_num)]
        norm_num
      have hpi := Real.pi_gt_three
      by_cases hi : (3 : Fin 7) = i
      · subst hi
        simp
        linarith
      · rw [Matrix.diagonal_apply_ne _ hi]
        simp
        exact Real.pi_pos.le)

end SigmaCovariance

section Innovation

variable {α : Type} [LinearOrderedField α]

/-- The lidar innovation covariance is symmetric positive definite when `P_`
is positive semi-definite and the noise standard deviations are not zero. -/
theorem lidar_S_isPD (s : UKF α) (hP : IsPSD s.P_) (hx : s.std_laspx_ ≠ 0)
    (hy : s.std_laspy_ ≠ 0) :
    IsPD (lidarH * s.P_ * lidarHᵀ
      + !![s.std_laspx_ * s.std_laspx_, 0; 0, s.std_laspy_ * s.std_laspy_]) := by
  have hrx : 0 < s.std_laspx_ * s.std_laspx_ := mul_self_pos.mpr hx
  have hry : 0 < s.std_laspy_ * s.std_laspy_ := mul_self_pos.mpr hy
  have h1 : IsPSD (lidarH * s.P_ * lidarHᵀ) := hP.conj lidarH
  have h2 := isPSD_diag_two _ _ hrx.le hry.le
  refine ⟨(h1.add h2).1, ?_⟩
  intro v hv
  rw [Matrix.add_mulVec, Matrix.dotProduct_add]
  have q : 0 < v ⬝ᵥ (!![s.std_laspx_ * s.std_laspx_, 0; 0, s.std_laspy_ * s.std_laspy_] *ᵥ v)
      := by
    simp only [Matrix.dotProduct, Matrix.mulVec, Fin.sum_univ_two]
    simp
    have hne : v 0 ≠ 0 ∨ v 1 ≠ 0 := by
      by_contra hc
      push_neg at hc
      apply hv
      funext i
      fin_cases i
      · exact hc.1
      · exact hc.2
    rcases hne with h | h
    · have := mul_pos hrx (mul_self_pos.mpr h)
      nlinarith [mul_nonneg hry.le (mul_self_nonneg (v 1))]
    · have := mul_pos hry (mul_self_pos.mpr h)
      nlinarith [mul_nonneg hrx.le (mul_self_nonneg (v 0))]
  linarith [h1.2 v]

/-- C18: the matrix inverted by `UpdateLidar` is never singular on a valid
belief. For every state whose `P_` is symmetric positive semi-definite and
whose lidar noise standard deviations are the constructor's 0.15, the
innovation covariance `S = H P_ H^T + R` is symmetric positive definite, its
determinant is not zero, and the `Si` computed by `UpdateLidar` satisfies
`Si * S = 1`. -/
theorem C18_lidar_innovation_invertible (s : UKF α) (hP : IsPSD s.P_)
    (hx : s.std_laspx_ = 0.15) (hy : s.std_laspy_ = 0.15) :
    IsPD (lidarH * s.P_ * lidarHᵀ
      + !![s.std_laspx_ * s.std_laspx_, 0; 0, s.std_laspy_ * s.std_laspy_]) ∧
    (lidarH * s.P_ * lidarHᵀ
      + !![s.std_laspx_ * s.std_laspx_, 0; 0, s.std_laspy_ * s.std_laspy_]).det ≠ 0 ∧
    inverse (lidarH * s.P_ * lidarHᵀ
      + !![s.std_laspx_ * s.std_laspx_, 0; 0, s.std_laspy_ * s.std_laspy_])
      * (lidarH * s.P_ * lidarHᵀ
      + !![s.std_laspx_ * s.std_laspx_, 0; 0, s.std_laspy_ * s.std_laspy_]) = 1 := by
  have hx0 : s.std_laspx_ ≠ 0 := by rw [hx]; norm_num
  have hy0 : s.std_laspy_ ≠ 0 := by rw [hy]; norm_num
  have hdet := (lidar_det_pos s.P_ hP _ _ (mul_self_pos.mpr hx0) (mul_self_pos.mpr hy0)).2.2
  rw [← lidar_S_det] at hdet
  exact ⟨lidar_S_isPD s hP hx0 hy0, ne_of_gt hdet, inverse_mul_self _ (ne_of_gt hdet)⟩

/-- C18, concrete run: the state initialized by the laser fix `[5, 3]`. -/
theorem C18_witness :
    (lidarH * (UKF.ProcessMeasurement testEnv 0 (UKF.new 0)
        ⟨0, SensorType.LASER, ![5, 3]⟩).P_ * lidarHᵀ
      + !![(UKF.ProcessMeasurement testEnv 0 (UKF.new 0)
              ⟨0, SensorType.LASER, ![5, 3]⟩).std_laspx_
            * (UKF.ProcessMeasurement testEnv 0 (UKF.new 0)
              ⟨0, SensorType.LASER, ![5, 3]⟩).std_laspx_, 0;
           0, (UKF.ProcessMeasurement testEnv 0 (UKF.new 0)
              ⟨0, SensorType.LASER, ![5, 3]⟩).std_laspy_
            * (UKF.ProcessMeasurement testEnv 0 (UKF.new 0)
              ⟨0, SensorType.LASER, ![5, 3]⟩).std_laspy_]).det ≠ 0 :=
  (C18_lidar_innovation_invertible
    (UKF.ProcessMeasurement testEnv 0 (UKF.new 0) ⟨0, SensorType.LASER, ![5, 3]⟩)
    (by
      rw [first_laser_state]
      apply isPSD_diagonal
      intro i
      fin_cases i <;> simp <;> positivity)
    (by rw [first_laser_state]; rfl)
    (by rw [first_laser_state]; rfl)).2.1

end Innovation

section PredictionMean

variable {α : Type} [LinearOrderedField α]

/-- Rows 2, 3 and 4 of the CTRV step are linear in the sigma point. -/
theorem ctrvStep_linear (E : Env α) (dt : α) (c : Fin 7 → α) :
    ctrvStep E dt c 2 = c 2 + dt * c 5 ∧
    ctrvStep E dt c 3 = c 3 + c 4 * dt + 0.5 * dt * dt * c 6 ∧
    ctrvStep E dt c 4 = c 4 + dt * c 6 :=
  ⟨rfl, rfl, rfl⟩

/-- Weighted row sums of the augmented sigma points. -/
theorem AugmentedSigmaPoints_row_sum (E : Env α) (s : UKF α)
    (hw : s.weights_ = weightsInit n_aug) (k : Fin 7) :
    ∑ j, UKF.AugmentedSigmaPoints E s k j * s.weights_ j = s.x_aug k := by
  rw [hw]
  exact congrFun (sigmaColumns_mulVec_weights _ s.x_aug (E.llt s.P_aug)) k

/-- C19: with the constructor's weights, `Prediction(dt)` leaves the speed
`x_(2)` and the yaw rate `x_(4)` of the mean unchanged and moves the yaw to
`x_(3) + x_(4) * dt`, for every state, every square-root matrix (every `llt`
and `sqrt`) and every `dt`: the noise contributions cancel in the weighted
mean, and the mean is not normalized. -/
theorem C19_prediction_linear_components [FloorRing α] (E : Env α) (s : UKF α) (dt : α)
    (hw : s.weights_ = weightsInit n_aug) :
    (UKF.Prediction E s dt).x_ 2 = s.x_ 2 ∧
    (UKF.Prediction E s dt).x_ 4 = s.x_ 4 ∧
    (UKF.Prediction E s dt).x_ 3 = s.x_ 3 + s.x_ 4 * dt := by
  have hm := AugmentedSigmaPoints_row_sum E s hw
  have z : (0.0 : α) = 0 := by norm_num
  have x2 : s.x_aug 2 = s.x_ 2 := rfl
  have x3 : s.x_aug 3 = s.x_ 3 := rfl
  have x4 : s.x_aug 4 = s.x_ 4 := rfl
  have x5 : s.x_aug 5 = 0 := z
  have x6 : s.x_aug 6 = 0 := z
  have hX : ∀ (r : Fin 5) (j : Fin 15),
      (UKF.SigmaPointPrediction E s (UKF.AugmentedSigmaPoints E s) dt).Xsig_pred_ r j
        = ctrvStep E dt (fun k => UKF.AugmentedSigmaPoints E s k j) r := fun _ _ => rfl
  refine ⟨?_, ?_, ?_⟩
  · rw [Prediction_x_apply]
    simp only [hX, (ctrvStep_linear E dt _).1, add_mul, mul_assoc, Finset.sum_add_distrib,
      ← Finset.mul_sum, hm, x2, x5]
    ring
  · rw [Prediction_x_apply]
    simp only [hX, (ctrvStep_linear E dt _).2.2, add_mul, mul_assoc, Finset.sum_add_distrib,
      ← Finset.mul_sum, hm, x4, x6]
    ring
  · rw [Prediction_x_apply]
    have e : ∀ j, ctrvStep E dt (fun k => UKF.AugmentedSigmaPoints E s k j) 3 * s.weights_ j
        = UKF.AugmentedSigmaPoints E s 3 j * s.weights_ j
          + dt * (UKF.AugmentedSigmaPoints E s 4 j * s.weights_ j)
          + 0.5 * dt * dt * (UKF.AugmentedSigmaPoints E s 6 j * s.weights_ j) := by
      intro j
      rw [(ctrvStep_linear E dt _).2.1]
      ring
    simp only [hX, e, Finset.sum_add_distrib, ← Finset.mul_sum, hm, x3, x4, x6]
    ring

/-- C19, concrete run on the rational test environment. -/
theorem C19_witness :
    (UKF.Prediction testEnv (UKF.new ![1, 2, 3, 4, 5]) (1 / 10)).x_ 2 = 3 ∧
    (UKF.Prediction testEnv (UKF.new ![1, 2, 3, 4, 5]) (1 / 10)).x_ 4 = 5 ∧
    (UKF.Prediction testEnv (UKF.new ![1, 2, 3, 4, 5]) (1 / 10)).x_ 3 = 4 + 5 * (1 / 10) :=
  C19_prediction_linear_components testEnv (UKF.new ![1, 2, 3, 4, 5]) (1 / 10) rfl

end PredictionMean

section Binary64Loops

/-- Rounding to the nearest integer moves a number by at most one half. -/
theorem roundTiesEven_abs_sub_le (q : ℚ) : |(roundTiesEven q : ℚ) - q| ≤ 1 / 2 := by
  have h1 := Int.floor_le q
  have h2 := Int.lt_floor_add_one q
  unfold roundTiesEven
  rw [abs_le]
  split_ifs <;> push_cast <;> constructor <;> linarith

/-- The spacing exponent of a non-zero number below `2^K` in magnitude is at
most `K - 53`. -/
theorem ulpExp_le (x : ℚ) (hx : x ≠ 0) (K : ℤ) (hK : -1021 ≤ K) (h : |x| < 2 ^ K) :
    ulpExp x ≤ K - 53 := by
  have h0 : 0 < |x| := abs_pos.mpr hx
  have hl : Int.log 2 |x| < K := by
    apply (Int.lt_zpow_iff_log_lt (by norm_num) h0).mp
    simpa using h
  unfold ulpExp
  omega

/-- Rounding to binary64 moves a number below `2^K` in magnitude by at most
half a spacing, `2^(K - 54)`. -/
theorem fl64_abs_sub_le (x : ℚ) (K : ℤ) (hK : -1021 ≤ K) (h : |x| < 2 ^ K) :
    |fl64 x - x| ≤ 2 ^ (K - 54) := by
  rcases eq_or_ne x 0 with rfl | hx
  · have : fl64 0 = 0 := by simp [fl64, roundTiesEven]
    rw [this]
    simp
    positivity
  · have hu := ulpExp_le x hx K hK h
    have hp : (0 : ℚ) < 2 ^ ulpExp x := by positivity
    have e : fl64 x - x = ((roundTiesEven (x / 2 ^ ulpExp x) : ℚ) - x / 2 ^ ulpExp x)
        * 2 ^ ulpExp x := by
      unfold fl64
      field_simp
    rw [e, abs_mul, abs_of_pos hp]
    have hr := roundTiesEven_abs_sub_le (x / 2 ^ ulpExp x)
    have hle : (2 : ℚ) ^ ulpExp x ≤ 2 ^ (K - 53) := zpow_le_zpow_right₀ (by norm_num) hu
    have e2 : (2 : ℚ) ^ (K - 54) = 1 / 2 * 2 ^ (K - 53) := by
      have : K - 53 = (K - 54) + 1 := by ring
      rw [this, zpow_add_one₀ (by norm_num)]
      ring
    rw [e2]
    exact mul_le_mul hr hle hp.le (by norm_num)

/-- The binary logarithm of a number in `[2^k, 2^(k+1))` is `k`. -/
theorem int_log_two_eq (x : ℚ) (k : ℤ) (h1 : 2 ^ k ≤ x) (h2 : x < 2 ^ (k + 1)) :
    Int.log 2 x = k := by
  have h0 : 0 < x := lt_of_lt_of_le (by positivity) h1
  apply le_antisymm
  · have := (Int.lt_zpow_iff_log_lt (by norm_num : 1 < 2) h0).mp (by simpa using h2)
    omega
  · exact (Int.zpow_le_iff_le_log (by norm_num : 1 < 2) h0).mp (by simpa using h1)

/-- Integers are rounded to themselves. -/
theorem roundTiesEven_intCast (M : ℤ) : roundTiesEven (M : ℚ) = M := by
  simp [roundTiesEven]

/-- A number less than one half below an integer is rounded to that integer. -/
theorem roundTiesEven_int_sub (M : ℤ) (t : ℚ) (h0 : 0 < t) (h1 : t < 1 / 2) :
    roundTiesEven ((M : ℚ) - t) = M := by
  have hf : ⌊(M : ℚ) - t⌋ = M - 1 := by
    rw [Int.floor_eq_iff]
    push_cast
    constructor <;> linarith
  unfold roundTiesEven
  rw [hf]
  push_cast
  rw [if_neg (by linarith), if_pos (by linarith)]
  ring

/-- Rounding to nearest, ties to even, commutes with negation. -/
theorem roundTiesEven_neg (q : ℚ) : roundTiesEven (-q) = -roundTiesEven q := by
  rcases eq_or_ne (Int.fract q) 0 with h | h
  · have e : q = ((⌊q⌋ : ℤ) : ℚ) := by
      have := Int.floor_add_fract q
      rw [h, add_zero] at this
      exact this.symm
    rw [e, ← Int.cast_neg, roundTiesEven_intCast, roundTiesEven_intCast]
  · have hpos : 0 < Int.fract q := lt_of_le_of_ne (Int.fract_nonneg q) (Ne.symm h)
    have hlt := Int.fract_lt_one q
    have hq : q - ⌊q⌋ = Int.fract q := rfl
    have hf : ⌊-q⌋ = -⌊q⌋ - 1 := by
      rw [Int.floor_eq_iff]
      push_cast
      constructor <;> linarith
    unfold roundTiesEven
    rw [hf]
    push_cast
    by_cases c1 : q - ⌊q⌋ < 1 / 2
    · rw [if_pos c1, if_neg (by linarith), if_pos (by linarith)]
      ring
    · by_cases c2 : 1 / 2 < q - ⌊q⌋
      · rw [if_neg c1, if_pos c2, if_pos (by linarith)]
        ring
      · rw [if_neg c1, if_neg c2, if_neg (by linarith), if_neg (by linarith)]
        by_cases c3 : ⌊q⌋ % 2 = 0
        · rw [if_pos c3, if_neg (by omega)]
          ring
        · rw [if_neg c3, if_pos (by omega)]
          ring

/-- The spacing exponent depends on the magnitude only. -/
theorem ulpExp_neg (x : ℚ) : ulpExp (-x) = ulpExp x := by
  unfold ulpExp
  rw [abs_neg]

/-- Rounding to binary64 commutes with negation. -/
theorem fl64_neg (x : ℚ) : fl64 (-x) = -fl64 x := by
  unfold fl64
  rw [ulpExp_neg, neg_div, roundTiesEven_neg]
  push_cast
  ring

/-- Normal binary64 numbers `m * 2^e` with `2^52 <= m < 2^53` are rounded to
themselves. -/
theorem fl64_eq_self (m e : ℤ) (h1 : 2 ^ 52 ≤ m) (h2 : m < 2 ^ 53) (he : -1074 ≤ e) :
    fl64 ((m : ℚ) * 2 ^ e) = (m : ℚ) * 2 ^ e := by
  have hp : (0 : ℚ) < 2 ^ e := by positivity
  have hm1 : (2 : ℚ) ^ 52 ≤ m := by exact_mod_cast h1
  have hm2 : (m : ℚ) < 2 ^ 53 := by exact_mod_cast h2
  have hx : (0 : ℚ) < (m : ℚ) * 2 ^ e := by positivity
  have hl : Int.log 2 |(m : ℚ) * 2 ^ e| = 52 + e := by
    rw [abs_of_pos hx]
    apply int_log_two_eq
    · rw [zpow_add₀ (by norm_num)]
      have e52 : (2 : ℚ) ^ (52 : ℤ) = 2 ^ 52 := by norm_cast
      rw [e52]
      exact mul_le_mul_of_nonneg_right hm1 hp.le
    · have : 52 + e + 1 = 53 + e := by ring
      rw [this, zpow_add₀ (by norm_num)]
      have e53 : (2 : ℚ) ^ (53 : ℤ) = 2 ^ 53 := by norm_cast
      rw [e53]
      exact mul_lt_mul_of_pos_right hm2 hp
  have hu : ulpExp ((m : ℚ) * 2 ^ e) = e := by
    unfold ulpExp
    rw [hl]
    omega
  unfold fl64
  rw [hu, mul_div_assoc, div_self hp.ne', mul_one, roundTiesEven_intCast]

/-- A number less than half a spacing below the multiple `M * 2^u` of its
spacing is rounded to that multiple. -/
theorem fl64_of_shape (y : ℚ) (M u : ℤ) (t : ℚ) (hu : ulpExp y = u)
    (hy : y = ((M : ℚ) - t) * 2 ^ u) (h0 : 0 < t) (h1 : t < 1 / 2) :
    fl64 y = (M : ℚ) * 2 ^ u := by
  have hp : (0 : ℚ) < 2 ^ u := by positivity
  unfold fl64
  rw [hu, hy, mul_div_assoc, div_self hp.ne', mul_one, roundTiesEven_int_sub M t h0 h1]

/-- Above `2^56` the binary64 numbers are at least 16 apart, so subtracting
less than 8 from one of them rounds back to it. -/
theorem fl64_sub_fixed (d c : ℚ) (hd : IsBinary64 d) (h : 2 ^ 56 < d) (hc0 : 0 < c)
    (hc : c < 8) : fl64 (d - c) = d := by
  obtain ⟨m, e, hm, _, _, rfl⟩ := hd
  have hpe : (0 : ℚ) < 2 ^ e := by positivity
  have hmq : (0 : ℚ) < m := by
    by_contra hn
    have : (m : ℚ) * 2 ^ e ≤ 0 := mul_nonpos_of_nonpos_of_nonneg (not_lt.mp hn) hpe.le
    have : (0 : ℚ) < 2 ^ 56 := by positivity
    linarith
  have hm0 : 0 < m := by exact_mod_cast hmq
  rw [abs_of_pos hm0] at hm
  have hm53 : (m : ℚ) < 2 ^ 53 := by exact_mod_cast hm
  have he4 : 4 ≤ e := by
    by_contra hn
    have h3 : (2 : ℚ) ^ e ≤ 2 ^ (3 : ℤ) := zpow_le_zpow_right₀ (by norm_num) (by omega)
    have e3 : (2 : ℚ) ^ (3 : ℤ) = 8 := by norm_num
    rw [e3] at h3
    have : (m : ℚ) * 2 ^ e ≤ m * 8 := mul_le_mul_of_nonneg_left h3 hmq.le
    norm_num at h hm53
    linarith
  obtain ⟨k, hk⟩ := Int.eq_ofNat_of_zero_le (by omega : 0 ≤ e - 4)
  have e16 : (2 : ℚ) ^ e = 2 ^ k * 16 := by
    have : e = (k : ℤ) + 4 := by omega
    rw [this, zpow_add₀ (by norm_num), zpow_natCast]
    norm_num
  have hN : (2 : ℤ) ^ 52 + 1 ≤ m * 2 ^ k := by
    have : (2 : ℚ) ^ 52 < ((m * 2 ^ k : ℤ) : ℚ) := by
      push_cast
      rw [e16] at h
      norm_num at h ⊢
      linarith
    have : (2 : ℤ) ^ 52 < m * 2 ^ k := by exact_mod_cast this
    omega
  have hd16 : (2 : ℚ) ^ 56 + 16 ≤ (m : ℚ) * 2 ^ e := by
    have : ((2 : ℤ) ^ 52 + 1 : ℤ) ≤ ((m * 2 ^ k : ℤ) : ℚ) := by exact_mod_cast hN
    push_cast at this
    rw [e16]
    norm_num at this ⊢
    linarith
  have hy0 : (0 : ℚ) < (m : ℚ) * 2 ^ e - c := by
    have : (0 : ℚ) < 2 ^ 56 := by positivity
    linarith
  have hL1 : 56 ≤ Int.log 2 |(m : ℚ) * 2 ^ e - c| := by
    rw [abs_of_pos hy0]
    apply (Int.zpow_le_iff_le_log (by norm_num : 1 < 2) hy0).mp
    have e56 : ((2 : ℕ) : ℚ) ^ (56 : ℤ) = 2 ^ 56 := by norm_cast
    rw [e56]
    linarith
  have hL2 : Int.log 2 |(m : ℚ) * 2 ^ e - c| < 53 + e := by
    rw [abs_of_pos hy0]
    apply (Int.lt_zpow_iff_log_lt (by norm_num : 1 < 2) hy0).mp
    have e53 : ((2 : ℕ) : ℚ) ^ (53 + e) = 2 ^ 53 * 2 ^ e := by
      rw [zpow_add₀ (by norm_num)]
      norm_cast
    rw [e53]
    have : (m : ℚ) * 2 ^ e < 2 ^ 53 * 2 ^ e := mul_lt_mul_of_pos_right hm53 hpe
    linarith
  have hu : ulpExp ((m : ℚ) * 2 ^ e - c) = Int.log 2 |(m : ℚ) * 2 ^ e - c| - 52 := by
    unfold ulpExp
    omega
  set u : ℤ := Int.log 2 |(m : ℚ) * 2 ^ e - c| - 52 with hudef
  have hu4 : 4 ≤ u := by omega
  have hue : u ≤ e := by omega
  obtain ⟨j, hj⟩ := Int.eq_ofNat_of_zero_le (by omega : 0 ≤ e - u)
  have hpu : (0 : ℚ) < 2 ^ u := by positivity
  have eju : (2 : ℚ) ^ e = 2 ^ j * 2 ^ u := by
    have : e = (j : ℤ) + u := by omega
    rw [this, zpow_add₀ (by norm_num), zpow_natCast]
  have hu16 : (16 : ℚ) ≤ 2 ^ u := by
    have : (2 : ℚ) ^ (4 : ℤ) ≤ 2 ^ u := zpow_le_zpow_right₀ (by norm_num) hu4
    norm_num at this
    exact this
  have hfix := fl64_of_shape ((m : ℚ) * 2 ^ e - c) (m * 2 ^ j) u (c / 2 ^ u) hu
    (by
      push_cast
      rw [eju]
      field_simp
      ring)
    (by positivity)
    (by
      rw [div_lt_iff₀ hpu]
      linarith)
  rw [hfix, eju]
  push_cast
  ring

/-- Below `-2^56` adding less than 8 to a binary64 number rounds back to it. -/
theorem fl64_add_fixed (d c : ℚ) (hd : IsBinary64 d) (h : d < -2 ^ 56) (hc0 : 0 < c)
    (hc : c < 8) : fl64 (d + c) = d := by
  have hd2 : IsBinary64 (-d) := by
    obtain ⟨m, e, hm, h1, h2, rfl⟩ := hd
    exact ⟨-m, e, by rwa [abs_neg], h1, h2, by push_cast; ring⟩
  have := fl64_sub_fixed (-d) c hd2 (by linarith) hc0 hc
  have e : d + c = -(-d - c) := by ring
  rw [e, fl64_neg, this, neg_neg]

/-- A loop whose condition holds at a fixed point of its body never exits. -/
theorem whileFuel_none_of_fixed (cond : ℚ → Bool) (body : ℚ → ℚ) (d : ℚ)
    (hc : cond d = true) (hb : body d = d) (n : ℕ) : whileFuel cond body n d = none := by
  induction n with
  | zero => simp [whileFuel, hc]
  | succ k ih => simp [whileFuel, hc, hb, ih]

/-- A loop exits within `n` iterations when a measure `μ` that is negative
only where the condition fails drops by at least `g` with each execution of
the body and `μ d < n g`; the value on exit is `d` itself or a value of the
body. -/
theorem whileFuel_exits (cond : ℚ → Bool) (body : ℚ → ℚ) (μ : ℚ → ℚ) (g M : ℚ) (hg : 0 ≤ g)
    (hlow : ∀ x, μ x < 0 → cond x = false)
    (hb : ∀ x, cond x = true → μ x ≤ M → μ (body x) ≤ μ x - g)
    (n : ℕ) (d : ℚ) (hd : μ d ≤ M) (h : μ d - n * g < 0) :
    ∃ r, whileFuel cond body n d = some r ∧ cond r = false ∧
      ((cond d = false ∧ r = d) ∨
       (cond d = true ∧ ∃ x, cond x = true ∧ μ x ≤ M ∧ r = body x)) := by
  induction n generalizing d with
  | zero =>
    have hc : cond d = false := hlow d (by simpa using h)
    exact ⟨d, by simp [whileFuel, hc], hc, Or.inl ⟨hc, rfl⟩⟩
  | succ k ih =>
    by_cases hc : cond d = true
    · have hstep := hb d hc hd
      have h2 : μ (body d) - k * g < 0 := by
        push_cast at h
        linarith
      obtain ⟨r, hr, hcr, hcase⟩ := ih (body d) (by linarith) h2
      refine ⟨r, by simp [whileFuel, hc, hr], hcr, Or.inr ⟨hc, ?_⟩⟩
      rcases hcase with ⟨_, hrd⟩ | ⟨_, x, hx, hxM, hrx⟩
      · exact ⟨d, hc, hd, hrd⟩
      · exact ⟨x, hx, hxM, hrx⟩
    · have hc2 : cond d = false := by simpa using hc
      exact ⟨d, by simp [whileFuel, hc2], hc2, Or.inl ⟨hc2, rfl⟩⟩

/-- The binary64 value of `M_PI` lies between 3 and 4. -/
theorem M_PI_binary64_bounds : 3 < M_PI_binary64 ∧ M_PI_binary64 < 4 := by
  constructor <;> norm_num [M_PI_binary64]

/-- The product `2.*M_PI` is exact in binary64. -/
theorem fl64_two_M_PI : fl64 (2 * M_PI_binary64) = 2 * M_PI_binary64 := by
  have e : 2 * M_PI_binary64 = ((7074237752028440 : ℤ) : ℚ) * 2 ^ (-50 : ℤ) := by
    norm_num [M_PI_binary64]
  rw [e]
  exact fl64_eq_self _ _ (by norm_num) (by norm_num) (by norm_num)

/-- The value of `M_PI` is a binary64 number. -/
theorem isBinary64_M_PI : IsBinary64 M_PI_binary64 :=
  ⟨884279719003555, -48, by norm_num, by norm_num, by norm_num, by norm_num [M_PI_binary64]⟩

/-- Mirror image of a loop under negation of its variable. -/
theorem whileFuel_neg (cond cond2 : ℚ → Bool) (body body2 : ℚ → ℚ)
    (hc : ∀ x, cond2 x = cond (-x)) (hb : ∀ x, body2 x = -body (-x)) (n : ℕ) (d : ℚ) :
    whileFuel cond2 body2 n d = (whileFuel cond body n (-d)).map fun r => -r := by
  induction n generalizing d with
  | zero =>
    simp only [whileFuel, hc]
    split_ifs <;> simp
  | succ k ih =>
    simp only [whileFuel, hc]
    split_ifs
    · rw [ih, hb, neg_neg]
    · simp

/-- The loop `while (d < -M_PI) d += 2.*M_PI;` is the mirror image of
`while (d > M_PI) d -= 2.*M_PI;`. -/
theorem whileLtNegPi64_eq (n : ℕ) (d : ℚ) :
    whileLtNegPi64 n d = (whileGtPi64 n (-d)).map fun r => -r := by
  unfold whileLtNegPi64 whileGtPi64
  apply whileFuel_neg
  · intro x
    apply decide_eq_decide.mpr
    constructor <;> intro h <;> linarith
  · intro x
    rw [← fl64_neg]
    congr 1
    ring

/-- Powers of two from the third on are at least 8. -/
theorem two_zpow_ge_eight (K : ℤ) (hK : 3 ≤ K) : (8 : ℚ) ≤ 2 ^ K := by
  have : (2 : ℚ) ^ (3 : ℤ) ≤ 2 ^ K := zpow_le_zpow_right₀ (by norm_num) hK
  norm_num at this
  exact this

/-- Rounding error of the body `d -= 2.*M_PI` for `M_PI <= d <= 2^K`. -/
theorem body_error (K : ℤ) (hK : 3 ≤ K) (x : ℚ) (h1 : M_PI_binary64 ≤ x) (h2 : x ≤ 2 ^ K) :
    |fl64 (x - fl64 (2 * M_PI_binary64)) - (x - 2 * M_PI_binary64)| ≤ 2 ^ (K - 54) := by
  obtain ⟨p3, p4⟩ := M_PI_binary64_bounds
  have h8 := two_zpow_ge_eight K hK
  rw [fl64_two_M_PI]
  apply fl64_abs_sub_le _ K (by omega)
  rw [abs_lt]
  constructor <;> linarith

/-- The binary64 loop `while (d > M_PI) d -= 2.*M_PI;` started at `d <= 2^K`
exits within `n` iterations when `d - M_PI < n (2 M_PI - 2^(K-54))`. -/
theorem whileGtPi64_exits (K : ℤ) (hK : 3 ≤ K) (n : ℕ) (d : ℚ) (hd : d ≤ 2 ^ K)
    (hg : 0 ≤ 2 * M_PI_binary64 - 2 ^ (K - 54))
    (hn : d - M_PI_binary64 - n * (2 * M_PI_binary64 - 2 ^ (K - 54)) < 0) :
    ∃ r, whileGtPi64 n d = some r ∧ r ≤ M_PI_binary64 ∧
      ((d ≤ M_PI_binary64 ∧ r = d) ∨
       (M_PI_binary64 < d ∧ -M_PI_binary64 - 2 ^ (K - 54) ≤ r)) := by
  obtain ⟨r, hr, hcr, hcase⟩ := whileFuel_exits (fun x => decide (x > M_PI_binary64))
    (fun x => fl64 (x - fl64 (2 * M_PI_binary64))) (fun x => x - M_PI_binary64)
    (2 * M_PI_binary64 - 2 ^ (K - 54)) (2 ^ K - M_PI_binary64) hg
    (fun x hx => by
      simp only [decide_eq_false_iff_not, not_lt]
      simp only at hx
      linarith)
    (fun x hx hxM => by
      simp only [decide_eq_true_eq] at hx
      simp only at hxM ⊢
      have := (abs_le.mp (body_error K hK x hx.le (by linarith))).2
      linarith)
    n d (by simp only; linarith) hn
  simp only [decide_eq_false_iff_not, not_lt, decide_eq_true_eq] at hcr hcase
  refine ⟨r, hr, hcr, ?_⟩
  rcases hcase with ⟨h1, h2⟩ | ⟨h1, x, hx, hxM, hrx⟩
  · exact Or.inl ⟨h1, h2⟩
  · refine Or.inr ⟨h1, ?_⟩
    have := (abs_le.mp (body_error K hK x hx.le (by linarith))).1
    rw [hrx]
    linarith

/-- The binary64 loop `while (d >= M_PI) d -= 2.*M_PI;` started at `d <= 2^K`
exits within `n` iterations when `d - M_PI < n (2 M_PI - 2^(K-54))`. -/
theorem whileGePi64_exits (K : ℤ) (hK : 3 ≤ K) (n : ℕ) (d : ℚ) (hd : d ≤ 2 ^ K)
    (hg : 0 ≤ 2 * M_PI_binary64 - 2 ^ (K - 54))
    (hn : d - M_PI_binary64 - n * (2 * M_PI_binary64 - 2 ^ (K - 54)) < 0) :
    ∃ r, whileGePi64 n d = some r ∧ r < M_PI_binary64 ∧
      ((d < M_PI_binary64 ∧ r = d) ∨
       (M_PI_binary64 ≤ d ∧ -M_PI_binary64 - 2 ^ (K - 54) ≤ r)) := by
  obtain ⟨r, hr, hcr, hcase⟩ := whileFuel_exits (fun x => decide (x ≥ M_PI_binary64))
    (fun x => fl64 (x - fl64 (2 * M_PI_binary64))) (fun x => x - M_PI_binary64)
    (2 * M_PI_binary64 - 2 ^ (K - 54)) (2 ^ K - M_PI_binary64) hg
    (fun x hx => by
      simp only [decide_eq_false_iff_not, not_le]
      simp only at hx
      linarith)
    (fun x hx hxM => by
      simp only [decide_eq_true_eq] at hx
      simp only at hxM ⊢
      have := (abs_le.mp (body_error K hK x hx (by linarith))).2
      linarith)
    n d (by simp only; linarith) hn
  simp only [decide_eq_false_iff_not, not_le, decide_eq_true_eq] at hcr hcase
  refine ⟨r, hr, hcr, ?_⟩
  rcases hcase with ⟨h1, h2⟩ | ⟨h1, x, hx, hxM, hrx⟩
  · exact Or.inl ⟨h1, h2⟩
  · refine Or.inr ⟨h1, ?_⟩
    have := (abs_le.mp (body_error K hK x hx (by linarith))).1
    rw [hrx]
    linarith

/-- The binary64 loop `while (d < -M_PI) d += 2.*M_PI;` started at
`d >= -2^K` exits within `n` iterations when
`-d - M_PI < n (2 M_PI - 2^(K-54))`. -/
theorem whileLtNegPi64_exits (K : ℤ) (hK : 3 ≤ K) (n : ℕ) (d : ℚ) (hd : -2 ^ K ≤ d)
    (hg : 0 ≤ 2 * M_PI_binary64 - 2 ^ (K - 54))
    (hn : -d - M_PI_binary64 - n * (2 * M_PI_binary64 - 2 ^ (K - 54)) < 0) :
    ∃ r, whileLtNegPi64 n d = some r ∧ -M_PI_binary64 ≤ r ∧
      ((-M_PI_binary64 ≤ d ∧ r = d) ∨
       (d < -M_PI_binary64 ∧ r ≤ M_PI_binary64 + 2 ^ (K - 54))) := by
  obtain ⟨r, hr, hrp, hcase⟩ := whileGtPi64_exits K hK n (-d) (by linarith) hg hn
  refine ⟨-r, by rw [whileLtNegPi64_eq, hr]; rfl, by linarith, ?_⟩
  rcases hcase with ⟨h1, h2⟩ | ⟨h1, h2⟩
  · exact Or.inl ⟨by linarith, by rw [h2, neg_neg]⟩
  · exact Or.inr ⟨by linarith, by linarith⟩

/-- A loop whose condition fails at the start returns its input. -/
theorem whileFuel_of_false (cond : ℚ → Bool) (body : ℚ → ℚ) (n : ℕ) (d : ℚ)
    (h : cond d = false) : whileFuel cond body n d = some d := by
  cases n <;> simp [whileFuel, h]

/-- All binary64 normalization loops started at `|d| <= 2^K`, `K <= 56`, exit
within `n` iterations when `|d| - M_PI < n (2 M_PI - 2^(K-54))`. -/
theorem loops_exit (K : ℤ) (hK : 3 ≤ K) (hK2 : K ≤ 56) (n : ℕ) (d : ℚ) (hd : |d| ≤ 2 ^ K)
    (hn : |d| - M_PI_binary64 - n * (2 * M_PI_binary64 - 2 ^ (K - 54)) < 0) :
    (∃ r, whileGtPi64 n d = some r ∧ r ≤ M_PI_binary64) ∧
    (∃ r, whileGePi64 n d = some r ∧ r < M_PI_binary64) ∧
    (∃ r, whileLtNegPi64 n d = some r ∧ -M_PI_binary64 ≤ r) ∧
    (∃ r, normalizeAngle64 n d = some r ∧ -M_PI_binary64 ≤ r) ∧
    (∃ r, normalizeAngleGe64 n d = some r ∧ -M_PI_binary64 ≤ r) := by
  obtain ⟨p3, p4⟩ := M_PI_binary64_bounds
  have hδ : (2 : ℚ) ^ (K - 54) ≤ 4 := by
    have : (2 : ℚ) ^ (K - 54) ≤ 2 ^ (2 : ℤ) := zpow_le_zpow_right₀ (by norm_num) (by omega)
    norm_num at this
    exact this
  have hg : 0 ≤ 2 * M_PI_binary64 - 2 ^ (K - 54) := by linarith
  have e50 : (2 : ℚ) ^ ((4 : ℤ) - 54) ≤ 1 := by norm_num
  have e50p : (0 : ℚ) < 2 ^ ((4 : ℤ) - 54) := by positivity
  have hg4 : 0 ≤ 2 * M_PI_binary64 - 2 ^ ((4 : ℤ) - 54) := by linarith
  have e16 : (2 : ℚ) ^ (4 : ℤ) = 16 := by norm_num
  have a1 := le_abs_self d
  have a2 := neg_le_abs d
  have hn1 : M_PI_binary64 ≤ |d| → (1 : ℚ) ≤ n := by
    intro h
    rcases Nat.eq_zero_or_pos n with h0 | h0
    · rw [h0] at hn
      simp at hn
      linarith
    · exact_mod_cast h0
  have second : ∀ r : ℚ, -M_PI_binary64 - 2 ^ (K - 54) ≤ r → r ≤ M_PI_binary64 →
      M_PI_binary64 ≤ |d| → ∃ t, whileLtNegPi64 n r = some t ∧ -M_PI_binary64 ≤ t := by
    intro r hr1 hr2 hd2
    have hn' := hn1 hd2
    have hprod : 1 * (2 * M_PI_binary64 - 2 ^ ((4 : ℤ) - 54))
        ≤ (n : ℚ) * (2 * M_PI_binary64 - 2 ^ ((4 : ℤ) - 54)) :=
      mul_le_mul_of_nonneg_right hn' hg4
    obtain ⟨t, ht, htp, _⟩ := whileLtNegPi64_exits 4 (by norm_num) n r
      (by rw [e16]; linarith) hg4 (by linarith)
    exact ⟨t, ht, htp⟩
  obtain ⟨r1, h1, h1p, c1⟩ := whileGtPi64_exits K hK n d (by linarith) hg (by linarith)
  obtain ⟨r2, h2, h2p, c2⟩ := whileGePi64_exits K hK n d (by linarith) hg (by linarith)
  obtain ⟨r3, h3, h3p, _⟩ := whileLtNegPi64_exits K hK n d (by linarith) hg (by linarith)
  refine ⟨⟨r1, h1, h1p⟩, ⟨r2, h2, h2p⟩, ⟨r3, h3, h3p⟩, ?_, ?_⟩
  · unfold normalizeAngle64
    rw [h1, Option.some_bind]
    rcases c1 with ⟨_, e⟩ | ⟨hd2, hr⟩
    · rw [e]
      exact ⟨r3, h3, h3p⟩
    · exact second r1 hr h1p (by linarith)
  · unfold normalizeAngleGe64
    rw [h2, Option.some_bind]
    rcases c2 with ⟨_, e⟩ | ⟨hd2, hr⟩
    · rw [e]
      exact ⟨r3, h3, h3p⟩
    · exact second r2 hr h2p.le (by linarith)

/-- For `|d| <= 2^29` the budget `ceil(|d| / (2 M_PI))` is enough: the rounding
errors of that many subtractions add up to less than `M_PI`. -/
theorem budget_tight (d : ℚ) (hd : |d| ≤ 2 ^ 29) :
    |d| - M_PI_binary64 - (⌈|d| / (2 * M_PI_binary64)⌉₊ : ℚ)
      * (2 * M_PI_binary64 - 2 ^ ((29 : ℤ) - 54)) < 0 := by
  obtain ⟨p3, p4⟩ := M_PI_binary64_bounds
  have h2p : (0 : ℚ) < 2 * M_PI_binary64 := by linarith
  have h1 : |d| / (2 * M_PI_binary64) ≤ (⌈|d| / (2 * M_PI_binary64)⌉₊ : ℚ) := Nat.le_ceil _
  have h2 : (⌈|d| / (2 * M_PI_binary64)⌉₊ : ℚ) < |d| / (2 * M_PI_binary64) + 1 :=
    Nat.ceil_lt_add_one (div_nonneg (abs_nonneg d) h2p.le)
  have h3 : |d| ≤ (⌈|d| / (2 * M_PI_binary64)⌉₊ : ℚ) * (2 * M_PI_binary64) :=
    (div_le_iff₀ h2p).mp h1
  have h4 : |d| / (2 * M_PI_binary64) ≤ 2 ^ 29 / 6 := by
    exact div_le_div₀ (by positivity) hd (by norm_num) (by linarith)
  have e : (2 : ℚ) ^ ((29 : ℤ) - 54) = 1 / 2 ^ 25 := by norm_num
  rw [e]
  norm_num at h4 ⊢
  linarith

/-- For `|d| <= 2^56` each subtraction lowers `d` by at least 2, so the budget
`ceil(|d| / 2)` is enough. -/
theorem budget_coarse (d : ℚ) :
    |d| - M_PI_binary64 - (⌈|d| / 2⌉₊ : ℚ) * (2 * M_PI_binary64 - 2 ^ ((56 : ℤ) - 54)) < 0 := by
  obtain ⟨p3, p4⟩ := M_PI_binary64_bounds
  have h1 : |d| / 2 ≤ (⌈|d| / 2⌉₊ : ℚ) := Nat.le_ceil _
  have h0 : (0 : ℚ) ≤ (⌈|d| / 2⌉₊ : ℚ) := Nat.cast_nonneg _
  have e : (2 : ℚ) ^ ((56 : ℤ) - 54) = 4 := by norm_num
  rw [e]
  nlinarith

/-- Started on a binary64 number above `2^56`, the loops that subtract
`2.*M_PI` never exit. -/
theorem loops_never_exit_above (d : ℚ) (hd : IsBinary64 d) (h : 2 ^ 56 < d) (n : ℕ) :
    whileGtPi64 n d = none ∧ whileGePi64 n d = none ∧
    normalizeAngle64 n d = none ∧ normalizeAngleGe64 n d = none := by
  obtain ⟨p3, p4⟩ := M_PI_binary64_bounds
  have h56 : (4 : ℚ) < 2 ^ 56 := by norm_num
  have hb : fl64 (d - fl64 (2 * M_PI_binary64)) = d := by
    rw [fl64_two_M_PI]
    exact fl64_sub_fixed d _ hd h (by linarith) (by linarith)
  have g1 : whileGtPi64 n d = none :=
    whileFuel_none_of_fixed _ _ d (decide_eq_true (by linarith)) hb n
  have g2 : whileGePi64 n d = none :=
    whileFuel_none_of_fixed _ _ d (decide_eq_true (by linarith)) hb n
  refine ⟨g1, g2, ?_, ?_⟩
  · unfold normalizeAngle64
    rw [g1]
    rfl
  · unfold normalizeAngleGe64
    rw [g2]
    rfl

/-- Started on a binary64 number below `-2^56`, the loop that adds `2.*M_PI`
never exits. -/
theorem loops_never_exit_below (d : ℚ) (hd : IsBinary64 d) (h : d < -2 ^ 56) (n : ℕ) :
    whileLtNegPi64 n d = none ∧
    normalizeAngle64 n d = none ∧ normalizeAngleGe64 n d = none := by
  obtain ⟨p3, p4⟩ := M_PI_binary64_bounds
  have h56 : (4 : ℚ) < 2 ^ 56 := by norm_num
  have hb : fl64 (d + fl64 (2 * M_PI_binary64)) = d := by
    rw [fl64_two_M_PI]
    exact fl64_add_fixed d _ hd h (by linarith) (by linarith)
  have g : whileLtNegPi64 n d = none :=
    whileFuel_none_of_fixed _ _ d (decide_eq_true (by linarith)) hb n
  refine ⟨g, ?_, ?_⟩
  · unfold normalizeAngle64 whileGtPi64
    rw [whileFuel_of_false _ _ n d (decide_eq_false (by linarith)), Option.some_bind]
    exact g
  · unfold normalizeAngleGe64 whileGePi64
    rw [whileFuel_of_false _ _ n d (decide_eq_false (by linarith)), Option.some_bind]
    exact g

/-- Yaw of the predicted mean with the constructor's weights. -/
theorem Prediction_yaw_mean {α : Type} [LinearOrderedField α] [FloorRing α] (E : Env α) (s : UKF α) (dt : α)
    (hw : s.weights_ = weightsInit n_aug) :
    (UKF.Prediction E s dt).x_ 3 = s.x_ 3 + s.x_ 4 * dt := by
  have hm := AugmentedSigmaPoints_row_sum E s hw
  have z : (0.0 : α) = 0 := by norm_num
  have x3 : s.x_aug 3 = s.x_ 3 := rfl
  have x4 : s.x_aug 4 = s.x_ 4 := rfl
  have x6 : s.x_aug 6 = 0 := z
  have hX : ∀ (r : Fin 5) (j : Fin 15),
      (UKF.SigmaPointPrediction E s (UKF.AugmentedSigmaPoints E s) dt).Xsig_pred_ r j
        = ctrvStep E dt (fun k => UKF.AugmentedSigmaPoints E s k j) r := fun _ _ => rfl
  rw [Prediction_x_apply]
  have e : ∀ j, ctrvStep E dt (fun k => UKF.AugmentedSigmaPoints E s k j) 3 * s.weights_ j
      = UKF.AugmentedSigmaPoints E s 3 j * s.weights_ j
        + dt * (UKF.AugmentedSigmaPoints E s 4 j * s.weights_ j)
        + 0.5 * dt * dt * (UKF.AugmentedSigmaPoints E s 6 j * s.weights_ j) := by
    intro j
    rw [(ctrvStep_linear E dt _).2.1]
    ring
  simp only [hX, e, Finset.sum_add_distrib, ← Finset.mul_sum, hm, x3, x4, x6]
  ring

/-- Yaw difference of sigma point 7 (positive yaw-acceleration noise) for a
state at rest whose square root is diagonal. -/
theorem yaw_difference_at_rest {α : Type} [LinearOrderedField α] [FloorRing α] (E : Env α) (s : UKF α) (dt a b : α)
    (dA : Fin 7 → α) (hx : s.x_ = ![a, b, 0, 0, 0]) (hw : s.weights_ = weightsInit n_aug)
    (hA : E.llt s.P_aug = Matrix.diagonal dA) :
    (UKF.SigmaPointPrediction E s (UKF.AugmentedSigmaPoints E s) dt).Xsig_pred_ 3 7
      - (UKF.Prediction E s dt).x_ 3
      = 0.5 * dt * dt * (E.sqrt ((n_aug : α) + s.lambda_) * dA 6) := by
  have hcol := fun k => AugmentedSigmaPoints_at_rest E s a b dA hx hA k 7
  have h3 : UKF.AugmentedSigmaPoints E s 3 7 = 0 := by
    rw [hcol]
    simp
  have h4 : UKF.AugmentedSigmaPoints E s 4 7 = 0 := by
    rw [hcol]
    simp
  have h6 : UKF.AugmentedSigmaPoints E s 6 7
      = E.sqrt ((n_aug : α) + s.lambda_) * dA 6 := by
    rw [hcol]
    simp
  have hX : (UKF.SigmaPointPrediction E s (UKF.AugmentedSigmaPoints E s) dt).Xsig_pred_ 3 7
      = ctrvStep E dt (fun k => UKF.AugmentedSigmaPoints E s k 7) 3 := rfl
  rw [hX, (ctrvStep_linear E dt _).2.1, Prediction_yaw_mean E s dt hw, hx, h3, h4, h6]
  simp

/-- After a first LASER package, the prediction over `dt` gives sigma point 7 a
yaw difference of magnitude at least `dt^2 / 2`, when `llt` returns a
lower-triangular square root and `sqrt 3 >= 1`. -/
theorem second_call_yaw_difference {α : Type} [LinearOrderedField α] [FloorRing α] (E : Env α) (R0 : Matrix (Fin 3) (Fin 3) α)
    (x0 : Fin 5 → α) (t0 : Int) (dt a b : α)
    (hllt : IsLowerCholesky
      (E.llt (UKF.ProcessMeasurement E R0 (UKF.new x0) ⟨t0, SensorType.LASER, ![a, b]⟩).P_aug)
      (UKF.ProcessMeasurement E R0 (UKF.new x0) ⟨t0, SensorType.LASER, ![a, b]⟩).P_aug)
    (hsq : 1 ≤ E.sqrt 3) :
    dt * dt / 2 ≤
      |(UKF.SigmaPointPrediction E
          (UKF.ProcessMeasurement E R0 (UKF.new x0) ⟨t0, SensorType.LASER, ![a, b]⟩)
          (UKF.AugmentedSigmaPoints E
            (UKF.ProcessMeasurement E R0 (UKF.new x0) ⟨t0, SensorType.LASER, ![a, b]⟩))
          dt).Xsig_pred_ 3 7
        - (UKF.Prediction E
          (UKF.ProcessMeasurement E R0 (UKF.new x0) ⟨t0, SensorType.LASER, ![a, b]⟩) dt).x_ 3| := by
  rw [first_laser_state] at hllt ⊢
  set s1 : UKF α := { UKF.new x0 with
        x_ := ![a, b, 0, 0, 0]
        P_ := Matrix.diagonal ![(UKF.new x0).std_laspx_ ^ 2, (UKF.new x0).std_laspy_ ^ 2,
          1.0, (2 * E.M_PI) ^ 2, 1.0]
        time_us_ := t0
        is_initialized_ := true } with hs1
  have hpi := E.M_PI_pos
  rw [P_aug_of_diagonal s1 _ _ _ _ _ rfl] at hllt
  have hD : ∀ i : Fin 7, (![(UKF.new x0).std_laspx_ ^ 2, (UKF.new x0).std_laspy_ ^ 2,
      1.0, (2 * E.M_PI) ^ 2, 1.0, s1.std_a_ * s1.std_a_, s1.std_yawdd_ * s1.std_yawdd_]
      : Fin 7 → α) i ≠ 0 := by
    intro i
    fin_cases i <;> (simp [hs1, UKF.new, hpi.ne'] <;> norm_num)
  have hA := hllt.eq_diagonal hD
  have h66 : E.llt (Matrix.diagonal ![(UKF.new x0).std_laspx_ ^ 2,
      (UKF.new x0).std_laspy_ ^ 2, 1.0, (2 * E.M_PI) ^ 2, 1.0, s1.std_a_ * s1.std_a_,
      s1.std_yawdd_ * s1.std_yawdd_]) 6 6 * E.llt (Matrix.diagonal
      ![(UKF.new x0).std_laspx_ ^ 2,
      (UKF.new x0).std_laspy_ ^ 2, 1.0, (2 * E.M_PI) ^ 2, 1.0, s1.std_a_ * s1.std_a_,
      s1.std_yawdd_ * s1.std_yawdd_]) 6 6 = 1 := by
    have e := congrFun (congrFun hllt.2 6) 6
    rw [hA, Matrix.diagonal_transpose, Matrix.diagonal_mul_diagonal,
      Matrix.diagonal_apply_eq, Matrix.diagonal_apply_eq] at e
    rw [e]
    simp [hs1, UKF.new]
  rw [← P_aug_of_diagonal s1 _ _ _ _ _ rfl] at hA h66
  rw [yaw_difference_at_rest E s1 dt a b _ rfl rfl hA]
  have hl : (n_aug : α) + s1.lambda_ = 3 := by
    rw [add_comm]
    exact lambdaInit_add n_aug
  rw [hl]
  have habs : |E.llt s1.P_aug 6 6| = 1 := by
    have : |E.llt s1.P_aug 6 6| * |E.llt s1.P_aug 6 6| = 1 := by
      rw [← abs_mul, h66, abs_one]
    have hn := abs_nonneg (E.llt s1.P_aug 6 6)
    nlinarith
  have h0 : (0 : α) ≤ dt * dt := mul_self_nonneg dt
  have e : (0.5 : α) * dt * dt * (E.sqrt 3 * E.llt s1.P_aug 6 6)
      = dt * dt / 2 * E.sqrt 3 * E.llt s1.P_aug 6 6 := by
    norm_num
    ring
  rw [e, abs_mul, abs_mul, habs, mul_one, abs_of_nonneg (by positivity),
    abs_of_nonneg (by linarith)]
  nlinarith

/-- The yaw component of `xDiff` is the normalization of `yawDifference`. -/
theorem xDiff_yaw {α : Type} [LinearOrderedField α] [FloorRing α] (E : Env α) (s : UKF α)
    (dt : α) (i : Fin 15) :
    xDiff E (UKF.SigmaPointPrediction E s (UKF.AugmentedSigmaPoints E s) dt).Xsig_pred_
        (UKF.Prediction E s dt).x_ i 3
      = normalizeAngle E.M_PI E.M_PI_pos (UKF.yawDifference E s dt i) := by
  unfold xDiff
  simp only [Function.update_same]
  rfl

/-- The number `2^60` is a binary64 number. -/
theorem isBinary64_two_pow_sixty : IsBinary64 (2 ^ 60) :=
  ⟨1, 60, by norm_num, by norm_num, by norm_num, by norm_num⟩

/-- No binary64 number within half of a value of magnitude at least `2^60`
lets the normalization exit. -/
theorem never_exit_near (y x : ℚ) (hy : 2 ^ 60 ≤ |y|) (hx : IsBinary64 x)
    (h : |x - y| ≤ |y| / 2) (n : ℕ) : normalizeAngle64 n x = none := by
  have h1 : |y| - |x| ≤ |x - y| := by
    rw [abs_sub_comm x y]
    exact abs_sub_abs_le_abs_sub y x
  have h2 : (2 : ℚ) ^ 56 < |x| := by
    have : (2 : ℚ) ^ 56 < 2 ^ 60 / 2 := by norm_num
    linarith
  rcases lt_abs.mp h2 with h3 | h3
  · exact (loops_never_exit_above x hx h3 n).2.2.1
  · exact (loops_never_exit_below x hx (by linarith) n).2.1

/-- C17 as stated fails on the `double`s the code computes with: `2^60` is a
binary64 number, `2^60 - 2.*M_PI` rounds back to `2^60`, so the loop
`while (d > M_PI) d -= 2.*M_PI;` started at `d = 2^60` has not exited after
`ceil(|d| / (2 M_PI))` iterations, nor after any number of iterations; the
same holds for the `>=` loop and both two-loop sequences, and for the loop
`while (d < -M_PI) d += 2.*M_PI;` started at `-2^60`. -/
theorem C17_counterexample :
    IsBinary64 (2 ^ 60) ∧
    fl64 (2 ^ 60 - fl64 (2 * M_PI_binary64)) = 2 ^ 60 ∧
    whileGtPi64 ⌈|(2 : ℚ) ^ 60| / (2 * M_PI_binary64)⌉₊ (2 ^ 60) = none ∧
    (∀ n, whileGtPi64 n (2 ^ 60) = none ∧ whileGePi64 n (2 ^ 60) = none ∧
      normalizeAngle64 n (2 ^ 60) = none ∧ normalizeAngleGe64 n (2 ^ 60) = none) ∧
    (∀ n, whileLtNegPi64 n (-2 ^ 60) = none) := by
  obtain ⟨p3, p4⟩ := M_PI_binary64_bounds
  have hb := isBinary64_two_pow_sixty
  have hlt : (2 : ℚ) ^ 56 < 2 ^ 60 := by norm_num
  have hneg : IsBinary64 (-2 ^ 60) :=
    ⟨-1, 60, by norm_num, by norm_num, by norm_num, by norm_num⟩
  refine ⟨hb, ?_, (loops_never_exit_above _ hb hlt _).1,
    fun n => loops_never_exit_above _ hb hlt n,
    fun n => (loops_never_exit_below _ hneg (by norm_num) n).1⟩
  rw [fl64_two_M_PI]
  exact fl64_sub_fixed _ _ hb hlt (by linarith) (by linarith)

/-- C17, amended: in binary64 arithmetic every angle-normalization loop
(`d > M_PI`, `d >= M_PI`, `d < -M_PI`, and the two-loop sequences of
`PredictMeanAndCovariance`, `PredictRadarMeasurement` and `UpdateRadar`)
exits within `ceil(|d| / (2 M_PI))` iterations when `|d| <= 2^29`, and within
`ceil(|d| / 2)` iterations when `|d| <= 2^56`. Started on a finite binary64
number above `2^56` the loops that subtract never exit, and below `-2^56` the
loop that adds never exits: no iteration bound holds there. The yaw
component that `Prediction` normalizes for sigma point `i` is
`yawDifference`; after a first LASER package and a second package `dt`
seconds later with `dt^2 >= 2^61` (for instance 1.7e9 s), the second
`ProcessMeasurement` call runs `Prediction(dt)` and the exact yaw difference
of sigma point 7 is at least `2^60` in magnitude (for `llt` a lower-triangular
square root and `sqrt 3 >= 1`), so that no binary64 number within half of it
lets the normalization exit. -/
theorem C17_binary64_loops_bounded (d : ℚ) :
    (|d| ≤ 2 ^ 29 → LoopsExitWithin ⌈|d| / (2 * M_PI_binary64)⌉₊ d) ∧
    (|d| ≤ 2 ^ 56 → LoopsExitWithin ⌈|d| / 2⌉₊ d) ∧
    (IsBinary64 d → 2 ^ 56 < d → ∀ n,
      whileGtPi64 n d = none ∧ whileGePi64 n d = none ∧
      normalizeAngle64 n d = none ∧ normalizeAngleGe64 n d = none) ∧
    (IsBinary64 d → d < -2 ^ 56 → ∀ n,
      whileLtNegPi64 n d = none ∧
      normalizeAngle64 n d = none ∧ normalizeAngleGe64 n d = none) ∧
    (∀ (E : Env ℚ) (s : UKF ℚ) (dt : ℚ),
      (UKF.Prediction E s dt).P_ = ∑ i, s.weights_ i • vecMulVec
        (xDiff E (UKF.SigmaPointPrediction E s (UKF.AugmentedSigmaPoints E s) dt).Xsig_pred_
          (UKF.Prediction E s dt).x_ i)
        (xDiff E (UKF.SigmaPointPrediction E s (UKF.AugmentedSigmaPoints E s) dt).Xsig_pred_
          (UKF.Prediction E s dt).x_ i) ∧
      ∀ i, xDiff E (UKF.SigmaPointPrediction E s (UKF.AugmentedSigmaPoints E s) dt).Xsig_pred_
          (UKF.Prediction E s dt).x_ i 3
        = normalizeAngle E.M_PI E.M_PI_pos (UKF.yawDifference E s dt i)) ∧
    (∀ (E : Env ℚ) (R0 R1 : Matrix (Fin 3) (Fin 3) ℚ) (x0 : Fin 5 → ℚ) (t0 t1 : Int)
      (a b : ℚ) (z : Fin 2 → ℚ) (s1 : UKF ℚ),
      s1 = UKF.ProcessMeasurement E R0 (UKF.new x0) ⟨t0, SensorType.LASER, ![a, b]⟩ →
      IsLowerCholesky (E.llt s1.P_aug) s1.P_aug → 1 ≤ E.sqrt 3 →
      2 ^ 61 ≤ (((t1 - t0 : Int) : ℚ) / 1000000.0) * (((t1 - t0 : Int) : ℚ) / 1000000.0) →
      UKF.ProcessMeasurement E R1 s1 ⟨t1, SensorType.LASER, z⟩ =
        UKF.UpdateLidar
          { UKF.Prediction E s1 (((t1 - t0 : Int) : ℚ) / 1000000.0) with time_us_ := t1 } z ∧
      2 ^ 60 ≤ |UKF.yawDifference E s1 (((t1 - t0 : Int) : ℚ) / 1000000.0) 7| ∧
      ∀ x, IsBinary64 x →
        |x - UKF.yawDifference E s1 (((t1 - t0 : Int) : ℚ) / 1000000.0) 7|
          ≤ |UKF.yawDifference E s1 (((t1 - t0 : Int) : ℚ) / 1000000.0) 7| / 2 →
        ∀ n, normalizeAngle64 n x = none) := by
  refine ⟨fun h => ?_, fun h => ?_, loops_never_exit_above d, loops_never_exit_below d,
    fun E s dt => ⟨rfl, fun i => xDiff_yaw E s dt i⟩, ?_⟩
  · exact loops_exit 29 (by norm_num) (by norm_num) _ d (by exact_mod_cast h) (budget_tight d h)
  · exact loops_exit 56 (by norm_num) (by norm_num) _ d (by exact_mod_cast h) (budget_coarse d)
  · intro E R0 R1 x0 t0 t1 a b z s1 hs1 hllt hsq hdt
    subst hs1
    have hy := second_call_yaw_difference E R0 x0 t0 (((t1 - t0 : Int) : ℚ) / 1000000.0) a b
      hllt hsq
    have hmag : (2 : ℚ) ^ 60 ≤ |UKF.yawDifference E
        (UKF.ProcessMeasurement E R0 (UKF.new x0) ⟨t0, SensorType.LASER, ![a, b]⟩)
        (((t1 - t0 : Int) : ℚ) / 1000000.0) 7| := by
      have e : (2 : ℚ) ^ 60 = 2 ^ 61 / 2 := by norm_num
      rw [e]
      exact le_trans (div_le_div_of_nonneg_right hdt (by norm_num)) hy
    refine ⟨?_, hmag, fun x hx hnear n => never_exit_near _ x hmag hx hnear n⟩
    rw [ProcessMeasurement_tracking_laser E R1 _ t1 z
      (ProcessMeasurement_is_initialized E R0 _ _)]
    rw [first_laser_state]
    rfl

/-- On the rational test environment `sqrt 3` is 1. -/
theorem testEnv_sqrt_three : testEnv.sqrt 3 = 1 := by
  have h : Nat.sqrt 3 = 1 := by
    symm
    rw [Nat.eq_sqrt]
    norm_num
  show Rat.sqrt 3 = 1
  simp [Rat.sqrt, Int.sqrt, h]

/-- On the rational test environment, a LASER fix `[5, 3]` at `t = 0` followed
by a prediction over 1.7e9 seconds gives sigma point 7 the yaw difference
1.445e18. -/
theorem testEnv_yawDifference :
    UKF.yawDifference testEnv
      (UKF.ProcessMeasurement testEnv 0 (UKF.new 0) ⟨0, SensorType.LASER, ![5, 3]⟩)
      ((((1700000000000000 : Int) - 0 : Int) : ℚ) / 1000000.0) 7 = 1445000000000000000 := by
  have key : ∀ s : UKF ℚ, s.x_ = ![5, 3, 0, 0, 0] → s.weights_ = weightsInit n_aug →
      s.lambda_ = lambdaInit n_aug → s.std_yawdd_ = 1 →
      UKF.yawDifference testEnv s
        ((((1700000000000000 : Int) - 0 : Int) : ℚ) / 1000000.0) 7 = 1445000000000000000 := by
    intro s hx hw hlam hstd
    have hA : testEnv.llt s.P_aug = Matrix.diagonal fun i => Rat.sqrt (s.P_aug i i) := rfl
    have h := yaw_difference_at_rest testEnv s
      ((((1700000000000000 : Int) - 0 : Int) : ℚ) / 1000000.0) 5 3 _ hx hw hA
    have hl : ((n_aug : ℚ)) + lambdaInit n_aug = 3 := by
      rw [add_comm]
      exact lambdaInit_add n_aug
    have h1 : Rat.sqrt (1 * 1) = 1 := by
      rw [Rat.sqrt_eq]
      norm_num
    have hP : s.P_aug 6 6 = 1 * 1 := by
      simp [UKF.P_aug, hstd]
    unfold UKF.yawDifference
    refine Eq.trans h ?_
    rw [hlam, hl, testEnv_sqrt_three, hP, h1]
    norm_num
  rw [first_laser_state]
  exact key _ rfl rfl rfl rfl

/-- C17, concrete runs: `d = 100` with the budget `ceil(|d| / (2 M_PI))`,
`d = 2^50` with the budget `ceil(|d| / 2)`, the binary64 numbers
`3 * 2^56` and `-3 * 2^56` on which the loops never exit, and on the rational
test environment a LASER fix `[5, 3]` at `t = 0` followed by a package at
`t = 1.7e15` microseconds, whose yaw difference 1.445e18 for sigma point 7 is
a binary64 number on which the normalization never exits. -/
theorem C17_witness :
    LoopsExitWithin ⌈|(100 : ℚ)| / (2 * M_PI_binary64)⌉₊ 100 ∧
    LoopsExitWithin ⌈|(2 : ℚ) ^ 50| / 2⌉₊ (2 ^ 50) ∧
    (∀ n, whileGtPi64 n (3 * 2 ^ 56) = none ∧ whileGePi64 n (3 * 2 ^ 56) = none ∧
      normalizeAngle64 n (3 * 2 ^ 56) = none ∧ normalizeAngleGe64 n (3 * 2 ^ 56) = none) ∧
    (∀ n, whileLtNegPi64 n (-(3 * 2 ^ 56)) = none ∧
      normalizeAngle64 n (-(3 * 2 ^ 56)) = none ∧
      normalizeAngleGe64 n (-(3 * 2 ^ 56)) = none) ∧
    2 ^ 60 ≤ |UKF.yawDifference testEnv
      (UKF.ProcessMeasurement testEnv 0 (UKF.new 0) ⟨0, SensorType.LASER, ![5, 3]⟩)
      ((((1700000000000000 : Int) - 0 : Int) : ℚ) / 1000000.0) 7| ∧
    ∀ n, normalizeAngle64 n 1445000000000000000 = none :=
  ⟨(C17_binary64_loops_bounded 100).1 (by norm_num),
    (C17_binary64_loops_bounded (2 ^ 50)).2.1 (by norm_num),
    (C17_binary64_loops_bounded (3 * 2 ^ 56)).2.2.1
      ⟨3, 56, by norm_num, by norm_num, by norm_num, by norm_num⟩ (by norm_num),
    (C17_binary64_loops_bounded (-(3 * 2 ^ 56))).2.2.2.1
      ⟨-3, 56, by norm_num, by norm_num, by norm_num, by norm_num⟩ (by norm_num),
    ((C17_binary64_loops_bounded 0).2.2.2.2.2 testEnv 0 0 0 0 1700000000000000 5 3 ![0, 0] _ rfl
      testEnv_llt_scenario (le_of_eq testEnv_sqrt_three.symm) (by norm_num)).2.1,
    ((C17_binary64_loops_bounded 0).2.2.2.2.2 testEnv 0 0 0 0 1700000000000000 5 3 ![0, 0] _ rfl
      testEnv_llt_scenario (le_of_eq testEnv_sqrt_three.symm) (by norm_num)).2.2
      1445000000000000000
      ⟨44097900390625, 15, by norm_num, by norm_num, by norm_num, by norm_num⟩
      (by rw [testEnv_yawDifference]; norm_num)⟩

end Binary64Loops
